import Mathlib

/-!
# Eulerian trail construction: a shallow embedding of `eulerian.c`

The C program keeps its nodes in heap records that are reached through pointers.
Here the node list of the graph is a Lean list, and a pointer to a node is the
position of that node in the list: nodes are only ever appended, so positions are
stable addresses.  Linked lists of `et_elem_t` become Lean lists, the tail pointers
(`et_adj_cur`, `et_node_cur`, `et_trail_cur`) become "append at the end".
C `int` values are modelled by `Int` (no overflow: all counters are bounded by twice
the number of edges read), `/` and `%` by the truncating `Int.tdiv` and `Int.tmod`.
-/

namespace Eulerian

/-! ## Data model -/

/-- List element `et_elem_t`: a used flag and a pointer to a node (its position in the node list). -/
structure et_elem where
  et_elem_usd : Int
  et_elem_node : Nat
deriving DecidableEq, Repr

/-- Node record `et_node_t`; `et_adj_lst` is the adjacency list in insertion order. -/
structure et_node where
  et_id : Int
  et_deg : Int
  et_edeg : Int
  et_vst : Int
  et_adj_lst : List et_elem
deriving DecidableEq, Repr

/-- Graph record `et_graph_t`; `et_odd_nodes` holds pointers to the recorded odd nodes. -/
structure et_graph where
  et_node_num : Int
  et_edge_num : Int
  et_node_lst : List et_node
  et_odd_nodes : List Nat
deriving DecidableEq, Repr

/-- Trail record `et_trail_t`: the stored entry count and the sequence of node pointers. -/
structure et_trail where
  et_trail_num : Int
  et_trail_lst : List Nat
deriving DecidableEq, Repr

/-- The static variables of the program: `graph`, `circuit` and `trail_nodes`. -/
structure et_state where
  graph : et_graph
  circuit : Int
  trail_nodes : Int
deriving DecidableEq, Repr

/-- Outcome of a modelled C function: a value, a null-pointer dereference of the C code
(`fault`), or exhaustion of the bound the model puts on a loop or recursion (`timeout`). -/
inductive et_result (α : Type) where
  | ok : α → et_result α
  | fault : et_result α
  | timeout : et_result α
deriving DecidableEq, Repr

/-- What `main` writes to standard output: the literal `-1` or the node identifiers of a trail. -/
inductive et_output where
  | no_solution : et_output
  | trail_ids : List Int → et_output
deriving DecidableEq, Repr

/-- Record read through a pointer that addresses no node (never happens for pointers the
program creates). -/
def null_node : et_node := ⟨0, 0, 0, 0, []⟩

/-- Dereference of a node pointer. -/
def node_at (nodes : List et_node) (p : Nat) : et_node := nodes.getD p null_node

/-! ## Graph model -/

/-- Search of `et_get_node` from position `p` on. -/
def et_get_node_from (id : Int) : List et_node → Nat → Option Nat
  | [], _ => none
  | n :: rest, p => if n.et_id = id then some p else et_get_node_from id rest (p + 1)

/-- Function `et_get_node`: pointer to the first node of the node list with identifier `id`. -/
def et_get_node (g : et_graph) (id : Int) : Option Nat :=
  et_get_node_from id g.et_node_lst 0

/-- Function `et_add_node`: append a node record to the node list and count it. -/
def et_add_node (g : et_graph) (n : et_node) : et_graph :=
  { g with et_node_lst := g.et_node_lst ++ [n], et_node_num := g.et_node_num + 1 }

/-- Function `et_add_adj`: append `elem2` to the adjacency list of the node `elem1` points to
and increment that node's degree. -/
def et_add_adj (g : et_graph) (elem1 elem2 : et_elem) : et_graph :=
  let n := node_at g.et_node_lst elem1.et_elem_node
  let n1 : et_node := { n with et_adj_lst := n.et_adj_lst ++ [elem2], et_deg := n.et_deg + 1 }
  { g with et_node_lst := g.et_node_lst.set elem1.et_elem_node n1 }

/-- Freshly allocated node record of `et_add_edge`. -/
def et_new_node (id : Int) : et_node := ⟨id, 0, 0, 0, []⟩

/-- The lookup-or-create step of `et_add_edge` for one endpoint. -/
def et_get_or_create (g : et_graph) (id : Int) : et_graph × Nat :=
  match et_get_node g id with
  | some p => (g, p)
  | none => (et_add_node g (et_new_node id), g.et_node_lst.length)

/-- Function `et_add_edge`. -/
def et_add_edge (g : et_graph) (n1 n2 : Int) : et_graph :=
  let r1 := et_get_or_create g n1
  let r2 := if n1 = n2 then r1 else et_get_or_create r1.1 n2
  let elem_adj1 : et_elem := ⟨0, r1.2⟩
  let elem_adj2 : et_elem := ⟨0, r2.2⟩
  let g2 := r2.1
  if n1 = n2 then
    let n := node_at g2.et_node_lst r1.2
    et_add_adj
      { g2 with et_node_lst := g2.et_node_lst.set r1.2 { n with et_deg := n.et_deg + 1 } }
      elem_adj1 elem_adj2
  else
    et_add_adj (et_add_adj g2 elem_adj1 elem_adj2) elem_adj2 elem_adj1

/-- Function `et_init_graph`. -/
def et_init_graph : et_graph := ⟨0, 0, [], []⟩

/-- The reading loop of `et_build_graph`: one `et_add_edge` per pair read. -/
def et_read_edges (g : et_graph) : List (Int × Int) → et_graph
  | [] => g
  | e :: rest => et_read_edges (et_add_edge g e.1 e.2) rest

/-- Program state once `et_build_graph` has read all pairs and stored the edge count. -/
def et_build (edges : List (Int × Int)) : et_state :=
  { graph := { et_read_edges et_init_graph edges with et_edge_num := edges.length },
    circuit := 0, trail_nodes := 0 }

/-- Function `et_build_graph` on an already tokenised input: `none` stands for the early exit
that prints `-1` when more nodes were declared than found. -/
def et_build_graph (specified_node_num : Int) (edges : List (Int × Int)) : Option et_state :=
  let st := et_build edges
  if specified_node_num > st.graph.et_node_num then none else some st

/-! ## Feasibility validator -/

/-- Effect of `et_dfs` on a node it enters for the first time. -/
def et_dfs_visit (st : et_state) (p : Nat) : et_state :=
  let n := node_at st.graph.et_node_lst p
  { st with
    graph := { st.graph with
      et_node_lst := st.graph.et_node_lst.set p { n with et_vst := 1, et_edeg := n.et_deg },
      et_odd_nodes :=
        if n.et_deg.tmod 2 ≠ 0 then
          match st.graph.et_odd_nodes with
          | [] => [p]
          | h :: _ => [h, p]
        else st.graph.et_odd_nodes },
    trail_nodes := st.trail_nodes + n.et_deg }

/-- The `while(cur)` loop of `et_dfs` over an adjacency list; `f` is the recursive call. -/
def et_dfs_loop (f : et_state → Nat → Int → et_result (et_state × Int)) :
    et_state → Int → List et_elem → et_result (et_state × Int)
  | st, cnt, [] => .ok (st, cnt)
  | st, cnt, cur :: nxt =>
    if (node_at st.graph.et_node_lst cur.et_elem_node).et_vst = 0 then
      match f st cur.et_elem_node cnt with
      | .ok r => et_dfs_loop f r.1 r.2 nxt
      | .fault => .fault
      | .timeout => .timeout
    else et_dfs_loop f st cnt nxt

/-- Function `et_dfs`, with a bound on the recursion depth as first argument. -/
def et_dfs : Nat → et_state → Nat → Int → et_result (et_state × Int)
  | 0, _, _, _ => .timeout
  | fuel + 1, st, elem, cnt =>
    if (node_at st.graph.et_node_lst elem).et_vst ≠ 0 then .ok (st, cnt)
    else
      et_dfs_loop (et_dfs fuel) (et_dfs_visit st elem) (cnt + 1)
        (node_at st.graph.et_node_lst elem).et_adj_lst

/-- Function `et_is_connected`; the recursion bound is the number of nodes plus one. -/
def et_is_connected (st : et_state) : et_result (et_state × Int) :=
  let r := match st.graph.et_node_lst with
    | [] => et_result.ok (st, 0)
    | _ :: _ => et_dfs (st.graph.et_node_lst.length + 1) st 0 0
  match r with
  | .ok (st1, cnt) =>
    .ok ({ st1 with trail_nodes := st1.trail_nodes.tdiv 2 + 1 },
         if cnt = st1.graph.et_node_num then 1 else 0)
  | .fault => .fault
  | .timeout => .timeout

/-- The parity scan of `et_validate_graph`: number of nodes of odd degree. -/
def num_deg_odd : List et_node → Int
  | [] => 0
  | n :: rest => (if n.et_deg.tmod 2 ≠ 0 then 1 else 0) + num_deg_odd rest

/-- Function `et_validate_graph`: the new state and the returned verdict. -/
def et_validate_graph (st : et_state) : et_result (et_state × Int) :=
  match st.graph.et_node_lst with
  | [] => .ok (st, 0)
  | _ :: _ =>
    let odd := num_deg_odd st.graph.et_node_lst
    let st1 := if odd = 0 then { st with circuit := 1 } else st
    if odd = 1 ∨ odd > 2 then .ok (st1, 0) else et_is_connected st1

/-! ## Sub-circuit constructor -/

/-- Function `et_trail_add_elem`. -/
def et_trail_add_elem (trail : et_trail) (node : Nat) : et_trail :=
  { et_trail_num := trail.et_trail_num + 1, et_trail_lst := trail.et_trail_lst ++ [node] }

/-- One marking loop of `et_set_edge_used`: flag the first entry whose node has identifier `id`. -/
def et_mark_first (nodes : List et_node) (id : Int) : List et_elem → List et_elem
  | [] => []
  | elem :: nxt =>
    if (node_at nodes elem.et_elem_node).et_id = id then { elem with et_elem_usd := 1 } :: nxt
    else elem :: et_mark_first nodes id nxt

/-- Decrement of `et_edeg` through a node pointer. -/
def et_dec_edeg (nodes : List et_node) (p : Nat) : List et_node :=
  let n := node_at nodes p
  nodes.set p { n with et_edeg := n.et_edeg - 1 }

/-- Run one marking loop of `et_set_edge_used` on the adjacency list of node `p`. -/
def et_mark_adj (nodes : List et_node) (p : Nat) (id : Int) : List et_node :=
  let n := node_at nodes p
  nodes.set p { n with et_adj_lst := et_mark_first nodes id n.et_adj_lst }

/-- Function `et_set_edge_used`. -/
def et_set_edge_used (nodes : List et_node) (node1 node2 : Nat) : List et_node :=
  let nodes1 := et_dec_edeg nodes node1
  let nodes2 := et_dec_edeg nodes1 node2
  let nodes3 := et_mark_adj nodes2 node1 (node_at nodes2 node2).et_id
  et_mark_adj nodes3 node2 (node_at nodes3 node1).et_id

/-- The search loop of `et_list_add_elem`: is a node with identifier `id` in the list. -/
def et_list_find (nodes : List et_node) (id : Int) : List Nat → Bool
  | [] => false
  | cur :: nxt => if (node_at nodes cur).et_id = id then true else et_list_find nodes id nxt

/-- Function `et_list_add_elem`. -/
def et_list_add_elem (nodes : List et_node) (list : et_trail) (node : Nat) : et_trail :=
  if (node_at nodes node).et_edeg > 1 then
    if et_list_find nodes (node_at nodes node).et_id list.et_trail_lst then list
    else et_trail_add_elem list node
  else list

/-- Result of a sub-circuit computation: the node records, the candidate list and the
returned sub-circuit (`none` for `NULL`). -/
structure et_walk where
  nodes : List et_node
  list : et_trail
  sub : Option et_trail
deriving DecidableEq, Repr

/-- The walk loop of `et_sub_circuit` while `cur` runs along the adjacency list of `prv`;
`k` continues the loop at the head of the next node's adjacency list. -/
def et_sub_circuit_scan (k : List et_node → et_trail → et_trail → Nat → et_result et_walk)
    (end_ : Nat) (nodes : List et_node) (list sub : et_trail) (prv : Nat) :
    List et_elem → et_result et_walk
  | [] => .ok ⟨nodes, list, none⟩
  | cur :: nxt =>
    if (node_at nodes cur.et_elem_node).et_edeg > 0 ∧ cur.et_elem_usd = 0 then
      let sub1 := et_trail_add_elem sub cur.et_elem_node
      let nodes1 := et_set_edge_used nodes prv cur.et_elem_node
      let list1 := et_list_add_elem nodes1 list cur.et_elem_node
      if (node_at nodes1 cur.et_elem_node).et_id = (node_at nodes1 end_).et_id then
        .ok ⟨nodes1, list1, some sub1⟩
      else k nodes1 list1 sub1 cur.et_elem_node
    else et_sub_circuit_scan k end_ nodes list sub prv nxt

/-- The walk loop of `et_sub_circuit`, bounded by the number of accepted steps. -/
def et_sub_circuit_loop (end_ : Nat) :
    Nat → List et_node → et_trail → et_trail → Nat → et_result et_walk
  | 0, _, _, _, _ => .timeout
  | fuel + 1, nodes, list, sub, prv =>
    et_sub_circuit_scan (et_sub_circuit_loop end_ fuel) end_ nodes list sub prv
      (node_at nodes prv).et_adj_lst

/-- Bound for the walk loop: every accepted step lowers the sum of the positive `et_edeg`. -/
def et_walk_fuel (nodes : List et_node) : Nat :=
  (nodes.map (fun n => n.et_edeg.toNat)).sum + 1

/-- Function `et_sub_circuit`; `none` is the `NULL` pointer. -/
def et_sub_circuit (nodes : List et_node) (start end_ : Option Nat) (list : et_trail) :
    et_result et_walk :=
  match start with
  | none => .ok ⟨nodes, list, none⟩
  | some s =>
    let e := match end_ with
      | none => s
      | some e => e
    let sub := et_trail_add_elem ⟨0, []⟩ s
    let list1 := if (node_at nodes s).et_edeg > 2 then et_list_add_elem nodes list s else list
    et_sub_circuit_loop e (et_walk_fuel nodes) nodes list1 sub s

/-! ## Trail assembler -/

/-- The search loop of `et_insert_sub_circuit`: position of the first entry of the trail whose
node has identifier `id`. -/
def et_find_pos (nodes : List et_node) (id : Int) : List Nat → Option Nat
  | [] => none
  | cur :: nxt =>
    if (node_at nodes cur).et_id = id then some 0
    else match et_find_pos nodes id nxt with
      | none => none
      | some i => some (i + 1)

/-- Function `et_insert_sub_circuit`.  A sub-circuit with an empty list is dereferenced by the
search loop; a sub-circuit of one entry cuts the trail after the insertion point, as the
pointer assignments of the C code do. -/
def et_insert_sub_circuit (nodes : List et_node) (trail : et_trail) (sub : Option et_trail) :
    et_result et_trail :=
  match sub with
  | none => .ok trail
  | some s =>
    match trail.et_trail_lst, s.et_trail_lst with
    | [], _ => .ok trail
    | _ :: _, [] => .fault
    | _ :: _, r :: rest =>
      match et_find_pos nodes (node_at nodes r).et_id trail.et_trail_lst with
      | none => .ok trail
      | some i =>
        .ok { et_trail_num := trail.et_trail_num + (s.et_trail_num - 1),
              et_trail_lst := trail.et_trail_lst.take (i + 1) ++
                (match rest with
                 | [] => []
                 | _ :: _ => rest ++ trail.et_trail_lst.drop (i + 1)) }

/-- Function `et_is_trail`. -/
def et_is_trail (st : et_state) (trail : et_trail) : Bool :=
  decide (trail.et_trail_num ≥ st.trail_nodes)

/-- Result of the trail assembler: final node records, candidate list and trail. -/
structure et_run where
  nodes : List et_node
  list : et_trail
  trail : et_trail
deriving DecidableEq, Repr

/-- The splicing loop of `et_eulerian_trail`; `pos` is the position of `cur` in the candidate list. -/
def et_splice_loop (st : et_state) :
    Nat → List et_node → et_trail → et_trail → Nat → et_result et_run
  | 0, _, _, _, _ => .timeout
  | fuel + 1, nodes, list, trail, pos =>
    match list.et_trail_lst.get? pos with
    | none => .ok ⟨nodes, list, trail⟩
    | some cur =>
      if et_is_trail st trail then .ok ⟨nodes, list, trail⟩
      else
        match et_sub_circuit nodes (some cur) none list with
        | .ok w =>
          match et_insert_sub_circuit w.nodes trail w.sub with
          | .ok trail1 => et_splice_loop st fuel w.nodes w.list trail1 (pos + 1)
          | .fault => .fault
          | .timeout => .timeout
        | .fault => .fault
        | .timeout => .timeout

/-- Function `et_eulerian_trail`; the splicing loop is bounded by the number of nodes plus one. -/
def et_eulerian_trail (st : et_state) : et_result et_run :=
  let nodes := st.graph.et_node_lst
  let first :=
    if st.circuit ≠ 0 then
      match nodes with
      | [] => et_result.fault
      | _ :: _ => et_sub_circuit nodes (some 0) none ⟨0, []⟩
    else
      match st.graph.et_odd_nodes with
      | a :: b :: _ => et_sub_circuit nodes (some a) (some b) ⟨0, []⟩
      | _ => et_result.fault
  match first with
  | .ok w =>
    match w.sub with
    | none => .fault
    | some trail =>
      if et_is_trail st trail then .ok ⟨w.nodes, w.list, trail⟩
      else et_splice_loop st (nodes.length + 1) w.nodes w.list trail 0
  | .fault => .fault
  | .timeout => .timeout

/-- Identifiers printed by `et_print_trail`. -/
def et_print_trail (nodes : List et_node) (trail : et_trail) : List Int :=
  trail.et_trail_lst.map (fun p => (node_at nodes p).et_id)

/-- Function `main` on an already tokenised input file. -/
def et_main (specified_node_num : Int) (edges : List (Int × Int)) : et_result et_output :=
  match et_build_graph specified_node_num edges with
  | none => .ok .no_solution
  | some st =>
    match et_validate_graph st with
    | .ok (st1, verdict) =>
      if verdict ≠ 0 then
        match et_eulerian_trail st1 with
        | .ok r => .ok (.trail_ids (et_print_trail r.nodes r.trail))
        | .fault => .fault
        | .timeout => .timeout
      else .ok .no_solution
    | .fault => .fault
    | .timeout => .timeout

/-! ## Specification vocabulary -/

/-- Consecutive pairs of a node sequence: the edge traversals of a walk. -/
def trail_pairs : List Int → List (Int × Int)
  | a :: b :: rest => (a, b) :: trail_pairs (b :: rest)
  | _ => []

/-- An undirected edge with its endpoints put in increasing order. -/
def norm_edge (e : Int × Int) : Int × Int := if e.1 ≤ e.2 then e else (e.2, e.1)

/-- The walk `ids` traverses every edge of the edge list exactly once. -/
def uses_each_edge_once (edges : List (Int × Int)) (ids : List Int) : Prop :=
  List.Perm ((trail_pairs ids).map norm_edge) (edges.map norm_edge)

instance (edges : List (Int × Int)) (ids : List Int) :
    Decidable (uses_each_edge_once edges ids) := by
  unfold uses_each_edge_once; infer_instance

/-- Number of self-loops at the node with identifier `v` in an edge list. -/
def self_loops (edges : List (Int × Int)) (v : Int) : Nat := edges.count (v, v)

/-- Verdict and instance type (`circuit`) the validator computes on a freshly built graph. -/
def et_validated (edges : List (Int × Int)) : et_result (Int × Int) :=
  match et_validate_graph (et_build edges) with
  | .ok r => .ok (r.2, r.1.circuit)
  | .fault => .fault
  | .timeout => .timeout

/-- Identifiers of the odd nodes the validator has recorded on a freshly built graph. -/
def et_odd_ids (edges : List (Int × Int)) : et_result (List Int) :=
  match et_validate_graph (et_build edges) with
  | .ok r => .ok (r.1.graph.et_odd_nodes.map (fun p => (node_at r.1.graph.et_node_lst p).et_id))
  | .fault => .fault
  | .timeout => .timeout

/-- Node `q` has an adjacency entry that points to node `r`. -/
def et_adj (nodes : List et_node) (q r : Nat) : Prop :=
  ∃ e, e ∈ (node_at nodes q).et_adj_lst ∧ e.et_elem_node = r

/-- Node `q` can be reached from node `p` along adjacency entries. -/
def et_reach (nodes : List et_node) (p q : Nat) : Prop :=
  Relation.ReflTransGen (et_adj nodes) p q

/-- Number of nodes of odd degree, counted on the node list. -/
def odd_count (nodes : List et_node) : Nat :=
  (nodes.filter (fun n => n.et_deg % 2 = 1)).length

/-- Every adjacency entry points to a node of the node list. -/
def et_wf (nodes : List et_node) : Prop :=
  ∀ q e, e ∈ (node_at nodes q).et_adj_lst → e.et_elem_node < nodes.length

/-- Pointers to the nodes that the connectivity pass has not entered yet. -/
def unvisited (nodes : List et_node) : Finset Nat :=
  (Finset.range nodes.length).filter (fun q => (node_at nodes q).et_vst = 0)

/-- Pointers to the nodes marked visited. -/
def visited (nodes : List et_node) : Finset Nat :=
  (Finset.range nodes.length).filter (fun q => (node_at nodes q).et_vst ≠ 0)

/-- Number of nodes marked visited. -/
def vis_cnt (nodes : List et_node) : Int :=
  Finset.sum (Finset.range nodes.length)
    (fun q => if (node_at nodes q).et_vst ≠ 0 then 1 else 0)

/-- Sum of the degrees of the nodes marked visited. -/
def vis_deg (nodes : List et_node) : Int :=
  Finset.sum (Finset.range nodes.length)
    (fun q => if (node_at nodes q).et_vst ≠ 0 then (node_at nodes q).et_deg else 0)

/-- Sum of the degrees of all nodes. -/
def deg_sum (nodes : List et_node) : Int :=
  Finset.sum (Finset.range nodes.length) (fun q => (node_at nodes q).et_deg)

/-- Relation between the state `st`, counter `cnt` before and the state `st1`, counter `cnt1`
after a part of the depth-first traversal whose calls start at the nodes in `S`. -/
structure dfs_post (st : et_state) (cnt : Int) (S : Nat → Prop) (st1 : et_state) (cnt1 : Int) :
    Prop where
  len_eq : st1.graph.et_node_lst.length = st.graph.et_node_lst.length
  shape : ∀ q, (node_at st1.graph.et_node_lst q).et_id = (node_at st.graph.et_node_lst q).et_id ∧
    (node_at st1.graph.et_node_lst q).et_deg = (node_at st.graph.et_node_lst q).et_deg ∧
    (node_at st1.graph.et_node_lst q).et_adj_lst = (node_at st.graph.et_node_lst q).et_adj_lst
  keep : ∀ q, (node_at st.graph.et_node_lst q).et_vst ≠ 0 →
    node_at st1.graph.et_node_lst q = node_at st.graph.et_node_lst q
  fresh : ∀ q, (node_at st1.graph.et_node_lst q).et_vst ≠ 0 →
    (node_at st.graph.et_node_lst q).et_vst = 0 →
    (node_at st1.graph.et_node_lst q).et_edeg = (node_at st.graph.et_node_lst q).et_deg
  sound : ∀ q, (node_at st1.graph.et_node_lst q).et_vst ≠ 0 →
    (node_at st.graph.et_node_lst q).et_vst = 0 →
    ∃ s, S s ∧ et_reach st.graph.et_node_lst s q
  closed : ∀ q, (node_at st1.graph.et_node_lst q).et_vst ≠ 0 →
    (node_at st.graph.et_node_lst q).et_vst = 0 →
    ∀ r, et_adj st.graph.et_node_lst q r → (node_at st1.graph.et_node_lst r).et_vst ≠ 0
  cnt_eq : cnt1 - vis_cnt st1.graph.et_node_lst = cnt - vis_cnt st.graph.et_node_lst
  tn_eq : st1.trail_nodes - vis_deg st1.graph.et_node_lst =
    st.trail_nodes - vis_deg st.graph.et_node_lst
  circuit_eq : st1.circuit = st.circuit
  num_eq : st1.graph.et_node_num = st.graph.et_node_num
  edge_eq : st1.graph.et_edge_num = st.graph.et_edge_num

/-- Invariant of the graph after `k` calls of `et_add_edge` on the empty graph. -/
structure built_inv (g : et_graph) (k : Nat) : Prop where
  num : g.et_node_num = (g.et_node_lst.length : Int)
  wf : et_wf g.et_node_lst
  vst0 : ∀ q, (node_at g.et_node_lst q).et_vst = 0
  deg_nonneg : ∀ q, 0 ≤ (node_at g.et_node_lst q).et_deg
  sum_eq : deg_sum g.et_node_lst = 2 * (k : Int)
  nodup : (g.et_node_lst.map (fun n => n.et_id)).Nodup
  odd_nil : g.et_odd_nodes = []

/-- Pointwise description of the graph `g1` that `et_add_edge g n1 n2` returns; `p1` and `p2`
point to the endpoint nodes. -/
structure add_edge_spec (g : et_graph) (n1 n2 : Int) (g1 : et_graph) (p1 p2 : Nat) : Prop where
  nodes_eq : g1.et_node_lst.map (fun n => n.et_id) = g.et_node_lst.map (fun n => n.et_id) ++
    (if n1 ∈ g.et_node_lst.map (fun n => n.et_id) then [] else [n1]) ++
    (if n2 ∈ g.et_node_lst.map (fun n => n.et_id) ∨ n2 = n1 then [] else [n2])
  num_eq : g1.et_node_num = g.et_node_num +
    ((g1.et_node_lst.length : Int) - (g.et_node_lst.length : Int))
  edge_num_eq : g1.et_edge_num = g.et_edge_num
  odd_eq : g1.et_odd_nodes = g.et_odd_nodes
  p1_lt : p1 < g1.et_node_lst.length
  p2_lt : p2 < g1.et_node_lst.length
  id1 : (node_at g1.et_node_lst p1).et_id = n1
  id2 : (node_at g1.et_node_lst p2).et_id = n2
  first1 : ∀ q, q < p1 → (node_at g1.et_node_lst q).et_id ≠ n1
  first2 : ∀ q, q < p2 → (node_at g1.et_node_lst q).et_id ≠ n2
  old1 : et_get_node g n1 = some p1 ∨
    (n1 ∉ g.et_node_lst.map (fun n => n.et_id) ∧ p1 = g.et_node_lst.length)
  old2 : et_get_node g n2 = some p2 ∨ (n2 ∉ g.et_node_lst.map (fun n => n.et_id) ∧
    g.et_node_lst.length ≤ p2)
  deg_eq : ∀ q, (node_at g1.et_node_lst q).et_deg = (node_at g.et_node_lst q).et_deg +
    (if q = p1 then 1 else 0) + (if q = p2 then 1 else 0)
  adj_eq : ∀ q, (node_at g1.et_node_lst q).et_adj_lst = (node_at g.et_node_lst q).et_adj_lst ++
    (if q = p1 then [⟨0, p2⟩] else []) ++ (if q = p2 ∧ p1 ≠ p2 then [⟨0, p1⟩] else [])
  vst_eq : ∀ q, (node_at g1.et_node_lst q).et_vst = (node_at g.et_node_lst q).et_vst
  edeg_eq : ∀ q, (node_at g1.et_node_lst q).et_edeg = (node_at g.et_node_lst q).et_edeg
  id_eq : ∀ q, q < g.et_node_lst.length →
    (node_at g1.et_node_lst q).et_id = (node_at g.et_node_lst q).et_id


/-- Node identifiers of an edge list, in reading order. -/
def edge_ids : List (Int × Int) → List Int
  | [] => []
  | e :: rest => e.1 :: e.2 :: edge_ids rest

/-- Number of distinct node identifiers that occur in an edge list. -/
def distinct_ids (edges : List (Int × Int)) : Nat := (edge_ids edges).dedup.length

/-- Sum over the nodes of `max(et_edeg, 0)`, the quantity that bounds the walk loop. -/
def et_walk_measure (nodes : List et_node) : Nat :=
  (nodes.map (fun n => n.et_edeg.toNat)).sum

/-- Identifiers of the entries of a trail or candidate list. -/
def trail_ids_of (nodes : List et_node) (l : List Nat) : List Int :=
  l.map (fun p => (node_at nodes p).et_id)

/-- State of the candidate list that the program maintains: no identifier occurs twice and
every entry points to a node of the node list. -/
def cand_inv (nodes : List et_node) (list : et_trail) : Prop :=
  (trail_ids_of nodes list.et_trail_lst).Nodup ∧
    ∀ p, p ∈ list.et_trail_lst → p < nodes.length

/-- The part of the node records that the trail construction never changes: the length of the
node list and, per node, identifier, degree, visited flag and adjacency targets. -/
def walk_frame (nodes0 nodes : List et_node) : Prop :=
  nodes.length = nodes0.length ∧
    ∀ q, (node_at nodes q).et_id = (node_at nodes0 q).et_id ∧
      (node_at nodes q).et_deg = (node_at nodes0 q).et_deg ∧
      (node_at nodes q).et_vst = (node_at nodes0 q).et_vst ∧
      (node_at nodes q).et_adj_lst.map (fun e => e.et_elem_node) =
        (node_at nodes0 q).et_adj_lst.map (fun e => e.et_elem_node)

/-- Pointers held by the adjacency entries of node `p`, in list order. -/
def targets (nodes : List et_node) (p : Nat) : List Nat :=
  (node_at nodes p).et_adj_lst.map (fun e => e.et_elem_node)

/-- Node `p` has an adjacency entry for `x` that is not flagged used. -/
def unused (nodes : List et_node) (p x : Nat) : Prop :=
  ∃ e, e ∈ (node_at nodes p).et_adj_lst ∧ e.et_elem_node = x ∧ e.et_elem_usd = 0

/-- Share of one adjacency entry of node `p` in the remaining degree of `p`: an unused entry
counts once, an unused self-loop entry twice. -/
def entry_weight (p : Nat) (e : et_elem) : Int :=
  if e.et_elem_usd = 0 then (if e.et_elem_node = p then 2 else 1) else 0

/-- Normalised identifier pair of the edge between the nodes `p` and `x`. -/
def edge_of (nodes : List et_node) (p x : Nat) : Int × Int :=
  norm_edge ((node_at nodes p).et_id, (node_at nodes x).et_id)

/-- Shape of a graph built from an edge list without repeated edges: identifiers are unique,
entries point into the node list, no adjacency list holds a target twice, and every entry has
its reverse entry. -/
structure simple_graph (nodes : List et_node) : Prop where
  ids_nodup : (nodes.map (fun n => n.et_id)).Nodup
  wf : et_wf nodes
  targets_nodup : ∀ p, (targets nodes p).Nodup
  symm : ∀ p x, x ∈ targets nodes p → p ∈ targets nodes x

/-- Invariant of the graph while `et_build_graph` reads an edge list without repeated edges;
`done` holds the edges read so far. -/
structure simple_inv (g : et_graph) (done : List (Int × Int)) : Prop where
  simple : simple_graph g.et_node_lst
  fresh : ∀ p e, e ∈ (node_at g.et_node_lst p).et_adj_lst → e.et_elem_usd = 0
  sound : ∀ p x, x ∈ targets g.et_node_lst p →
    edge_of g.et_node_lst p x ∈ done.map norm_edge
  deg_eq : ∀ p, (node_at g.et_node_lst p).et_deg =
    ((node_at g.et_node_lst p).et_adj_lst.map (entry_weight p)).sum
  deg_pos : ∀ p, p < g.et_node_lst.length → 0 < (node_at g.et_node_lst p).et_deg

/-- State of the odd-node list while the connectivity pass runs: it is empty while no marked
node has odd degree, holds the only marked node of odd degree, or holds the first and the
last marked node of odd degree. -/
def odd_list_inv (st : et_state) : Prop :=
  (st.graph.et_odd_nodes = [] ∧
    ∀ q, (node_at st.graph.et_node_lst q).et_vst ≠ 0 →
      ¬ (node_at st.graph.et_node_lst q).et_deg % 2 = 1) ∨
  (∃ a, st.graph.et_odd_nodes = [a] ∧
    (node_at st.graph.et_node_lst a).et_vst ≠ 0 ∧
    (node_at st.graph.et_node_lst a).et_deg % 2 = 1 ∧
    ∀ q, (node_at st.graph.et_node_lst q).et_vst ≠ 0 →
      (node_at st.graph.et_node_lst q).et_deg % 2 = 1 → q = a) ∨
  (∃ a b, st.graph.et_odd_nodes = [a, b] ∧ a ≠ b ∧
    (node_at st.graph.et_node_lst a).et_vst ≠ 0 ∧
    (node_at st.graph.et_node_lst a).et_deg % 2 = 1 ∧
    (node_at st.graph.et_node_lst b).et_vst ≠ 0 ∧
    (node_at st.graph.et_node_lst b).et_deg % 2 = 1)

/-- Consecutive pairs of a sequence of node pointers. -/
def ptr_pairs : List Nat → List (Nat × Nat)
  | a :: b :: rest => (a, b) :: ptr_pairs (b :: rest)
  | _ => []

/-- An adjacency entry after the entry for node `t` has been flagged as used. -/
def flag_to (t : Nat) (e : et_elem) : et_elem :=
  if e.et_elem_node = t then { e with et_elem_usd := 1 } else e

/-- Consistency of the node records of a graph without repeated edges while edges are being
consumed: an entry is unused exactly when its reverse entry is, and `et_edeg` is the weighted
number of unused entries. -/
structure walk_inv (nodes : List et_node) : Prop where
  simple : simple_graph nodes
  mirror : ∀ p x, unused nodes p x → unused nodes x p
  edeg_eq : ∀ p, (node_at nodes p).et_edeg =
    ((node_at nodes p).et_adj_lst.map (entry_weight p)).sum

/-- Pairs of node pointers that the walks have traversed, checked against the node records:
every pair has its adjacency entry, that entry is flagged as used, and no edge occurs twice
among the pairs. -/
structure pairs_used (nodes : List et_node) (W : List (Nat × Nat)) : Prop where
  entry : ∀ c, c ∈ W → c.2 ∈ targets nodes c.1
  flagged : ∀ c, c ∈ W → ¬ unused nodes c.1 c.2
  nodup : (W.map (fun c => edge_of nodes c.1 c.2)).Nodup

/-- State of the walk loop of `et_sub_circuit` at the top of an iteration, in a graph without
repeated edges: `W` holds the pairs traversed by earlier walks, the walk started at `s`, runs
to `e` and stands at `prv`. -/
structure walk_state (nodes0 : List et_node) (W : List (Nat × Nat)) (s e : Nat)
    (nodes : List et_node) (sub : et_trail) (prv : Nat) : Prop where
  inv : walk_inv nodes
  frame : walk_frame nodes0 nodes
  shape : ∃ t, sub.et_trail_lst = t ++ [prv] ∧ (t ++ [prv]).head? = some s
  num : sub.et_trail_num = (sub.et_trail_lst.length : Int)
  used : pairs_used nodes (W ++ ptr_pairs sub.et_trail_lst)
  parity : ∀ q, (node_at nodes q).et_edeg % 2 = 1 ↔ ¬ (q = e ↔ q = prv)
  live : prv = e → 0 < (node_at nodes prv).et_edeg
  prv_lt : prv < nodes.length
  end_lt : e < nodes.length

/-- Result of a walk of `et_sub_circuit` that reached its end node `e` from `s`. -/
structure walk_done (nodes0 : List et_node) (W : List (Nat × Nat)) (s e : Nat)
    (w : et_walk) : Prop where
  inv : walk_inv w.nodes
  frame : walk_frame nodes0 w.nodes
  sub : ∃ t u, w.sub = some t ∧ t.et_trail_lst = s :: (u ++ [e]) ∧
    t.et_trail_num = (t.et_trail_lst.length : Int) ∧
    pairs_used w.nodes (W ++ ptr_pairs t.et_trail_lst)
  even : ∀ q, (node_at w.nodes q).et_edeg % 2 = 0

/-- State of the splicing loop of `et_eulerian_trail` at the top of an iteration, in a graph
without repeated edges: the trail runs from `s` to `e` over edges flagged as used, none of them
twice, and every `et_edeg` is even. -/
structure trail_state (nodes0 : List et_node) (s e : Nat) (nodes : List et_node)
    (list trail : et_trail) : Prop where
  inv : walk_inv nodes
  frame : walk_frame nodes0 nodes
  cand : cand_inv nodes list
  first : trail.et_trail_lst.head? = some s
  last : trail.et_trail_lst.getLast? = some e
  two : 2 ≤ trail.et_trail_lst.length
  num : trail.et_trail_num = (trail.et_trail_lst.length : Int)
  used : pairs_used nodes (ptr_pairs trail.et_trail_lst)
  even : ∀ q, (node_at nodes q).et_edeg % 2 = 0

/-- Arguments of one call `et_sub_circuit(cur, NULL)` of the splicing loop: the node records
and the candidate list at the time of the call, and the candidate `root` the walk starts
from. -/
structure et_call where
  nodes : List et_node
  list : et_trail
  root : Nat

/-- The calls of `et_sub_circuit` made by the splicing loop of `et_eulerian_trail`, in order;
the recursion is that of `et_splice_loop`. -/
def et_splice_calls (st : et_state) :
    Nat → List et_node → et_trail → et_trail → Nat → List et_call
  | 0, _, _, _, _ => []
  | fuel + 1, nodes, list, trail, pos =>
    match list.et_trail_lst.get? pos with
    | none => []
    | some cur =>
      if et_is_trail st trail then []
      else
        ⟨nodes, list, cur⟩ ::
          match et_sub_circuit nodes (some cur) none list with
          | .ok w =>
            match et_insert_sub_circuit w.nodes trail w.sub with
            | .ok trail1 => et_splice_calls st fuel w.nodes w.list trail1 (pos + 1)
            | .fault => []
            | .timeout => []
          | .fault => []
          | .timeout => []

/-- The calls of `et_sub_circuit` that `et_eulerian_trail` makes after the initial walk. -/
def et_candidate_calls (st : et_state) : List et_call :=
  let nodes := st.graph.et_node_lst
  let first :=
    if st.circuit ≠ 0 then
      match nodes with
      | [] => et_result.fault
      | _ :: _ => et_sub_circuit nodes (some 0) none ⟨0, []⟩
    else
      match st.graph.et_odd_nodes with
      | a :: b :: _ => et_sub_circuit nodes (some a) (some b) ⟨0, []⟩
      | _ => et_result.fault
  match first with
  | .ok w =>
    match w.sub with
    | none => []
    | some trail =>
      if et_is_trail st trail then []
      else et_splice_calls st (nodes.length + 1) w.nodes w.list trail 0
  | .fault => []
  | .timeout => []

/-! ## The graph model: lemmas -/

theorem node_at_of_le (l : List et_node) (q : Nat) (h : l.length ≤ q) : node_at l q = null_node := by
  unfold node_at
  exact List.getD_eq_default _ _ h

theorem node_at_set (l : List et_node) (p q : Nat) (x : et_node) :
    node_at (l.set p x) q = if q = p ∧ p < l.length then x else node_at l q := by
  unfold node_at
  simp only [List.getD_eq_getElem?_getD, List.getElem?_set]
  by_cases h : p = q
  · subst h
    by_cases h2 : p < l.length
    · simp [h2]
    · simp [h2]
      have : l.length ≤ p := by omega
      simp [List.getElem?_eq_none this]
  · have : ¬ q = p := fun e => h e.symm
    simp [h, this]

theorem node_at_append_left (l m : List et_node) (q : Nat) (h : q < l.length) :
    node_at (l ++ m) q = node_at l q := by
  unfold node_at
  simp [List.getD_eq_getElem?_getD, List.getElem?_append_left h]

theorem node_at_append_right (l : List et_node) (x : et_node) :
    node_at (l ++ [x]) l.length = x := by
  unfold node_at
  simp [List.getD_eq_getElem?_getD]

theorem node_at_cons_succ (a : et_node) (l : List et_node) (q : Nat) :
    node_at (a :: l) (q + 1) = node_at l q := rfl

theorem node_at_cons_zero (a : et_node) (l : List et_node) :
    node_at (a :: l) 0 = a := rfl

/-- Result of the search loop of `et_get_node`: the first position at or after the offset. -/
theorem et_get_node_from_some (id : Int) (l : List et_node) (k p : Nat)
    (h : et_get_node_from id l k = some p) :
    k ≤ p ∧ p < k + l.length ∧ (node_at l (p - k)).et_id = id ∧
      ∀ q, q < p - k → (node_at l q).et_id ≠ id := by
  induction l generalizing k with
  | nil => simp [et_get_node_from] at h
  | cons a l ih =>
    unfold et_get_node_from at h
    by_cases ha : a.et_id = id
    · simp [ha] at h
      subst h
      simp [node_at_cons_zero, ha]
    · simp [ha] at h
      obtain ⟨h1, h2, h3, h4⟩ := ih (k + 1) h
      have e : p - k = (p - (k + 1)) + 1 := by omega
      refine ⟨by omega, by simp; omega, ?_, ?_⟩
      · rw [e, node_at_cons_succ]; exact h3
      · intro q hq
        cases q with
        | zero => simpa [node_at_cons_zero] using ha
        | succ q => rw [node_at_cons_succ]; exact h4 q (by omega)

theorem et_get_node_from_none (id : Int) (l : List et_node) (k : Nat) :
    et_get_node_from id l k = none ↔ id ∉ l.map (fun n => n.et_id) := by
  induction l generalizing k with
  | nil => simp [et_get_node_from]
  | cons a l ih =>
    unfold et_get_node_from
    by_cases ha : a.et_id = id
    · simp [ha]
    · have : ¬ id = a.et_id := fun e => ha e.symm
      simp [ha, this, ih (k + 1)]

theorem et_get_node_from_eq (id : Int) (l : List et_node) (k p : Nat) (hp : p < l.length)
    (h1 : (node_at l p).et_id = id) (h2 : ∀ q, q < p → (node_at l q).et_id ≠ id) :
    et_get_node_from id l k = some (k + p) := by
  induction l generalizing k p with
  | nil => simp at hp
  | cons a l ih =>
    unfold et_get_node_from
    cases p with
    | zero =>
      have : a.et_id = id := by simpa [node_at_cons_zero] using h1
      simp [this]
    | succ p =>
      have ha : a.et_id ≠ id := by simpa [node_at_cons_zero] using h2 0 (by omega)
      simp only [ha, if_false]
      rw [ih (k + 1) p (by simpa using hp) (by simpa [node_at_cons_succ] using h1)
        (fun q hq => by simpa [node_at_cons_succ] using h2 (q + 1) (by omega))]
      congr 1; omega

theorem map_id_set (l : List et_node) (p : Nat) (x : et_node)
    (h : x.et_id = (node_at l p).et_id) :
    (l.set p x).map (fun n => n.et_id) = l.map (fun n => n.et_id) := by
  induction l generalizing p with
  | nil => simp
  | cons a l ih =>
    cases p with
    | zero => simp [node_at_cons_zero] at h; simp [h]
    | succ p => simp [node_at_cons_succ] at h; simp [ih p h]

theorem mem_ids_iff (l : List et_node) (id : Int) :
    id ∈ l.map (fun n => n.et_id) ↔ ∃ q, q < l.length ∧ (node_at l q).et_id = id := by
  induction l with
  | nil => simp
  | cons a l ih =>
    simp only [List.map_cons, List.mem_cons, ih, List.length_cons]
    constructor
    · rintro (h | ⟨q, hq, h⟩)
      · exact ⟨0, by omega, by simp [node_at_cons_zero, h]⟩
      · exact ⟨q + 1, by omega, by simpa [node_at_cons_succ] using h⟩
    · rintro ⟨q, hq, h⟩
      cases q with
      | zero => left; simpa [node_at_cons_zero] using h.symm
      | succ q => right; exact ⟨q, by omega, by simpa [node_at_cons_succ] using h⟩

/-- What the lookup-or-create step of `et_add_edge` returns. -/
theorem et_get_or_create_spec (g : et_graph) (id : Int) :
    (et_get_or_create g id).1.et_node_lst =
        g.et_node_lst ++ (if id ∈ g.et_node_lst.map (fun n => n.et_id) then [] else [et_new_node id]) ∧
      (et_get_or_create g id).1.et_node_num = g.et_node_num +
        (if id ∈ g.et_node_lst.map (fun n => n.et_id) then 0 else 1) ∧
      (et_get_or_create g id).1.et_edge_num = g.et_edge_num ∧
      (et_get_or_create g id).1.et_odd_nodes = g.et_odd_nodes ∧
      (et_get_or_create g id).2 < (et_get_or_create g id).1.et_node_lst.length ∧
      (node_at (et_get_or_create g id).1.et_node_lst (et_get_or_create g id).2).et_id = id ∧
      (∀ q, q < (et_get_or_create g id).2 →
        (node_at (et_get_or_create g id).1.et_node_lst q).et_id ≠ id) ∧
      (et_get_node g id = some (et_get_or_create g id).2 ∨
        (id ∉ g.et_node_lst.map (fun n => n.et_id) ∧
          (et_get_or_create g id).2 = g.et_node_lst.length)) := by
  unfold et_get_or_create
  cases h : et_get_node g id with
  | some p =>
    have hs := et_get_node_from_some id g.et_node_lst 0 p h
    have hm : id ∈ g.et_node_lst.map (fun n => n.et_id) := by
      by_contra hc
      have := (et_get_node_from_none id g.et_node_lst 0).2 hc
      unfold et_get_node at h
      rw [this] at h; cases h
    simp only [hm, if_true, List.append_nil, add_zero, true_and]
    refine ⟨by omega, by simpa using hs.2.2.1, ?_, Or.inl trivial⟩
    intro q hq
    exact hs.2.2.2 q (by omega)
  | none =>
    have hm : id ∉ g.et_node_lst.map (fun n => n.et_id) :=
      (et_get_node_from_none id g.et_node_lst 0).1 h
    simp only [hm, if_false, et_add_node, true_and]
    refine ⟨by simp, ?_, ?_, Or.inr ⟨by simp, trivial⟩⟩
    · rw [node_at_append_right]; rfl
    · intro q hq
      rw [node_at_append_left _ _ _ hq]
      intro hc
      exact hm ((mem_ids_iff _ _).2 ⟨q, hq, hc⟩)

theorem node_at_append_blank (l : List et_node) (c : Prop) [Decidable c] (id : Int) (q : Nat) :
    (node_at (l ++ (if c then [] else [et_new_node id])) q).et_deg = (node_at l q).et_deg ∧
    (node_at (l ++ (if c then [] else [et_new_node id])) q).et_edeg = (node_at l q).et_edeg ∧
    (node_at (l ++ (if c then [] else [et_new_node id])) q).et_vst = (node_at l q).et_vst ∧
    (node_at (l ++ (if c then [] else [et_new_node id])) q).et_adj_lst =
      (node_at l q).et_adj_lst ∧
    (q < l.length → node_at (l ++ (if c then [] else [et_new_node id])) q = node_at l q) := by
  by_cases hq : q < l.length
  · simp [node_at_append_left _ _ _ hq]
  · by_cases hc : c
    · simp [hc]
    · simp only [hc, if_false]
      rw [node_at_of_le l q (by omega)]
      by_cases he : q = l.length
      · subst he
        rw [node_at_append_right]
        simp [et_new_node, null_node]
      · rw [node_at_of_le _ q (by simp; omega)]
        simp [hq]

theorem et_add_edge_self_spec (g : et_graph) (n1 : Int) :
    ∃ p1, add_edge_spec g n1 n1 (et_add_edge g n1 n1) p1 p1 := by
  obtain ⟨h1, h2, h3, h4, h5, h6, h7, h8⟩ := et_get_or_create_spec g n1
  have hb := node_at_append_blank g.et_node_lst (n1 ∈ g.et_node_lst.map (fun n => n.et_id)) n1
  rw [← h1] at hb
  refine ⟨(et_get_or_create g n1).2, ?_⟩
  simp only [et_add_edge, if_true, et_add_adj]
  generalize et_get_or_create g n1 = r1 at *
  obtain ⟨g1, p1⟩ := r1
  simp only at h1 h2 h3 h4 h5 h6 h7 h8 hb ⊢
  have hlen : g.et_node_lst.length ≤ g1.et_node_lst.length := by rw [h1]; simp
  have hnum : g1.et_node_num = g.et_node_num +
      ((g1.et_node_lst.length : Int) - (g.et_node_lst.length : Int)) := by
    rw [h2, h1]; split <;> simp
  have hall : ∀ q, q ≠ p1 → node_at ((g1.et_node_lst.set p1
      { node_at g1.et_node_lst p1 with et_deg := (node_at g1.et_node_lst p1).et_deg + 1 }).set p1
      { node_at (g1.et_node_lst.set p1
          { node_at g1.et_node_lst p1 with et_deg := (node_at g1.et_node_lst p1).et_deg + 1 }) p1
        with et_adj_lst := (node_at (g1.et_node_lst.set p1
          { node_at g1.et_node_lst p1 with et_deg := (node_at g1.et_node_lst p1).et_deg + 1 })
            p1).et_adj_lst ++ [⟨0, p1⟩],
             et_deg := (node_at (g1.et_node_lst.set p1
          { node_at g1.et_node_lst p1 with et_deg := (node_at g1.et_node_lst p1).et_deg + 1 })
            p1).et_deg + 1 }) q = node_at g1.et_node_lst q := by
    intro q hq
    simp [node_at_set, hq]
  exact {
    nodes_eq := by
      simp only
      rw [map_id_set, map_id_set, h1]
      · split <;> simp [et_new_node, *]
      · simp
      · simp [node_at_set, h5]
    num_eq := by simpa using hnum
    edge_num_eq := h3
    odd_eq := h4
    p1_lt := by simpa using h5
    p2_lt := by simpa using h5
    id1 := by simpa [node_at_set, h5] using h6
    id2 := by simpa [node_at_set, h5] using h6
    first1 := by
      intro q hq
      rw [hall q (by omega)]
      exact h7 q hq
    first2 := by
      intro q hq
      rw [hall q (by omega)]
      exact h7 q hq
    old1 := h8
    old2 := by
      rcases h8 with h | ⟨h, e⟩
      · exact Or.inl h
      · exact Or.inr ⟨h, by omega⟩
    deg_eq := by
      intro q
      by_cases hq : q = p1
      · subst hq; simp [node_at_set, h5, (hb q).1]
      · rw [hall q hq]; simp [hq, (hb q).1]
    adj_eq := by
      intro q
      by_cases hq : q = p1
      · subst hq; simp [node_at_set, h5, (hb q).2.2.2.1]
      · rw [hall q hq]; simp [hq, (hb q).2.2.2.1]
    vst_eq := by
      intro q
      by_cases hq : q = p1
      · subst hq; simp [node_at_set, h5, (hb q).2.2.1]
      · rw [hall q hq]; simp [hq, (hb q).2.2.1]
    edeg_eq := by
      intro q
      by_cases hq : q = p1
      · subst hq; simp [node_at_set, h5, (hb q).2.1]
      · rw [hall q hq]; simp [hq, (hb q).2.1]
    id_eq := by
      intro q hq
      by_cases hq1 : q = p1
      · subst hq1; simp [node_at_set, h5, (hb q).2.2.2.2 hq]
      · rw [hall q hq1]; simp [hq1, (hb q).2.2.2.2 hq] }

theorem et_add_adj_node_at (g : et_graph) (e1 e2 : et_elem) (q : Nat)
    (h : e1.et_elem_node < g.et_node_lst.length) :
    node_at (et_add_adj g e1 e2).et_node_lst q =
      if q = e1.et_elem_node then
        { node_at g.et_node_lst q with
          et_adj_lst := (node_at g.et_node_lst q).et_adj_lst ++ [e2],
          et_deg := (node_at g.et_node_lst q).et_deg + 1 }
      else node_at g.et_node_lst q := by
  simp only [et_add_adj, node_at_set, h, and_true]
  by_cases hq : q = e1.et_elem_node
  · subst hq; simp
  · simp [hq]

theorem et_add_adj_fields (g : et_graph) (e1 e2 : et_elem) :
    (et_add_adj g e1 e2).et_node_lst.length = g.et_node_lst.length ∧
    (et_add_adj g e1 e2).et_node_num = g.et_node_num ∧
    (et_add_adj g e1 e2).et_edge_num = g.et_edge_num ∧
    (et_add_adj g e1 e2).et_odd_nodes = g.et_odd_nodes ∧
    (et_add_adj g e1 e2).et_node_lst.map (fun n => n.et_id) =
      g.et_node_lst.map (fun n => n.et_id) := by
  simp only [et_add_adj, List.length_set, true_and]
  exact map_id_set _ _ _ rfl

theorem et_add_edge_ne_spec (g : et_graph) (n1 n2 : Int) (hne : n1 ≠ n2) :
    ∃ p1 p2, add_edge_spec g n1 n2 (et_add_edge g n1 n2) p1 p2 := by
  obtain ⟨h1, h2, h3, h4, h5, h6, h7, -⟩ := et_get_or_create_spec g n1
  have hb := node_at_append_blank g.et_node_lst (n1 ∈ g.et_node_lst.map (fun n => n.et_id)) n1
  rw [← h1] at hb
  obtain ⟨k1, k2, k3, k4, k5, k6, k7, -⟩ := et_get_or_create_spec (et_get_or_create g n1).1 n2
  have kb := node_at_append_blank (et_get_or_create g n1).1.et_node_lst
    (n2 ∈ (et_get_or_create g n1).1.et_node_lst.map (fun n => n.et_id)) n2
  rw [← k1] at kb
  refine ⟨(et_get_or_create g n1).2, (et_get_or_create (et_get_or_create g n1).1 n2).2, ?_⟩
  simp only [et_add_edge, hne, if_false]
  generalize et_get_or_create g n1 = r1 at *
  obtain ⟨g1, p1⟩ := r1
  simp only at h1 h2 h3 h4 h5 h6 h7 hb k1 k2 k3 k4 k5 k6 k7 kb ⊢
  generalize et_get_or_create g1 n2 = r2 at *
  obtain ⟨g2, p2⟩ := r2
  simp only at k1 k2 k3 k4 k5 k6 k7 kb ⊢
  have hl1 : g.et_node_lst.length ≤ g1.et_node_lst.length := by rw [h1]; simp
  have hl2 : g1.et_node_lst.length ≤ g2.et_node_lst.length := by rw [k1]; simp
  have hp1 : p1 < g2.et_node_lst.length := by omega
  have hid1 : (node_at g2.et_node_lst p1).et_id = n1 := by rw [(kb p1).2.2.2.2 h5]; exact h6
  have hpp : p1 ≠ p2 := by
    intro e; subst e; exact hne (hid1.symm.trans k6)
  have hpp2 : p2 ≠ p1 := fun e => hpp e.symm
  have hlen1 := (et_add_adj_fields g2 ⟨0, p1⟩ ⟨0, p2⟩).1
  have hat : ∀ q, node_at (et_add_adj (et_add_adj g2 ⟨0, p1⟩ ⟨0, p2⟩) ⟨0, p2⟩
      ⟨0, p1⟩).et_node_lst q =
      if q = p2 then { node_at g2.et_node_lst q with
          et_adj_lst := (node_at g2.et_node_lst q).et_adj_lst ++ [⟨0, p1⟩],
          et_deg := (node_at g2.et_node_lst q).et_deg + 1 }
      else if q = p1 then { node_at g2.et_node_lst q with
          et_adj_lst := (node_at g2.et_node_lst q).et_adj_lst ++ [⟨0, p2⟩],
          et_deg := (node_at g2.et_node_lst q).et_deg + 1 }
      else node_at g2.et_node_lst q := by
    intro q
    rw [et_add_adj_node_at _ _ _ _ (by simpa [hlen1] using k5),
      et_add_adj_node_at _ _ _ _ (by simpa using hp1)]
    by_cases hq : q = p2
    · subst hq; simp [hpp2]
    · simp [hq]
  have hmem : n2 ∈ g1.et_node_lst.map (fun n => n.et_id) ↔
      (n2 ∈ g.et_node_lst.map (fun n => n.et_id) ∨ n2 = n1) := by
    rw [h1]
    have hne2 : ¬ n2 = n1 := fun e => hne e.symm
    split <;> simp [et_new_node, hne2]
  exact {
    nodes_eq := by
      rw [(et_add_adj_fields _ _ _).2.2.2.2, (et_add_adj_fields _ _ _).2.2.2.2, k1, h1]
      simp only [← hmem]
      rw [← h1]
      split <;> split <;> simp [et_new_node, *]
    num_eq := by
      rw [(et_add_adj_fields _ _ _).2.1, (et_add_adj_fields _ _ _).2.1,
        (et_add_adj_fields _ _ _).1, (et_add_adj_fields _ _ _).1, k2, h2, k1, h1]
      split <;> split <;> simp <;> omega
    edge_num_eq := by
      rw [(et_add_adj_fields _ _ _).2.2.1, (et_add_adj_fields _ _ _).2.2.1, k3, h3]
    odd_eq := by
      rw [(et_add_adj_fields _ _ _).2.2.2.1, (et_add_adj_fields _ _ _).2.2.2.1, k4, h4]
    p1_lt := by
      rw [(et_add_adj_fields _ _ _).1, (et_add_adj_fields _ _ _).1]; exact hp1
    p2_lt := by
      rw [(et_add_adj_fields _ _ _).1, (et_add_adj_fields _ _ _).1]; exact k5
    id1 := by rw [hat]; simp [hpp, hid1]
    id2 := by rw [hat]; simp [k6]
    first1 := by
      intro q hq
      have : (node_at g2.et_node_lst q).et_id ≠ n1 := by
        rw [(kb q).2.2.2.2 (by omega)]; exact h7 q hq
      rw [hat]; split
      · exact this
      · split <;> exact this
    first2 := by
      intro q hq
      have : (node_at g2.et_node_lst q).et_id ≠ n2 := k7 q hq
      rw [hat]; split
      · exact this
      · split <;> exact this
    old1 := by
      by_cases hp : p1 < g.et_node_lst.length
      · left
        have := et_get_node_from_eq n1 g.et_node_lst 0 p1 hp
          (by rw [← (hb p1).2.2.2.2 hp]; exact h6)
          (fun q hq => by rw [← (hb q).2.2.2.2 (by omega)]; exact h7 q hq)
        simpa [et_get_node] using this
      · right
        constructor
        · intro hm
          obtain ⟨q, hq, hqid⟩ := (mem_ids_iff _ _).1 hm
          exact h7 q (by omega) (by rw [(hb q).2.2.2.2 hq]; exact hqid)
        · by_contra hc
          have hm : n1 ∈ g.et_node_lst.map (fun n => n.et_id) := by
            by_contra hm
            rw [h1] at h5
            simp [hm] at h5
            omega
          rw [h1] at h5
          simp [hm] at h5
          omega
    old2 := by
      by_cases hp : p2 < g.et_node_lst.length
      · left
        have := et_get_node_from_eq n2 g.et_node_lst 0 p2 hp
          (by rw [← (hb p2).2.2.2.2 hp, ← (kb p2).2.2.2.2 (by omega)]; exact k6)
          (fun q hq => by
            rw [← (hb q).2.2.2.2 (by omega), ← (kb q).2.2.2.2 (by omega)]; exact k7 q hq)
        simpa [et_get_node] using this
      · right
        constructor
        · intro hm
          obtain ⟨q, hq, hqid⟩ := (mem_ids_iff _ _).1 hm
          exact k7 q (by omega)
            (by rw [(kb q).2.2.2.2 (by omega), (hb q).2.2.2.2 hq]; exact hqid)
        · omega
    deg_eq := by
      intro q
      rw [hat, ← (hb q).1, ← (kb q).1]
      by_cases hq2 : q = p2
      · subst hq2; simp [hpp2]
      · by_cases hq1 : q = p1
        · subst hq1; simp [hq2]
        · simp [hq1, hq2]
    adj_eq := by
      intro q
      rw [hat, ← (hb q).2.2.2.1, ← (kb q).2.2.2.1]
      by_cases hq2 : q = p2
      · subst hq2; simp [hpp2, hpp]
      · by_cases hq1 : q = p1
        · subst hq1; simp [hq2]
        · simp [hq1, hq2]
    vst_eq := by
      intro q
      rw [hat, ← (hb q).2.2.1, ← (kb q).2.2.1]
      split
      · rfl
      · split <;> rfl
    edeg_eq := by
      intro q
      rw [hat, ← (hb q).2.1, ← (kb q).2.1]
      split
      · rfl
      · split <;> rfl
    id_eq := by
      intro q hq
      rw [hat, ← (hb q).2.2.2.2 hq, ← (kb q).2.2.2.2 (by omega)]
      split
      · rfl
      · split <;> rfl }

theorem et_add_edge_spec (g : et_graph) (n1 n2 : Int) :
    ∃ p1 p2, add_edge_spec g n1 n2 (et_add_edge g n1 n2) p1 p2 := by
  by_cases h : n1 = n2
  · subst h
    obtain ⟨p, hp⟩ := et_add_edge_self_spec g n1
    exact ⟨p, p, hp⟩
  · exact et_add_edge_ne_spec g n1 n2 h


theorem add_edge_spec_nodup {g g1 : et_graph} {n1 n2 : Int} {p1 p2 : Nat}
    (h : add_edge_spec g n1 n2 g1 p1 p2) :
    (g.et_node_lst.map (fun n => n.et_id)).Nodup →
      (g1.et_node_lst.map (fun n => n.et_id)).Nodup := by
  intro hnd
  rw [h.nodes_eq]
  by_cases c1 : n1 ∈ g.et_node_lst.map (fun n => n.et_id)
  · by_cases c2 : n2 ∈ g.et_node_lst.map (fun n => n.et_id) ∨ n2 = n1
    · simp only [c1, c2, if_true, List.append_nil]
      exact hnd
    · have c3 : n2 ∉ g.et_node_lst.map (fun n => n.et_id) := fun hc => c2 (Or.inl hc)
      simp only [c1, c2, if_true, if_false, List.append_nil]
      rw [List.nodup_append]
      exact ⟨hnd, List.nodup_singleton _, by
        intro a ha hb
        simp only [List.mem_singleton] at hb
        exact c3 (hb ▸ ha)⟩
  · by_cases c2 : n2 ∈ g.et_node_lst.map (fun n => n.et_id) ∨ n2 = n1
    · simp only [c1, c2, if_true, if_false, List.append_nil]
      rw [List.nodup_append]
      exact ⟨hnd, List.nodup_singleton _, by
        intro a ha hb
        simp only [List.mem_singleton] at hb
        exact c1 (hb ▸ ha)⟩
    · have c3 : n2 ∉ g.et_node_lst.map (fun n => n.et_id) := fun hc => c2 (Or.inl hc)
      have c4 : n2 ≠ n1 := fun hc => c2 (Or.inr hc)
      simp only [c1, c2, if_false, List.append_assoc, List.singleton_append]
      rw [List.nodup_append]
      refine ⟨hnd, ?_, ?_⟩
      · simp [c4.symm]
      · intro a ha hb
        simp only [List.mem_cons, List.mem_singleton, List.not_mem_nil, or_false] at hb
        rcases hb with hb | hb
        · exact c1 (hb ▸ ha)
        · exact c3 (hb ▸ ha)

/-! ## The model of `et_add_edge` -/

/-- C6: postcondition of `et_add_edge g n1 n2`, with `p1`, `p2` the pointers to the endpoint
nodes.  Both endpoints are found afterwards; the identifiers of the node list are the old
ones followed by the new ones in order of first appearance, and stay free of duplicates; an
existing node keeps its identifier, `et_edeg` and `et_vst`; for distinct endpoints one
unused entry is appended to each endpoint's adjacency list and each degree grows by one;
for a self-loop one unused entry is appended and the degree grows by two; every other
node keeps its adjacency list and degree.  A pointer beyond the old node list reads the
blank record, so a freshly created endpoint starts from the empty list and degree zero. -/
theorem et_add_edge_post (g : et_graph) (n1 n2 : Int) :
    ∃ p1 p2 : Nat,
      et_get_node (et_add_edge g n1 n2) n1 = some p1 ∧
      et_get_node (et_add_edge g n1 n2) n2 = some p2 ∧
      (et_get_node g n1 = some p1 ∨
        (n1 ∉ g.et_node_lst.map (fun n => n.et_id) ∧ g.et_node_lst.length ≤ p1)) ∧
      (et_get_node g n2 = some p2 ∨
        (n2 ∉ g.et_node_lst.map (fun n => n.et_id) ∧ g.et_node_lst.length ≤ p2)) ∧
      (et_add_edge g n1 n2).et_node_lst.map (fun n => n.et_id) =
        g.et_node_lst.map (fun n => n.et_id) ++
          (if n1 ∈ g.et_node_lst.map (fun n => n.et_id) then [] else [n1]) ++
          (if n2 ∈ g.et_node_lst.map (fun n => n.et_id) ∨ n2 = n1 then [] else [n2]) ∧
      ((g.et_node_lst.map (fun n => n.et_id)).Nodup →
        ((et_add_edge g n1 n2).et_node_lst.map (fun n => n.et_id)).Nodup) ∧
      (∀ q, q < g.et_node_lst.length →
        (node_at (et_add_edge g n1 n2).et_node_lst q).et_id = (node_at g.et_node_lst q).et_id ∧
        (node_at (et_add_edge g n1 n2).et_node_lst q).et_edeg =
          (node_at g.et_node_lst q).et_edeg ∧
        (node_at (et_add_edge g n1 n2).et_node_lst q).et_vst =
          (node_at g.et_node_lst q).et_vst) ∧
      (n1 ≠ n2 → p1 ≠ p2 ∧
        (node_at (et_add_edge g n1 n2).et_node_lst p1).et_adj_lst =
          (node_at g.et_node_lst p1).et_adj_lst ++ [⟨0, p2⟩] ∧
        (node_at (et_add_edge g n1 n2).et_node_lst p2).et_adj_lst =
          (node_at g.et_node_lst p2).et_adj_lst ++ [⟨0, p1⟩] ∧
        (node_at (et_add_edge g n1 n2).et_node_lst p1).et_deg =
          (node_at g.et_node_lst p1).et_deg + 1 ∧
        (node_at (et_add_edge g n1 n2).et_node_lst p2).et_deg =
          (node_at g.et_node_lst p2).et_deg + 1) ∧
      (n1 = n2 → p1 = p2 ∧
        (node_at (et_add_edge g n1 n2).et_node_lst p1).et_adj_lst =
          (node_at g.et_node_lst p1).et_adj_lst ++ [⟨0, p1⟩] ∧
        (node_at (et_add_edge g n1 n2).et_node_lst p1).et_deg =
          (node_at g.et_node_lst p1).et_deg + 2) ∧
      (∀ q, q ≠ p1 → q ≠ p2 →
        (node_at (et_add_edge g n1 n2).et_node_lst q).et_adj_lst =
          (node_at g.et_node_lst q).et_adj_lst ∧
        (node_at (et_add_edge g n1 n2).et_node_lst q).et_deg =
          (node_at g.et_node_lst q).et_deg) := by
  obtain ⟨p1, p2, h⟩ := et_add_edge_spec g n1 n2
  have hsame : n1 = n2 → p1 = p2 := by
    intro e
    by_contra hc
    rcases Nat.lt_or_gt_of_ne hc with hlt | hgt
    · exact h.first2 p1 hlt (e ▸ h.id1)
    · exact h.first1 p2 hgt (e ▸ h.id2)
  have hdiff : n1 ≠ n2 → p1 ≠ p2 := by
    intro hne e
    apply hne
    have e1 := h.id1
    rw [e, h.id2] at e1
    exact e1.symm
  refine ⟨p1, p2, ?_, ?_, ?_, h.old2, h.nodes_eq, ?_, ?_, ?_, ?_, ?_⟩
  · simpa [et_get_node] using
      et_get_node_from_eq n1 _ 0 p1 h.p1_lt h.id1 h.first1
  · simpa [et_get_node] using
      et_get_node_from_eq n2 _ 0 p2 h.p2_lt h.id2 h.first2
  · rcases h.old1 with h1 | ⟨h1, h2⟩
    · exact Or.inl h1
    · exact Or.inr ⟨h1, by omega⟩
  · exact add_edge_spec_nodup h
  · intro q hq
    exact ⟨h.id_eq q hq, h.edeg_eq q, h.vst_eq q⟩
  · intro hne
    have hpp := hdiff hne
    have hpp2 : p2 ≠ p1 := fun e => hpp e.symm
    refine ⟨hpp, ?_, ?_, ?_, ?_⟩
    · rw [h.adj_eq]; simp [hpp]
    · rw [h.adj_eq]; simp [hpp, hpp2]
    · rw [h.deg_eq]; simp [hpp]
    · rw [h.deg_eq]; simp [hpp2]
  · intro e
    have hpp := hsame e
    subst hpp
    refine ⟨rfl, ?_, ?_⟩
    · rw [h.adj_eq]; simp
    · rw [h.deg_eq]; simp; ring
  · intro q hq1 hq2
    constructor
    · rw [h.adj_eq]; simp [hq1, hq2]
    · rw [h.deg_eq]; simp [hq1, hq2]

/-- Witness for C6: on the empty graph, `et_add_edge` with the identifiers 1 and 2 creates two
distinct nodes and gives each of them degree one. -/
theorem et_add_edge_post_witness :
    ∃ p1 p2 : Nat,
      et_get_node (et_add_edge et_init_graph 1 2) 1 = some p1 ∧
      et_get_node (et_add_edge et_init_graph 1 2) 2 = some p2 ∧ p1 ≠ p2 ∧
      (node_at (et_add_edge et_init_graph 1 2).et_node_lst p1).et_deg =
        (node_at et_init_graph.et_node_lst p1).et_deg + 1 ∧
      ((et_add_edge et_init_graph 1 2).et_node_lst.map (fun n => n.et_id)).Nodup := by
  obtain ⟨p1, p2, h1, h2, -, -, -, h6, -, h8, -, -⟩ := et_add_edge_post et_init_graph 1 2
  have h := h8 (by decide)
  exact ⟨p1, p2, h1, h2, h.1, h.2.2.2.1, h6 (by simp [et_init_graph])⟩

/-! ## Concrete runs -/

/-- C8: scenario 1.  For the declared node count 4 and the edges (1,2), (2,3), (3,4), (4,1) the
validator returns 1 and sets `circuit`, and the printed trail is exactly 1 2 3 4 1. -/
theorem scenario_four_cycle :
    et_validated [(1, 2), (2, 3), (3, 4), (4, 1)] = .ok (1, 1) ∧
    et_main 4 [(1, 2), (2, 3), (3, 4), (4, 1)] = .ok (.trail_ids [1, 2, 3, 4, 1]) := by
  decide

/-- C9: scenario 3.  For the declared node count 3 and the edges (1,2), (3,1), (2,3), (1,2) the
validator returns 1, the printed trail 1 3 2 1 2 has 5 entries, its consecutive pairs are
exactly the four edge instances, and the doubled edge between 1 and 2 is walked twice. -/
theorem scenario_multigraph :
    et_validated [(1, 2), (3, 1), (2, 3), (1, 2)] = .ok (1, 0) ∧
    et_main 3 [(1, 2), (3, 1), (2, 3), (1, 2)] = .ok (.trail_ids [1, 3, 2, 1, 2]) ∧
    [1, 3, 2, 1, 2].length = 5 ∧
    uses_each_edge_once [(1, 2), (3, 1), (2, 3), (1, 2)] [1, 3, 2, 1, 2] ∧
    ((trail_pairs [1, 3, 2, 1, 2]).map norm_edge).count (1, 2) = 2 := by
  decide

/-- C10: scenario 6.  For the edges (1,1), (1,2) node 1 has degree 3 and node 2 degree 1, the
validator returns 1 without setting `circuit` and records the odd nodes 1 and 2, and the
printed trail 1 1 2 runs from 1 to 2 over the self-loop and the edge, with 3 entries. -/
theorem scenario_self_loop :
    (et_build [(1, 1), (1, 2)]).graph.et_node_lst.map (fun n => (n.et_id, n.et_deg)) =
      [(1, 3), (2, 1)] ∧
    et_validated [(1, 1), (1, 2)] = .ok (1, 0) ∧
    et_odd_ids [(1, 1), (1, 2)] = .ok [1, 2] ∧
    et_main 2 [(1, 1), (1, 2)] = .ok (.trail_ids [1, 1, 2]) ∧
    [1, 1, 2].length = 3 ∧
    uses_each_edge_once [(1, 1), (1, 2)] [1, 1, 2] := by
  decide

/-- C1 fails on the code: three triangles that share node 1 form a connected graph without
parallel edges or self-loops in which every degree is even; the validator accepts it as a
circuit, but the printed trail 1 4 5 1 2 3 1 has 7 entries instead of 10 and never walks the
triangle 1 6 7. -/
theorem circuit_three_triangles :
    et_validated [(1, 2), (2, 3), (3, 1), (1, 4), (4, 5), (5, 1), (1, 6), (6, 7), (7, 1)] =
      .ok (1, 1) ∧
    (et_build [(1, 2), (2, 3), (3, 1), (1, 4), (4, 5), (5, 1), (1, 6), (6, 7),
      (7, 1)]).graph.et_node_lst.map (fun n => (n.et_id, n.et_deg)) =
      [(1, 6), (2, 2), (3, 2), (4, 2), (5, 2), (6, 2), (7, 2)] ∧
    et_main 7 [(1, 2), (2, 3), (3, 1), (1, 4), (4, 5), (5, 1), (1, 6), (6, 7), (7, 1)] =
      .ok (.trail_ids [1, 4, 5, 1, 2, 3, 1]) ∧
    [1, 4, 5, 1, 2, 3, 1].length ≠
      [(1, 2), (2, 3), (3, 1), (1, 4), (4, 5), (5, 1), (1, 6), (6, 7), (7, 1)].length + 1 ∧
    ¬ uses_each_edge_once
      [(1, 2), (2, 3), (3, 1), (1, 4), (4, 5), (5, 1), (1, 6), (6, 7), (7, 1)]
      [1, 4, 5, 1, 2, 3, 1] ∧
    ((trail_pairs [1, 4, 5, 1, 2, 3, 1]).map norm_edge).count (1, 6) = 0 := by
  decide

/-- C2 fails on the code: the edge (1,2) and two triangles at node 1 form a connected graph
without parallel edges or self-loops whose only odd nodes are 1 and 2; the validator accepts
it as a trail, but the printed trail 1 3 4 1 2 has 5 entries instead of 8 and never walks the
triangle 1 5 6. -/
theorem trail_two_triangles :
    et_validated [(1, 2), (1, 3), (3, 4), (4, 1), (1, 5), (5, 6), (6, 1)] = .ok (1, 0) ∧
    et_odd_ids [(1, 2), (1, 3), (3, 4), (4, 1), (1, 5), (5, 6), (6, 1)] = .ok [1, 2] ∧
    (et_build [(1, 2), (1, 3), (3, 4), (4, 1), (1, 5), (5, 6),
      (6, 1)]).graph.et_node_lst.map (fun n => (n.et_id, n.et_deg)) =
      [(1, 5), (2, 1), (3, 2), (4, 2), (5, 2), (6, 2)] ∧
    et_main 6 [(1, 2), (1, 3), (3, 4), (4, 1), (1, 5), (5, 6), (6, 1)] =
      .ok (.trail_ids [1, 3, 4, 1, 2]) ∧
    [1, 3, 4, 1, 2].length ≠
      [(1, 2), (1, 3), (3, 4), (4, 1), (1, 5), (5, 6), (6, 1)].length + 1 ∧
    ¬ uses_each_edge_once [(1, 2), (1, 3), (3, 4), (4, 1), (1, 5), (5, 6), (6, 1)]
      [1, 3, 4, 1, 2] ∧
    ((trail_pairs [1, 3, 4, 1, 2]).map norm_edge).count (1, 5) = 0 := by
  decide

/-- C7 fails on the code: for the edges (1,2), (1,3), (3,4), (4,1), (1,1) the validator accepts
the instance, node 1 carries one self-loop, and the printed trail 1 3 4 1 2 contains no
consecutive pair (1,1): the self-loop is never walked. -/
theorem self_loop_skipped :
    et_validated [(1, 2), (1, 3), (3, 4), (4, 1), (1, 1)] = .ok (1, 0) ∧
    et_main 4 [(1, 2), (1, 3), (3, 4), (4, 1), (1, 1)] = .ok (.trail_ids [1, 3, 4, 1, 2]) ∧
    self_loops [(1, 2), (1, 3), (3, 4), (4, 1), (1, 1)] 1 = 1 ∧
    (trail_pairs [1, 3, 4, 1, 2]).count (1, 1) = 0 := by
  decide

/-! ## The connectivity pass: lemmas -/

theorem sum_range_update (n p : Nat) (f f1 : Nat → Int) (hp : p < n)
    (h : ∀ q, q ≠ p → f1 q = f q) :
    Finset.sum (Finset.range n) f1 = Finset.sum (Finset.range n) f + (f1 p - f p) := by
  have hm : p ∈ Finset.range n := Finset.mem_range.2 hp
  rw [← Finset.add_sum_erase _ f1 hm, ← Finset.add_sum_erase _ f hm]
  have : Finset.sum ((Finset.range n).erase p) f1 = Finset.sum ((Finset.range n).erase p) f := by
    apply Finset.sum_congr rfl
    intro x hx
    exact h x (Finset.ne_of_mem_erase hx)
  rw [this]; ring

theorem et_adj_congr (l l1 : List et_node)
    (h : ∀ q, (node_at l1 q).et_adj_lst = (node_at l q).et_adj_lst) (q r : Nat) :
    et_adj l1 q r ↔ et_adj l q r := by
  unfold et_adj; rw [h q]

theorem et_reach_congr (l l1 : List et_node)
    (h : ∀ q, (node_at l1 q).et_adj_lst = (node_at l q).et_adj_lst) (p q : Nat) :
    et_reach l1 p q ↔ et_reach l p q := by
  have e : et_adj l1 = et_adj l := by
    funext a b; exact propext (et_adj_congr l l1 h a b)
  unfold et_reach; rw [e]

theorem dfs_post_refl (st : et_state) (cnt : Int) (S : Nat → Prop) : dfs_post st cnt S st cnt :=
  { len_eq := rfl
    shape := fun _ => ⟨rfl, rfl, rfl⟩
    keep := fun _ _ => rfl
    fresh := fun _ h1 h0 => absurd h0 h1
    sound := fun _ h1 h0 => absurd h0 h1
    closed := fun _ h1 h0 => absurd h0 h1
    cnt_eq := rfl
    tn_eq := rfl
    circuit_eq := rfl
    num_eq := rfl
    edge_eq := rfl }

theorem dfs_post_vis {st st1 : et_state} {cnt cnt1 : Int} {S : Nat → Prop}
    (h : dfs_post st cnt S st1 cnt1) (q : Nat)
    (hq : (node_at st.graph.et_node_lst q).et_vst ≠ 0) :
    (node_at st1.graph.et_node_lst q).et_vst ≠ 0 := by
  rw [h.keep q hq]; exact hq

theorem dfs_post_mono {st st1 : et_state} {cnt cnt1 : Int} {S T : Nat → Prop}
    (h : dfs_post st cnt S st1 cnt1) (hST : ∀ s, S s → T s) : dfs_post st cnt T st1 cnt1 :=
  { len_eq := h.len_eq
    shape := h.shape
    keep := h.keep
    fresh := h.fresh
    sound := fun q h1 h0 => by
      obtain ⟨s, hs, hr⟩ := h.sound q h1 h0
      exact ⟨s, hST s hs, hr⟩
    closed := h.closed
    cnt_eq := h.cnt_eq
    tn_eq := h.tn_eq
    circuit_eq := h.circuit_eq
    num_eq := h.num_eq
    edge_eq := h.edge_eq }

theorem dfs_post_trans {st st1 st2 : et_state} {cnt cnt1 cnt2 : Int} {S T : Nat → Prop}
    (h : dfs_post st cnt S st1 cnt1) (k : dfs_post st1 cnt1 T st2 cnt2) :
    dfs_post st cnt (fun s => S s ∨ T s) st2 cnt2 :=
  { len_eq := k.len_eq.trans h.len_eq
    shape := fun q => ⟨(k.shape q).1.trans (h.shape q).1, (k.shape q).2.1.trans (h.shape q).2.1,
      (k.shape q).2.2.trans (h.shape q).2.2⟩
    keep := fun q hq => by
      rw [k.keep q (dfs_post_vis h q hq), h.keep q hq]
    fresh := fun q h2 h0 => by
      by_cases h1 : (node_at st1.graph.et_node_lst q).et_vst = 0
      · rw [k.fresh q h2 h1, (h.shape q).2.1]
      · rw [k.keep q h1]; exact h.fresh q h1 h0
    sound := fun q h2 h0 => by
      by_cases h1 : (node_at st1.graph.et_node_lst q).et_vst = 0
      · obtain ⟨s, hs, hr⟩ := k.sound q h2 h1
        exact ⟨s, Or.inr hs, (et_reach_congr _ _ (fun a => (h.shape a).2.2) s q).1 hr⟩
      · obtain ⟨s, hs, hr⟩ := h.sound q h1 h0
        exact ⟨s, Or.inl hs, hr⟩
    closed := fun q h2 h0 r hr => by
      by_cases h1 : (node_at st1.graph.et_node_lst q).et_vst = 0
      · exact k.closed q h2 h1 r ((et_adj_congr _ _ (fun a => (h.shape a).2.2) q r).2 hr)
      · exact dfs_post_vis k r (h.closed q h1 h0 r hr)
    cnt_eq := k.cnt_eq.trans h.cnt_eq
    tn_eq := k.tn_eq.trans h.tn_eq
    circuit_eq := k.circuit_eq.trans h.circuit_eq
    num_eq := k.num_eq.trans h.num_eq
    edge_eq := k.edge_eq.trans h.edge_eq }

theorem dfs_post_wf {st st1 : et_state} {cnt cnt1 : Int} {S : Nat → Prop}
    (h : dfs_post st cnt S st1 cnt1) (hw : et_wf st.graph.et_node_lst) :
    et_wf st1.graph.et_node_lst := by
  intro q e he
  rw [(h.shape q).2.2] at he
  rw [h.len_eq]
  exact hw q e he

theorem dfs_post_unvisited {st st1 : et_state} {cnt cnt1 : Int} {S : Nat → Prop}
    (h : dfs_post st cnt S st1 cnt1) :
    (unvisited st1.graph.et_node_lst).card ≤ (unvisited st.graph.et_node_lst).card := by
  apply Finset.card_le_card
  intro q hq
  simp only [unvisited, Finset.mem_filter, Finset.mem_range] at hq ⊢
  refine ⟨by rw [← h.len_eq]; exact hq.1, ?_⟩
  by_contra hc
  exact dfs_post_vis h q hc hq.2

/-- Effect of the first entry of `et_dfs` into the unvisited node `p`. -/
theorem et_dfs_visit_spec (st : et_state) (p : Nat) (hp : p < st.graph.et_node_lst.length)
    (hv : (node_at st.graph.et_node_lst p).et_vst = 0) :
    (et_dfs_visit st p).graph.et_node_lst.length = st.graph.et_node_lst.length ∧
    (∀ q, q ≠ p →
      node_at (et_dfs_visit st p).graph.et_node_lst q = node_at st.graph.et_node_lst q) ∧
    node_at (et_dfs_visit st p).graph.et_node_lst p =
      { node_at st.graph.et_node_lst p with
        et_vst := 1, et_edeg := (node_at st.graph.et_node_lst p).et_deg } ∧
    vis_cnt (et_dfs_visit st p).graph.et_node_lst = vis_cnt st.graph.et_node_lst + 1 ∧
    vis_deg (et_dfs_visit st p).graph.et_node_lst =
      vis_deg st.graph.et_node_lst + (node_at st.graph.et_node_lst p).et_deg ∧
    (et_dfs_visit st p).trail_nodes =
      st.trail_nodes + (node_at st.graph.et_node_lst p).et_deg ∧
    (et_dfs_visit st p).circuit = st.circuit ∧
    (et_dfs_visit st p).graph.et_node_num = st.graph.et_node_num ∧
    (et_dfs_visit st p).graph.et_edge_num = st.graph.et_edge_num ∧
    (unvisited (et_dfs_visit st p).graph.et_node_lst).card <
      (unvisited st.graph.et_node_lst).card := by
  have hlen : (et_dfs_visit st p).graph.et_node_lst.length = st.graph.et_node_lst.length := by
    simp [et_dfs_visit]
  have hne : ∀ q, q ≠ p →
      node_at (et_dfs_visit st p).graph.et_node_lst q = node_at st.graph.et_node_lst q := by
    intro q hq
    simp [et_dfs_visit, node_at_set, hq]
  have hat : node_at (et_dfs_visit st p).graph.et_node_lst p =
      { node_at st.graph.et_node_lst p with
        et_vst := 1, et_edeg := (node_at st.graph.et_node_lst p).et_deg } := by
    simp [et_dfs_visit, node_at_set, hp]
  refine ⟨hlen, hne, hat, ?_, ?_, rfl, rfl, rfl, rfl, ?_⟩
  · unfold vis_cnt
    rw [hlen, sum_range_update _ p _ _ hp (fun q hq => by rw [hne q hq])]
    simp [hat, hv]
  · unfold vis_deg
    rw [hlen, sum_range_update _ p _ _ hp (fun q hq => by rw [hne q hq])]
    simp [hat, hv]
  · apply Finset.card_lt_card
    rw [Finset.ssubset_iff_of_subset]
    · refine ⟨p, ?_, ?_⟩
      · simp [unvisited, hp, hv]
      · simp [unvisited, hat]
    · intro q hq
      simp only [unvisited, Finset.mem_filter, Finset.mem_range] at hq ⊢
      have hqp : q ≠ p := by
        intro e; subst e; rw [hat] at hq; simp at hq
      rw [hne q hqp] at hq
      exact ⟨by rw [← hlen]; exact hq.1, hq.2⟩

/-- The adjacency loop of `et_dfs`, for a recursive call `f` that meets the specification of
`et_dfs` on every state with fewer than `fuel` unvisited nodes. -/
theorem et_dfs_loop_spec (f : et_state → Nat → Int → et_result (et_state × Int)) (fuel : Nat)
    (hf : ∀ st cnt p, et_wf st.graph.et_node_lst → p < st.graph.et_node_lst.length →
      (unvisited st.graph.et_node_lst).card < fuel →
      ∃ st1 cnt1, f st p cnt = .ok (st1, cnt1) ∧ dfs_post st cnt (fun s => s = p) st1 cnt1 ∧
        (node_at st1.graph.et_node_lst p).et_vst ≠ 0) :
    ∀ (es : List et_elem) (st : et_state) (cnt : Int), et_wf st.graph.et_node_lst →
      (∀ e, e ∈ es → e.et_elem_node < st.graph.et_node_lst.length) →
      (unvisited st.graph.et_node_lst).card < fuel →
      ∃ st1 cnt1, et_dfs_loop f st cnt es = .ok (st1, cnt1) ∧
        dfs_post st cnt (fun s => ∃ e, e ∈ es ∧ e.et_elem_node = s) st1 cnt1 ∧
        ∀ e, e ∈ es → (node_at st1.graph.et_node_lst e.et_elem_node).et_vst ≠ 0 := by
  intro es
  induction es with
  | nil =>
    intro st cnt _ _ _
    exact ⟨st, cnt, rfl, dfs_post_refl _ _ _, by simp⟩
  | cons cur nxt ih =>
    intro st cnt hw hes hc
    by_cases hv : (node_at st.graph.et_node_lst cur.et_elem_node).et_vst = 0
    · obtain ⟨st1, cnt1, e1, hp1, hv1⟩ :=
        hf st cnt cur.et_elem_node hw (hes cur (List.mem_cons_self _ _)) hc
      obtain ⟨st2, cnt2, e2, hp2, hv2⟩ := ih st1 cnt1 (dfs_post_wf hp1 hw)
        (fun e he => by rw [hp1.len_eq]; exact hes e (List.mem_cons_of_mem _ he))
        (lt_of_le_of_lt (dfs_post_unvisited hp1) hc)
      refine ⟨st2, cnt2, ?_, ?_, ?_⟩
      · simp only [et_dfs_loop, hv, if_true, e1]
        exact e2
      · refine dfs_post_mono (dfs_post_trans hp1 hp2) ?_
        rintro s (hs | ⟨e, he, hs⟩)
        · exact ⟨cur, List.mem_cons_self _ _, hs.symm⟩
        · exact ⟨e, List.mem_cons_of_mem _ he, hs⟩
      · intro e he
        rcases List.mem_cons.1 he with he | he
        · subst he; exact dfs_post_vis hp2 _ hv1
        · exact hv2 e he
    · obtain ⟨st2, cnt2, e2, hp2, hv2⟩ := ih st cnt hw
        (fun e he => hes e (List.mem_cons_of_mem _ he)) hc
      refine ⟨st2, cnt2, ?_, ?_, ?_⟩
      · simp only [et_dfs_loop, hv, if_false]
        exact e2
      · refine dfs_post_mono hp2 ?_
        rintro s ⟨e, he, hs⟩
        exact ⟨e, List.mem_cons_of_mem _ he, hs⟩
      · intro e he
        rcases List.mem_cons.1 he with he | he
        · subst he; exact dfs_post_vis hp2 _ hv
        · exact hv2 e he

/-- Specification of `et_dfs`: with a recursion bound above the number of unvisited nodes the
call returns, the nodes it newly marks are reachable from `p`, each newly marked node has all
its neighbours marked, and the counters grow by the number and the degrees of these nodes. -/
theorem et_dfs_spec : ∀ (fuel : Nat) (st : et_state) (cnt : Int) (p : Nat),
    et_wf st.graph.et_node_lst → p < st.graph.et_node_lst.length →
    (unvisited st.graph.et_node_lst).card < fuel →
    ∃ st1 cnt1, et_dfs fuel st p cnt = .ok (st1, cnt1) ∧
      dfs_post st cnt (fun s => s = p) st1 cnt1 ∧
      (node_at st1.graph.et_node_lst p).et_vst ≠ 0 := by
  intro fuel
  induction fuel with
  | zero => intro st cnt p _ _ h; omega
  | succ fuel ih =>
    intro st cnt p hw hp hc
    by_cases hv : (node_at st.graph.et_node_lst p).et_vst ≠ 0
    · refine ⟨st, cnt, ?_, dfs_post_refl _ _ _, hv⟩
      rw [et_dfs, if_pos hv]
    · have hv0 : (node_at st.graph.et_node_lst p).et_vst = 0 := by
        by_contra hc2; exact hv hc2
      obtain ⟨vlen, vne, vat, vcnt, vdeg, vtn, vcirc, vnum, vedge, vcard⟩ :=
        et_dfs_visit_spec st p hp hv0
      have vshape : ∀ q, (node_at (et_dfs_visit st p).graph.et_node_lst q).et_id =
            (node_at st.graph.et_node_lst q).et_id ∧
          (node_at (et_dfs_visit st p).graph.et_node_lst q).et_deg =
            (node_at st.graph.et_node_lst q).et_deg ∧
          (node_at (et_dfs_visit st p).graph.et_node_lst q).et_adj_lst =
            (node_at st.graph.et_node_lst q).et_adj_lst := by
        intro q
        by_cases hq : q = p
        · subst hq; rw [vat]; exact ⟨rfl, rfl, rfl⟩
        · rw [vne q hq]; exact ⟨rfl, rfl, rfl⟩
      have vw : et_wf (et_dfs_visit st p).graph.et_node_lst := by
        intro q e he
        rw [(vshape q).2.2] at he
        rw [vlen]; exact hw q e he
      obtain ⟨st2, cnt2, e2, hp2, hv2⟩ := et_dfs_loop_spec (et_dfs fuel) fuel ih
        (node_at st.graph.et_node_lst p).et_adj_lst (et_dfs_visit st p) (cnt + 1) vw
        (fun e he => by rw [vlen]; exact hw p e he) (by omega)
      have hp1 : (node_at (et_dfs_visit st p).graph.et_node_lst p).et_vst ≠ 0 := by
        rw [vat]; simp
      have hpv2 : (node_at st2.graph.et_node_lst p).et_vst ≠ 0 := dfs_post_vis hp2 p hp1
      refine ⟨st2, cnt2, ?_, ?_, hpv2⟩
      · rw [et_dfs, if_neg hv]
        exact e2
      · exact {
          len_eq := hp2.len_eq.trans vlen
          shape := fun q => ⟨(hp2.shape q).1.trans (vshape q).1,
            (hp2.shape q).2.1.trans (vshape q).2.1, (hp2.shape q).2.2.trans (vshape q).2.2⟩
          keep := fun q hq => by
            have hqp : q ≠ p := by intro e; subst e; exact hq hv0
            rw [hp2.keep q (by rw [vne q hqp]; exact hq), vne q hqp]
          fresh := fun q h2 h0 => by
            by_cases hqp : q = p
            · subst hqp
              rw [hp2.keep q hp1, vat]
            · rw [hp2.fresh q h2 (by rw [vne q hqp]; exact h0), (vshape q).2.1]
          sound := fun q h2 h0 => by
            by_cases hqp : q = p
            · subst hqp
              exact ⟨q, rfl, Relation.ReflTransGen.refl⟩
            · obtain ⟨s, ⟨e, he, hs⟩, hr⟩ := hp2.sound q h2 (by rw [vne q hqp]; exact h0)
              refine ⟨p, rfl, ?_⟩
              have hr1 : et_reach st.graph.et_node_lst s q :=
                (et_reach_congr _ _ (fun a => (vshape a).2.2) s q).1 hr
              exact Relation.ReflTransGen.head ⟨e, he, hs⟩ hr1
          closed := fun q h2 h0 r hr => by
            by_cases hqp : q = p
            · subst hqp
              obtain ⟨e, he, hs⟩ := hr
              rw [← hs]; exact hv2 e he
            · exact hp2.closed q h2 (by rw [vne q hqp]; exact h0) r
                ((et_adj_congr _ _ (fun a => (vshape a).2.2) q r).2 hr)
          cnt_eq := by
            have := hp2.cnt_eq
            rw [vcnt] at this
            omega
          tn_eq := by
            have := hp2.tn_eq
            rw [vdeg, vtn] at this
            omega
          circuit_eq := hp2.circuit_eq.trans vcirc
          num_eq := hp2.num_eq.trans vnum
          edge_eq := hp2.edge_eq.trans vedge }

/-! ## Invariants of a built graph -/

theorem deg_sum_extend (l : List et_node) (n : Nat) (h : l.length ≤ n) :
    Finset.sum (Finset.range n) (fun q => (node_at l q).et_deg) = deg_sum l := by
  unfold deg_sum
  symm
  apply Finset.sum_subset (Finset.range_mono h)
  intro x _ hx
  simp only [Finset.mem_range, not_lt] at hx
  rw [node_at_of_le l x hx]; rfl

theorem built_inv_init : built_inv et_init_graph 0 :=
  { num := rfl
    wf := by intro q e he; simp [et_init_graph, node_at, null_node] at he
    vst0 := by intro q; simp [et_init_graph, node_at, null_node]
    deg_nonneg := by intro q; simp [et_init_graph, node_at, null_node]
    sum_eq := by simp [deg_sum, et_init_graph]
    nodup := by simp [et_init_graph]
    odd_nil := rfl }

theorem built_inv_add_edge (g : et_graph) (k : Nat) (n1 n2 : Int) (h : built_inv g k) :
    built_inv (et_add_edge g n1 n2) (k + 1) := by
  obtain ⟨p1, p2, s⟩ := et_add_edge_spec g n1 n2
  have hlen : g.et_node_lst.length ≤ (et_add_edge g n1 n2).et_node_lst.length := by
    have := congrArg List.length s.nodes_eq
    simp only [List.length_map, List.length_append] at this
    omega
  exact {
    num := by
      rw [s.num_eq, h.num]; ring
    wf := by
      intro q e he
      rw [s.adj_eq q] at he
      simp only [List.mem_append] at he
      rcases he with (he | he) | he
      · exact lt_of_lt_of_le (h.wf q e he) hlen
      · split at he
        · simp only [List.mem_singleton] at he; subst he; exact s.p2_lt
        · simp at he
      · split at he
        · simp only [List.mem_singleton] at he; subst he; exact s.p1_lt
        · simp at he
    vst0 := by intro q; rw [s.vst_eq q]; exact h.vst0 q
    deg_nonneg := by
      intro q
      rw [s.deg_eq q]
      have := h.deg_nonneg q
      split <;> split <;> omega
    sum_eq := by
      unfold deg_sum
      simp only [s.deg_eq, Finset.sum_add_distrib, Finset.sum_ite_eq', Finset.mem_range,
        s.p1_lt, s.p2_lt, if_true]
      rw [deg_sum_extend _ _ hlen, h.sum_eq]
      push_cast; ring
    nodup := add_edge_spec_nodup s h.nodup
    odd_nil := by rw [s.odd_eq]; exact h.odd_nil }

theorem built_inv_read_edges (edges : List (Int × Int)) :
    ∀ (g : et_graph) (k : Nat), built_inv g k →
      built_inv (et_read_edges g edges) (k + edges.length) := by
  induction edges with
  | nil => intro g k h; simpa [et_read_edges] using h
  | cons e rest ih =>
    intro g k h
    have := ih (et_add_edge g e.1 e.2) (k + 1) (built_inv_add_edge g k e.1 e.2 h)
    simp only [et_read_edges, List.length_cons]
    have e2 : k + (rest.length + 1) = k + 1 + rest.length := by omega
    rw [e2]; exact this

/-- The state that `et_build_graph` hands to the validator satisfies the invariant. -/
theorem built_inv_build (edges : List (Int × Int)) :
    built_inv (et_build edges).graph edges.length := by
  have h := built_inv_read_edges edges et_init_graph 0 built_inv_init
  simp only [Nat.zero_add] at h
  exact {
    num := h.num
    wf := h.wf
    vst0 := h.vst0
    deg_nonneg := h.deg_nonneg
    sum_eq := h.sum_eq
    nodup := h.nodup
    odd_nil := h.odd_nil }

/-! ## The validator: lemmas -/

theorem tmod_two_ne_zero_iff (a : Int) : a.tmod 2 ≠ 0 ↔ a % 2 = 1 := by
  constructor
  · intro h
    rcases Int.emod_two_eq_zero_or_one a with h0 | h1
    · exact absurd (Int.tmod_eq_zero_of_dvd (Int.dvd_of_emod_eq_zero h0)) h
    · exact h1
  · intro h h0
    have := Int.dvd_of_tmod_eq_zero h0
    omega

/-- The parity scan counts the nodes of odd degree. -/
theorem num_deg_odd_eq (l : List et_node) : num_deg_odd l = (odd_count l : Int) := by
  induction l with
  | nil => rfl
  | cons a l ih =>
    unfold num_deg_odd odd_count
    rw [ih]
    unfold odd_count
    by_cases h : a.et_deg % 2 = 1
    · have h2 := (tmod_two_ne_zero_iff a.et_deg).2 h
      simp [List.filter_cons, h, h2]; ring
    · have h2 : ¬ a.et_deg.tmod 2 ≠ 0 := fun hc => h ((tmod_two_ne_zero_iff a.et_deg).1 hc)
      simp only [ne_eq, not_not] at h2
      simp [List.filter_cons, h, h2]

theorem num_deg_odd_congr : ∀ (l l1 : List et_node), l.length = l1.length →
    (∀ q, (node_at l1 q).et_deg = (node_at l q).et_deg) → num_deg_odd l1 = num_deg_odd l := by
  intro l
  induction l with
  | nil =>
    intro l1 h _
    cases l1 with
    | nil => rfl
    | cons b l1 => simp at h
  | cons a l ih =>
    intro l1 h hd
    cases l1 with
    | nil => simp at h
    | cons b l1 =>
      have h0 : b.et_deg = a.et_deg := by simpa [node_at_cons_zero] using hd 0
      have hr := ih l1 (by simpa using h) (fun q => by simpa [node_at_cons_succ] using hd (q + 1))
      simp only [num_deg_odd, h0, hr]

theorem vis_cnt_eq_card (l : List et_node) : vis_cnt l = ((visited l).card : Int) := by
  unfold vis_cnt visited
  rw [Finset.sum_boole]

theorem vis_deg_eq_sum (l : List et_node) :
    vis_deg l = Finset.sum (visited l) (fun q => (node_at l q).et_deg) := by
  unfold vis_deg visited
  rw [Finset.sum_filter]

theorem vis_zero (l : List et_node) (h : ∀ q, (node_at l q).et_vst = 0) :
    vis_cnt l = 0 ∧ vis_deg l = 0 ∧ (unvisited l).card = l.length := by
  refine ⟨?_, ?_, ?_⟩
  · unfold vis_cnt; simp [h]
  · unfold vis_deg; simp [h]
  · unfold unvisited
    rw [Finset.filter_true_of_mem (fun x _ => h x)]
    simp

/-- Specification of `et_is_connected` on a non-empty state in which no node is marked: the
traversal marks exactly the nodes reachable from the first node, `cnt` is their number and
`trail_nodes` grows by the sum of their degrees before it is halved. -/
theorem et_is_connected_spec (st : et_state) (hw : et_wf st.graph.et_node_lst)
    (hne : st.graph.et_node_lst ≠ [])
    (h0 : ∀ q, (node_at st.graph.et_node_lst q).et_vst = 0) :
    ∃ st1 cnt, et_is_connected st =
        .ok ({ st1 with trail_nodes := st1.trail_nodes.tdiv 2 + 1 },
          if cnt = st1.graph.et_node_num then 1 else 0) ∧
      dfs_post st 0 (fun s => s = 0) st1 cnt ∧
      (∀ q, q ∈ visited st1.graph.et_node_lst ↔
        (q < st.graph.et_node_lst.length ∧ et_reach st.graph.et_node_lst 0 q)) ∧
      cnt = ((visited st1.graph.et_node_lst).card : Int) ∧
      st1.trail_nodes = st.trail_nodes +
        Finset.sum (visited st1.graph.et_node_lst) (fun q => (node_at st.graph.et_node_lst q).et_deg) := by
  have hpos : 0 < st.graph.et_node_lst.length := List.length_pos.2 hne
  obtain ⟨z1, z2, z3⟩ := vis_zero _ h0
  obtain ⟨st1, cnt, e, hp, hv⟩ := et_dfs_spec (st.graph.et_node_lst.length + 1) st 0 0 hw hpos
    (by omega)
  refine ⟨st1, cnt, ?_, hp, ?_, ?_, ?_⟩
  · unfold et_is_connected
    cases hl : st.graph.et_node_lst with
    | nil => exact absurd hl hne
    | cons a l =>
      simp only
      rw [hl] at e
      rw [e]
  · intro q
    simp only [visited, Finset.mem_filter, Finset.mem_range]
    constructor
    · rintro ⟨hq, hvq⟩
      obtain ⟨s, hs, hr⟩ := hp.sound q hvq (h0 q)
      subst hs
      exact ⟨by rw [← hp.len_eq]; exact hq, hr⟩
    · rintro ⟨hq, hr⟩
      refine ⟨by rw [hp.len_eq]; exact hq, ?_⟩
      clear hq
      induction hr with
      | refl => exact hv
      | tail _ hbc ih => exact hp.closed _ ih (h0 _) _ hbc
  · have := hp.cnt_eq
    rw [z1, vis_cnt_eq_card] at this
    omega
  · have := hp.tn_eq
    rw [z2, vis_deg_eq_sum] at this
    have e2 : Finset.sum (visited st1.graph.et_node_lst)
        (fun q => (node_at st1.graph.et_node_lst q).et_deg) =
        Finset.sum (visited st1.graph.et_node_lst)
        (fun q => (node_at st.graph.et_node_lst q).et_deg) :=
      Finset.sum_congr rfl (fun q _ => (hp.shape q).2.1)
    rw [e2] at this
    omega

/-- The two exits of `et_validate_graph` on a non-empty node list. -/
theorem et_validate_graph_eq (st : et_state) (hne : st.graph.et_node_lst ≠ []) :
    et_validate_graph st =
      if odd_count st.graph.et_node_lst = 1 ∨ odd_count st.graph.et_node_lst > 2 then
        .ok (st, 0)
      else et_is_connected
        (if odd_count st.graph.et_node_lst = 0 then { st with circuit := 1 } else st) := by
  unfold et_validate_graph
  cases hl : st.graph.et_node_lst with
  | nil => exact absurd hl hne
  | cons a l =>
    simp only [num_deg_odd_eq]
    have c1 : ((odd_count (a :: l) : Int) = 1 ∨ (odd_count (a :: l) : Int) > 2) ↔
        (odd_count (a :: l) = 1 ∨ odd_count (a :: l) > 2) := by omega
    have c0 : ((odd_count (a :: l) : Int) = 0) ↔ odd_count (a :: l) = 0 := by omega
    by_cases h : odd_count (a :: l) = 1 ∨ odd_count (a :: l) > 2
    · have h0 : ¬ odd_count (a :: l) = 0 := by omega
      rw [if_pos (c1.2 h), if_pos h, if_neg (fun hc => h0 (c0.1 hc))]
    · rw [if_neg (fun hc => h (c1.1 hc)), if_neg h]
      by_cases h0 : odd_count (a :: l) = 0
      · rw [if_pos (c0.2 h0), if_pos h0]
      · rw [if_neg (fun hc => h0 (c0.1 hc)), if_neg h0]

/-- Run of the validator on a freshly built graph that passes the emptiness test and the parity
scan: the connectivity pass marks the nodes reachable from the first node. -/
theorem validate_build_pass (edges : List (Int × Int))
    (hne : (et_build edges).graph.et_node_lst ≠ [])
    (hodd : ¬ (odd_count (et_build edges).graph.et_node_lst = 1 ∨
      odd_count (et_build edges).graph.et_node_lst > 2)) :
    ∃ (st1 : et_state) (cnt : Int), et_validate_graph (et_build edges) =
        .ok ({ st1 with trail_nodes := st1.trail_nodes.tdiv 2 + 1 },
          if cnt = ((et_build edges).graph.et_node_lst.length : Int) then 1 else 0) ∧
      st1.graph.et_node_lst.length = (et_build edges).graph.et_node_lst.length ∧
      (∀ q, (node_at st1.graph.et_node_lst q).et_deg =
        (node_at (et_build edges).graph.et_node_lst q).et_deg) ∧
      st1.graph.et_node_num = ((et_build edges).graph.et_node_lst.length : Int) ∧
      st1.graph.et_edge_num = (edges.length : Int) ∧
      (node_at st1.graph.et_node_lst 0).et_vst ≠ 0 ∧
      (∀ q, q ∈ visited st1.graph.et_node_lst ↔
        (q < (et_build edges).graph.et_node_lst.length ∧
          et_reach (et_build edges).graph.et_node_lst 0 q)) ∧
      cnt = ((visited st1.graph.et_node_lst).card : Int) ∧
      st1.trail_nodes = Finset.sum (visited st1.graph.et_node_lst)
        (fun q => (node_at (et_build edges).graph.et_node_lst q).et_deg) := by
  have hb := built_inv_build edges
  rw [et_validate_graph_eq _ hne, if_neg hodd]
  have hg : (if odd_count (et_build edges).graph.et_node_lst = 0 then
      { et_build edges with circuit := 1 } else et_build edges).graph = (et_build edges).graph := by
    split <;> rfl
  have ht : (if odd_count (et_build edges).graph.et_node_lst = 0 then
      { et_build edges with circuit := 1 } else et_build edges).trail_nodes = 0 := by
    split <;> rfl
  generalize (if odd_count (et_build edges).graph.et_node_lst = 0 then
      { et_build edges with circuit := 1 } else et_build edges) = st at hg ht
  obtain ⟨st1, cnt, e, hp, hvis, hcnt, htn⟩ := et_is_connected_spec st
    (by rw [hg]; exact hb.wf) (by rw [hg]; exact hne) (by rw [hg]; exact hb.vst0)
  rw [hg] at hvis htn
  have hnum : st1.graph.et_node_num = ((et_build edges).graph.et_node_lst.length : Int) := by
    rw [hp.num_eq, hg, hb.num]
  refine ⟨st1, cnt, ?_, ?_, ?_, hnum, ?_, ?_, hvis, hcnt, ?_⟩
  · rw [e, hnum]
  · rw [hp.len_eq, hg]
  · intro q; rw [(hp.shape q).2.1, hg]
  · rw [hp.edge_eq, hg]; rfl
  · have hpos : 0 < (et_build edges).graph.et_node_lst.length := List.length_pos.2 hne
    have := (hvis 0).2 ⟨hpos, Relation.ReflTransGen.refl⟩
    simp only [visited, Finset.mem_filter] at this
    exact this.2
  · rw [htn, ht]; simp

/-! ## The validator: results -/

/-- C3: on a graph built from an edge list `et_validate_graph` returns 0 whenever the node
list is empty, or the number of nodes of odd degree is 1 or more than 2, or some node cannot
be reached from the first-inserted node; `main` then prints `-1` for every declared count. -/
theorem validate_rejects (edges : List (Int × Int))
    (h : (et_build edges).graph.et_node_lst = [] ∨
      odd_count (et_build edges).graph.et_node_lst = 1 ∨
      odd_count (et_build edges).graph.et_node_lst > 2 ∨
      ∃ q, q < (et_build edges).graph.et_node_lst.length ∧
        ¬ et_reach (et_build edges).graph.et_node_lst 0 q) :
    (∃ st1 : et_state, et_validate_graph (et_build edges) = .ok (st1, 0)) ∧
      ∀ d : Int, et_main d edges = .ok .no_solution := by
  have key : ∃ st1 : et_state, et_validate_graph (et_build edges) = .ok (st1, 0) := by
    by_cases hne : (et_build edges).graph.et_node_lst = []
    · refine ⟨et_build edges, ?_⟩
      unfold et_validate_graph
      rw [hne]
    · by_cases hodd : odd_count (et_build edges).graph.et_node_lst = 1 ∨
          odd_count (et_build edges).graph.et_node_lst > 2
      · exact ⟨et_build edges, by rw [et_validate_graph_eq _ hne, if_pos hodd]⟩
      · obtain ⟨q, hq, hr⟩ : ∃ q, q < (et_build edges).graph.et_node_lst.length ∧
            ¬ et_reach (et_build edges).graph.et_node_lst 0 q := by
          rcases h with h | h | h | h
          · exact absurd h hne
          · exact absurd (Or.inl h) hodd
          · exact absurd (Or.inr h) hodd
          · exact h
        obtain ⟨st1, cnt, e, hlen, -, -, -, -, hvis, hcnt, -⟩ :=
          validate_build_pass edges hne hodd
        have hlt : (visited st1.graph.et_node_lst).card <
            (et_build edges).graph.et_node_lst.length := by
          have hss : visited st1.graph.et_node_lst ⊂
              Finset.range (et_build edges).graph.et_node_lst.length := by
            rw [Finset.ssubset_iff_of_subset]
            · refine ⟨q, Finset.mem_range.2 hq, ?_⟩
              intro hc
              exact hr ((hvis q).1 hc).2
            · intro x hx
              exact Finset.mem_range.2 ((hvis x).1 hx).1
          simpa using Finset.card_lt_card hss
        have hne2 : ¬ cnt = ((et_build edges).graph.et_node_lst.length : Int) := by
          rw [hcnt]; omega
        refine ⟨{ st1 with trail_nodes := st1.trail_nodes.tdiv 2 + 1 }, ?_⟩
        rw [e, if_neg hne2]
  refine ⟨key, ?_⟩
  intro d
  obtain ⟨st1, e⟩ := key
  unfold et_main et_build_graph
  simp only
  split
  · rfl
  · rename_i st hst
    split at hst
    · cases hst
    · cases hst
      rw [e]
      simp

/-- In the graph of two disjoint triangles the fourth node is out of reach of the first. -/
theorem two_triangles_unreachable :
    ¬ et_reach (et_build [(1, 2), (2, 3), (3, 1), (4, 5), (5, 6), (6, 4)]).graph.et_node_lst
      0 3 := by
  have hall : ∀ b, b < 3 → ∀ e,
      e ∈ (node_at (et_build [(1, 2), (2, 3), (3, 1), (4, 5), (5, 6),
        (6, 4)]).graph.et_node_lst b).et_adj_lst → e.et_elem_node < 3 := by
    decide
  have key : ∀ q, et_reach (et_build [(1, 2), (2, 3), (3, 1), (4, 5), (5, 6),
      (6, 4)]).graph.et_node_lst 0 q → q < 3 := by
    intro q hr
    induction hr with
    | refl => decide
    | tail _ hbc ih =>
      obtain ⟨e, he, hc⟩ := hbc
      subst hc
      exact hall _ ih e he
  intro h
  exact absurd (key 3 h) (by decide)

/-- Witness for C3: scenario 4, two disjoint triangles.  Every degree is even, the fourth node
cannot be reached from the first, and the validator returns 0. -/
theorem validate_rejects_witness :
    (∃ st1 : et_state,
      et_validate_graph (et_build [(1, 2), (2, 3), (3, 1), (4, 5), (5, 6), (6, 4)]) =
        .ok (st1, 0)) ∧
      ∀ d : Int, et_main d [(1, 2), (2, 3), (3, 1), (4, 5), (5, 6), (6, 4)] =
        .ok .no_solution :=
  validate_rejects [(1, 2), (2, 3), (3, 1), (4, 5), (5, 6), (6, 4)]
    (Or.inr (Or.inr (Or.inr ⟨3, by decide, two_triangles_unreachable⟩)))

theorem sum_deg_nonneg (edges : List (Int × Int)) (R : Finset Nat) :
    0 ≤ Finset.sum R (fun q => (node_at (et_build edges).graph.et_node_lst q).et_deg) :=
  Finset.sum_nonneg (fun q _ => (built_inv_build edges).deg_nonneg q)

/-- C5: on a freshly built graph that reaches the connectivity pass (non-empty node list, 0 or 2
nodes of odd degree) the validator returns with `trail_nodes = floor(S/2) + 1`, where `S` is
the sum of the degrees of the nodes reachable from the first-inserted node; when every node is
reachable this is (sum of all degrees)/2 + 1, which is `et_edge_num + 1`, the number of input
edges plus one. -/
theorem trail_nodes_after_validation (edges : List (Int × Int))
    (hne : (et_build edges).graph.et_node_lst ≠ [])
    (hodd : odd_count (et_build edges).graph.et_node_lst = 0 ∨
      odd_count (et_build edges).graph.et_node_lst = 2) :
    ∃ (st1 : et_state) (v : Int), et_validate_graph (et_build edges) = .ok (st1, v) ∧
      (∃ R : Finset Nat,
        (∀ q, q ∈ R ↔ (q < (et_build edges).graph.et_node_lst.length ∧
          et_reach (et_build edges).graph.et_node_lst 0 q)) ∧
        st1.trail_nodes =
          Finset.sum R (fun q => (node_at (et_build edges).graph.et_node_lst q).et_deg) / 2
            + 1) ∧
      ((∀ q, q < (et_build edges).graph.et_node_lst.length →
          et_reach (et_build edges).graph.et_node_lst 0 q) →
        st1.trail_nodes = deg_sum (et_build edges).graph.et_node_lst / 2 + 1 ∧
        st1.trail_nodes = st1.graph.et_edge_num + 1 ∧
        st1.graph.et_edge_num = (edges.length : Int)) := by
  have hodd2 : ¬ (odd_count (et_build edges).graph.et_node_lst = 1 ∨
      odd_count (et_build edges).graph.et_node_lst > 2) := by omega
  obtain ⟨st1, cnt, e, -, -, -, hedge, -, hvis, -, htn⟩ := validate_build_pass edges hne hodd2
  have hfloor : st1.trail_nodes.tdiv 2 + 1 = st1.trail_nodes / 2 + 1 := by
    rw [Int.tdiv_eq_ediv (by rw [htn]; exact sum_deg_nonneg edges _) (by decide)]
  refine ⟨_, _, e, ⟨visited st1.graph.et_node_lst, hvis, ?_⟩, ?_⟩
  · show st1.trail_nodes.tdiv 2 + 1 = _
    rw [hfloor, htn]
  · intro hall
    have hR : visited st1.graph.et_node_lst =
        Finset.range (et_build edges).graph.et_node_lst.length := by
      ext q
      rw [hvis q, Finset.mem_range]
      exact ⟨fun h => h.1, fun h => ⟨h, hall q h⟩⟩
    have hsum : st1.trail_nodes = deg_sum (et_build edges).graph.et_node_lst := by
      rw [htn, hR]; rfl
    have h2 := (built_inv_build edges).sum_eq
    refine ⟨?_, ?_, hedge⟩
    · show st1.trail_nodes.tdiv 2 + 1 = _
      rw [hfloor, hsum]
    · show st1.trail_nodes.tdiv 2 + 1 = st1.graph.et_edge_num + 1
      rw [hfloor, hsum, h2, hedge]
      omega

/-- In the graph of the path 1 2 3 every node can be reached from the first. -/
theorem path_reachable (q : Nat)
    (hq : q < (et_build [(1, 2), (2, 3)]).graph.et_node_lst.length) :
    et_reach (et_build [(1, 2), (2, 3)]).graph.et_node_lst 0 q := by
  have h01 : et_adj (et_build [(1, 2), (2, 3)]).graph.et_node_lst 0 1 :=
    ⟨⟨0, 1⟩, by decide, rfl⟩
  have h12 : et_adj (et_build [(1, 2), (2, 3)]).graph.et_node_lst 1 2 :=
    ⟨⟨0, 2⟩, by decide, rfl⟩
  have hlen : (et_build [(1, 2), (2, 3)]).graph.et_node_lst.length = 3 := by decide
  rw [hlen] at hq
  interval_cases q
  · exact Relation.ReflTransGen.refl
  · exact Relation.ReflTransGen.single h01
  · exact (Relation.ReflTransGen.single h01).tail h12

/-- Witness for C5: the path 1 2 3 is connected with two odd nodes, so the validator leaves
`trail_nodes` at the edge count plus one. -/
theorem trail_nodes_after_validation_witness :
    ∃ (st1 : et_state) (v : Int),
      et_validate_graph (et_build [(1, 2), (2, 3)]) = .ok (st1, v) ∧
      st1.trail_nodes = st1.graph.et_edge_num + 1 ∧ st1.graph.et_edge_num = 2 := by
  obtain ⟨st1, v, e, -, h⟩ :=
    trail_nodes_after_validation [(1, 2), (2, 3)] (by decide) (by decide)
  exact ⟨st1, v, e, (h path_reachable).2.1, (h path_reachable).2.2⟩

/-- C4 fails on the code: on the 4-cycle the first call of `et_validate_graph` returns 1 and
leaves `trail_nodes = 5`, the second call on the unchanged graph returns 0 and leaves
`trail_nodes = 3`. -/
theorem validate_twice_four_cycle :
    ∃ r1 r2 : et_state × Int,
      et_validate_graph (et_build [(1, 2), (2, 3), (3, 4), (4, 1)]) = .ok r1 ∧
      et_validate_graph r1.1 = .ok r2 ∧
      r1.2 = 1 ∧ r2.2 = 0 ∧ r1.1.trail_nodes = 5 ∧ r2.1.trail_nodes = 3 := by
  refine ⟨_, _, rfl, rfl, ?_, ?_, ?_, ?_⟩ <;> decide

/-- C4 as amended: on a graph built from an edge list, a second call of `et_validate_graph`
returns 0.  When the first call stopped at the emptiness test or the parity scan it returned 0
as well and the second call leaves `trail_nodes` unchanged; when the first call ran the
connectivity pass, the second call replaces `trail_nodes` by `floor(trail_nodes / 2) + 1`. -/
theorem validate_second_call (edges : List (Int × Int)) :
    ∃ (st1 : et_state) (v1 : Int) (st2 : et_state),
      et_validate_graph (et_build edges) = .ok (st1, v1) ∧
      et_validate_graph st1 = .ok (st2, 0) ∧
      (((et_build edges).graph.et_node_lst = [] ∨
          odd_count (et_build edges).graph.et_node_lst = 1 ∨
          odd_count (et_build edges).graph.et_node_lst > 2) →
        v1 = 0 ∧ st2.trail_nodes = st1.trail_nodes) ∧
      (¬ ((et_build edges).graph.et_node_lst = [] ∨
          odd_count (et_build edges).graph.et_node_lst = 1 ∨
          odd_count (et_build edges).graph.et_node_lst > 2) →
        st2.trail_nodes = st1.trail_nodes / 2 + 1) := by
  by_cases hne : (et_build edges).graph.et_node_lst = []
  · have e : et_validate_graph (et_build edges) = .ok (et_build edges, 0) := by
      unfold et_validate_graph
      rw [hne]
    exact ⟨_, _, _, e, e, fun _ => ⟨rfl, rfl⟩, fun h => absurd (Or.inl hne) h⟩
  · by_cases hodd : odd_count (et_build edges).graph.et_node_lst = 1 ∨
        odd_count (et_build edges).graph.et_node_lst > 2
    · have e : et_validate_graph (et_build edges) = .ok (et_build edges, 0) := by
        rw [et_validate_graph_eq _ hne, if_pos hodd]
      exact ⟨_, _, _, e, e, fun _ => ⟨rfl, rfl⟩, fun h => absurd (Or.inr hodd) h⟩
    · obtain ⟨st1, cnt, e, hlen, hdeg, hnum, -, hv0, -, -, htn⟩ :=
        validate_build_pass edges hne hodd
      have hne1 : st1.graph.et_node_lst ≠ [] := by
        intro hc
        rw [hc] at hlen
        exact hne (List.length_eq_zero.1 hlen.symm)
      have hoc : odd_count st1.graph.et_node_lst =
          odd_count (et_build edges).graph.et_node_lst := by
        have := num_deg_odd_congr _ _ hlen.symm hdeg
        rw [num_deg_odd_eq, num_deg_odd_eq] at this
        exact_mod_cast this
      have hpos : 0 < (et_build edges).graph.et_node_lst.length :=
        List.length_pos.2 hne
      have hcon : ∀ st : et_state, st.graph = st1.graph →
          et_is_connected st = .ok ({ st with trail_nodes := st.trail_nodes.tdiv 2 + 1 }, 0) := by
        intro st hg
        unfold et_is_connected
        cases hl : st.graph.et_node_lst with
        | nil => rw [hg] at hl; exact absurd hl hne1
        | cons a l =>
          simp only
          rw [← hl, et_dfs, if_pos (by rw [hg]; exact hv0)]
          simp only
          have : ¬ (0 : Int) = st.graph.et_node_num := by
            rw [hg, hnum]; omega
          rw [if_neg this]
      have e2 : ∃ st2 : et_state,
          et_validate_graph { st1 with trail_nodes := st1.trail_nodes.tdiv 2 + 1 } =
            .ok (st2, 0) ∧
          st2.trail_nodes = (st1.trail_nodes.tdiv 2 + 1).tdiv 2 + 1 := by
        rw [et_validate_graph_eq { st1 with trail_nodes := st1.trail_nodes.tdiv 2 + 1 } hne1]
        simp only [hoc, if_neg hodd]
        split
        · exact ⟨_, hcon _ rfl, rfl⟩
        · exact ⟨_, hcon _ rfl, rfl⟩
      obtain ⟨st2, e2, ht2⟩ := e2
      refine ⟨_, _, st2, e, e2, fun h => ?_, fun _ => ?_⟩
      · rcases h with h | h
        · exact absurd h hne
        · exact absurd h hodd
      · rw [ht2]
        have h0 : 0 ≤ st1.trail_nodes := by rw [htn]; exact sum_deg_nonneg edges _
        have h1 : st1.trail_nodes.tdiv 2 = st1.trail_nodes / 2 :=
          Int.tdiv_eq_ediv h0 (by decide)
        show (st1.trail_nodes.tdiv 2 + 1).tdiv 2 + 1 = (st1.trail_nodes.tdiv 2 + 1) / 2 + 1
        rw [Int.tdiv_eq_ediv (by rw [h1]; omega) (by decide)]

/-- Witness for C4 as amended: on the 4-cycle the first call runs the connectivity pass, and the
second call returns 0 and halves `trail_nodes`. -/
theorem validate_second_call_witness :
    ∃ (st1 : et_state) (v1 : Int) (st2 : et_state),
      et_validate_graph (et_build [(1, 2), (2, 3), (3, 4), (4, 1)]) = .ok (st1, v1) ∧
      et_validate_graph st1 = .ok (st2, 0) ∧
      st2.trail_nodes = st1.trail_nodes / 2 + 1 := by
  obtain ⟨st1, v1, st2, e1, e2, -, h⟩ := validate_second_call [(1, 2), (2, 3), (3, 4), (4, 1)]
  exact ⟨st1, v1, st2, e1, e2, h (by decide)⟩

/-! ## The declared node count -/

theorem ids_add_edge (g : et_graph) (n1 n2 x : Int) :
    x ∈ (et_add_edge g n1 n2).et_node_lst.map (fun n => n.et_id) ↔
      (x ∈ g.et_node_lst.map (fun n => n.et_id) ∨ x = n1 ∨ x = n2) := by
  obtain ⟨p1, p2, s⟩ := et_add_edge_spec g n1 n2
  rw [s.nodes_eq]
  by_cases c1 : n1 ∈ g.et_node_lst.map (fun n => n.et_id)
  · by_cases c2 : n2 ∈ g.et_node_lst.map (fun n => n.et_id) ∨ n2 = n1
    · simp only [c1, c2, if_true, List.append_nil]
      constructor
      · exact fun h => Or.inl h
      · rintro (h | h | h)
        · exact h
        · rw [h]; exact c1
        · rcases c2 with c2 | c2
          · rw [h]; exact c2
          · rw [h, c2]; exact c1
    · simp only [c1, c2, if_true, if_false, List.append_nil, List.mem_append,
        List.mem_singleton]
      constructor
      · rintro (h | h)
        · exact Or.inl h
        · exact Or.inr (Or.inr h)
      · rintro (h | h | h)
        · exact Or.inl h
        · rw [h]; exact Or.inl c1
        · exact Or.inr h
  · by_cases c2 : n2 ∈ g.et_node_lst.map (fun n => n.et_id) ∨ n2 = n1
    · simp only [c1, c2, if_true, if_false, List.append_nil, List.mem_append,
        List.mem_singleton]
      constructor
      · rintro (h | h)
        · exact Or.inl h
        · exact Or.inr (Or.inl h)
      · rintro (h | h | h)
        · exact Or.inl h
        · exact Or.inr h
        · rcases c2 with c2 | c2
          · rw [h]; exact Or.inl c2
          · rw [h, c2]; exact Or.inr rfl
    · simp only [c1, c2, if_false, List.mem_append, List.mem_singleton]
      constructor
      · rintro ((h | h) | h)
        · exact Or.inl h
        · exact Or.inr (Or.inl h)
        · exact Or.inr (Or.inr h)
      · rintro (h | h | h)
        · exact Or.inl (Or.inl h)
        · exact Or.inl (Or.inr h)
        · exact Or.inr h

theorem ids_read_edges (edges : List (Int × Int)) : ∀ (g : et_graph) (x : Int),
    x ∈ (et_read_edges g edges).et_node_lst.map (fun n => n.et_id) ↔
      (x ∈ g.et_node_lst.map (fun n => n.et_id) ∨ x ∈ edge_ids edges) := by
  induction edges with
  | nil => intro g x; simp [et_read_edges, edge_ids]
  | cons e rest ih =>
    intro g x
    simp only [et_read_edges, edge_ids, List.mem_cons]
    rw [ih, ids_add_edge]
    tauto

/-- The node counter after `et_build_graph` is the number of distinct identifiers read. -/
theorem node_num_build (edges : List (Int × Int)) :
    (et_build edges).graph.et_node_num = (distinct_ids edges : Int) := by
  have hb := built_inv_build edges
  rw [hb.num]
  congr 1
  unfold distinct_ids
  rw [← List.card_toFinset, ← List.length_map (et_build edges).graph.et_node_lst
    (fun n => n.et_id), ← List.toFinset_card_of_nodup hb.nodup]
  congr 1
  ext x
  simp only [List.mem_toFinset]
  have := ids_read_edges edges et_init_graph x
  simp only [et_init_graph, List.map_nil, List.not_mem_nil, false_or] at this
  exact this

/-- C11 fails on the code: with declared node count 1 and the edge (1,2), two distinct
identifiers are read, more than declared, yet `et_build_graph` returns normally and `main` goes
on to validate the graph and print the trail 1 2. -/
theorem more_nodes_than_declared :
    1 < distinct_ids [(1, 2)] ∧
    et_build_graph 1 [(1, 2)] = some (et_build [(1, 2)]) ∧
    et_main 1 [(1, 2)] = .ok (.trail_ids [1, 2]) := by
  decide

/-- C11 as amended: `et_build_graph` takes its early exit (the instance is reported unsolvable
and neither the validator nor the trail construction runs) exactly when the declared node
count exceeds the number of distinct identifiers read; otherwise it returns the built state,
which `main` hands to the validator. -/
theorem early_exit_iff (d : Int) (edges : List (Int × Int)) :
    (et_build_graph d edges = none ↔ (distinct_ids edges : Int) < d) ∧
    (et_build_graph d edges = none → et_main d edges = .ok .no_solution) ∧
    (¬ (distinct_ids edges : Int) < d → et_build_graph d edges = some (et_build edges)) := by
  have hn := node_num_build edges
  have key : et_build_graph d edges =
      if (distinct_ids edges : Int) < d then none else some (et_build edges) := by
    unfold et_build_graph
    simp only [hn, gt_iff_lt]
  refine ⟨?_, ?_, ?_⟩
  · rw [key]; split <;> simp [*]
  · intro h
    unfold et_main
    rw [h]
  · intro h
    rw [key, if_neg h]

/-- Witness for C11 as amended: declared count 5 on the 4-cycle takes the early exit. -/
theorem early_exit_iff_witness :
    et_build_graph 5 [(1, 2), (2, 3), (3, 4), (4, 1)] = none ∧
    et_main 5 [(1, 2), (2, 3), (3, 4), (4, 1)] = .ok .no_solution := by
  have h := early_exit_iff 5 [(1, 2), (2, 3), (3, 4), (4, 1)]
  have h1 := h.1.2 (by decide)
  exact ⟨h1, h.2.1 h1⟩

/-- C12: when the declared node count exceeds the number of distinct identifiers in the edge
list, the program prints `-1`, whatever the degrees and the connectivity of the graph. -/
theorem declared_count_too_large (d : Int) (edges : List (Int × Int))
    (h : (distinct_ids edges : Int) < d) : et_main d edges = .ok .no_solution := by
  have hn := node_num_build edges
  unfold et_main et_build_graph
  simp only [hn, gt_iff_lt, h, if_true]

/-- Witness for C12: scenario 5, declared count 5 with the four identifiers of the 4-cycle,
a graph that has an Eulerian circuit. -/
theorem declared_count_too_large_witness :
    (distinct_ids [(1, 2), (2, 3), (3, 4), (4, 1)] : Int) < 5 ∧
    et_main 5 [(1, 2), (2, 3), (3, 4), (4, 1)] = .ok .no_solution :=
  ⟨by decide, declared_count_too_large 5 [(1, 2), (2, 3), (3, 4), (4, 1)] (by decide)⟩

/-! ## The connectivity pass: result -/

/-- C18: on every non-empty freshly built graph the call of `et_dfs` made by `et_is_connected`
returns; its count is the number of nodes reachable from the first-inserted node along
adjacency entries; every node it has marked visited has `et_edeg` equal to `et_deg`; and
`et_is_connected` returns 1 if every node is reachable from the first node and 0 otherwise. -/
theorem connectivity_pass_correct (edges : List (Int × Int))
    (hne : (et_build edges).graph.et_node_lst ≠ []) :
    ∃ (st1 : et_state) (cnt v : Int) (R : Finset Nat),
      et_dfs ((et_build edges).graph.et_node_lst.length + 1) (et_build edges) 0 0 =
        .ok (st1, cnt) ∧
      et_is_connected (et_build edges) =
        .ok ({ st1 with trail_nodes := st1.trail_nodes.tdiv 2 + 1 }, v) ∧
      (∀ q, q ∈ R ↔ (q < (et_build edges).graph.et_node_lst.length ∧
        et_reach (et_build edges).graph.et_node_lst 0 q)) ∧
      cnt = (R.card : Int) ∧
      (∀ q, (node_at st1.graph.et_node_lst q).et_vst ≠ 0 ↔ q ∈ R) ∧
      (∀ q, (node_at st1.graph.et_node_lst q).et_vst ≠ 0 →
        (node_at st1.graph.et_node_lst q).et_edeg = (node_at st1.graph.et_node_lst q).et_deg) ∧
      (v = 1 ↔ ∀ q, q < (et_build edges).graph.et_node_lst.length →
        et_reach (et_build edges).graph.et_node_lst 0 q) ∧
      (v = 0 ∨ v = 1) := by
  have hb := built_inv_build edges
  have hpos : 0 < (et_build edges).graph.et_node_lst.length := List.length_pos.2 hne
  obtain ⟨z1, -, z3⟩ := vis_zero _ hb.vst0
  obtain ⟨st1, cnt, e, hp, hv⟩ := et_dfs_spec ((et_build edges).graph.et_node_lst.length + 1)
    (et_build edges) 0 0 hb.wf hpos (by omega)
  have hvis : ∀ q, q ∈ visited st1.graph.et_node_lst ↔
      (q < (et_build edges).graph.et_node_lst.length ∧
        et_reach (et_build edges).graph.et_node_lst 0 q) := by
    intro q
    simp only [visited, Finset.mem_filter, Finset.mem_range]
    constructor
    · rintro ⟨hq, hvq⟩
      obtain ⟨s, hs, hr⟩ := hp.sound q hvq (hb.vst0 q)
      subst hs
      exact ⟨by rw [← hp.len_eq]; exact hq, hr⟩
    · rintro ⟨hq, hr⟩
      refine ⟨by rw [hp.len_eq]; exact hq, ?_⟩
      clear hq
      induction hr with
      | refl => exact hv
      | tail _ hbc ih => exact hp.closed _ ih (hb.vst0 _) _ hbc
  have hcnt : cnt = ((visited st1.graph.et_node_lst).card : Int) := by
    have := hp.cnt_eq
    rw [z1, vis_cnt_eq_card] at this
    omega
  have hmem : ∀ q, (node_at st1.graph.et_node_lst q).et_vst ≠ 0 ↔
      q ∈ visited st1.graph.et_node_lst := by
    intro q
    simp only [visited, Finset.mem_filter, Finset.mem_range]
    constructor
    · intro h
      refine ⟨?_, h⟩
      by_contra hc
      rw [node_at_of_le _ q (by omega)] at h
      exact h rfl
    · exact fun h => h.2
  have hnum : st1.graph.et_node_num = ((et_build edges).graph.et_node_lst.length : Int) := by
    rw [hp.num_eq, hb.num]
  refine ⟨st1, cnt, if cnt = st1.graph.et_node_num then 1 else 0,
    visited st1.graph.et_node_lst, e, ?_, hvis, hcnt, hmem, ?_, ?_, ?_⟩
  · unfold et_is_connected
    cases hl : (et_build edges).graph.et_node_lst with
    | nil => exact absurd hl hne
    | cons a l =>
      simp only
      rw [hl] at e
      rw [e]
  · intro q hq
    rw [hp.fresh q hq (hb.vst0 q), (hp.shape q).2.1]
  · rw [hnum, hcnt]
    constructor
    · intro h q hq
      have hc : (visited st1.graph.et_node_lst).card =
          (Finset.range st1.graph.et_node_lst.length).card := by
        rw [Finset.card_range, hp.len_eq]
        by_contra hc
        rw [if_neg (by intro h2; exact hc (by exact_mod_cast h2))] at h
        exact absurd h (by decide)
      have := Finset.filter_card_eq hc q (by rw [Finset.mem_range, hp.len_eq]; exact hq)
      exact ((hvis q).1 ((hmem q).1 this)).2
    · intro h
      have hR : visited st1.graph.et_node_lst =
          Finset.range (et_build edges).graph.et_node_lst.length := by
        ext q
        rw [hvis q, Finset.mem_range]
        exact ⟨fun h2 => h2.1, fun h2 => ⟨h2, h q h2⟩⟩
      rw [hR, Finset.card_range, if_pos rfl]
  · split
    · exact Or.inr rfl
    · exact Or.inl rfl

/-- Witness for C18: the graph of the path 1 2 3. -/
theorem connectivity_pass_correct_witness :
    ∃ (st1 : et_state) (cnt v : Int),
      et_dfs ((et_build [(1, 2), (2, 3)]).graph.et_node_lst.length + 1)
        (et_build [(1, 2), (2, 3)]) 0 0 = .ok (st1, cnt) ∧
      et_is_connected (et_build [(1, 2), (2, 3)]) =
        .ok ({ st1 with trail_nodes := st1.trail_nodes.tdiv 2 + 1 }, v) ∧ v = 1 := by
  obtain ⟨st1, cnt, v, R, h1, h2, -, -, -, -, h7, -⟩ :=
    connectivity_pass_correct [(1, 2), (2, 3)] (by decide)
  exact ⟨st1, cnt, v, h1, h2, h7.2 path_reachable⟩

/-! ## The splice -/

/-- The search loop of `et_insert_sub_circuit` finds the first entry with the identifier. -/
theorem et_find_pos_eq (nodes : List et_node) (id : Int) (T : List Nat) :
    et_find_pos nodes id T =
      if id ∈ T.map (fun p => (node_at nodes p).et_id) then
        some ((T.map (fun p => (node_at nodes p).et_id)).indexOf id)
      else none := by
  induction T with
  | nil => simp [et_find_pos]
  | cons a T ih =>
    unfold et_find_pos
    by_cases h : (node_at nodes a).et_id = id
    · simp [h]
    · have h2 : ¬ id = (node_at nodes a).et_id := fun e => h e.symm
      rw [if_neg h, ih]
      by_cases hm : id ∈ T.map (fun p => (node_at nodes p).et_id)
      · rw [if_pos hm, if_pos (by simp [hm])]
        simp only [List.map_cons]
        rw [List.indexOf_cons_ne _ (fun e => h e)]
      · rw [if_neg hm, if_neg (by simpa [h2] using hm)]

/-- A call that the program never makes: `et_sub_circuit` returns `NULL` or a sub-circuit of at
least two entries.  Splicing the one-entry sub-circuit `[0]` into the trail `[0, 1]` of the
graph of the edge (1,2) would leave the trail `[0]` with the stored count 2. -/
theorem splice_single_entry :
    et_insert_sub_circuit (et_build [(1, 2)]).graph.et_node_lst ⟨2, [0, 1]⟩ (some ⟨1, [0]⟩) =
      .ok ⟨2, [0]⟩ ∧
    ([0] : List Nat) ≠ List.take (0 + 1) [0, 1] ++ List.tail [0] ++ List.drop (0 + 1) [0, 1] ∧
    (2 : Int) ≠ (([0] : List Nat).length : Int) := by
  decide

/-- Effect of `et_insert_sub_circuit` on a trail `T` and a sub-circuit `S` of at least two
entries whose first node `r` has an identifier that occurs in `T`, with `i` the position of the
first entry of `T` with that identifier: it leaves `T[0..i]`, then `S` without its first
entry, then `T[i+1..]`, and the stored count `count(T) + count(S) - 1`, which is the length of
the new sequence when both stored counts were the lengths; when the identifier does not occur
in `T`, or the sub-circuit is absent, the trail is unchanged. -/
theorem et_insert_sub_circuit_splice (nodes : List et_node) (T S : et_trail) (r : Nat) (rest : List Nat)
    (hS : S.et_trail_lst = r :: rest) :
    (rest ≠ [] →
      (node_at nodes r).et_id ∈ T.et_trail_lst.map (fun p => (node_at nodes p).et_id) →
      ∃ T1 : et_trail, et_insert_sub_circuit nodes T (some S) = .ok T1 ∧
        T1.et_trail_lst =
          T.et_trail_lst.take ((T.et_trail_lst.map (fun p => (node_at nodes p).et_id)).indexOf
            (node_at nodes r).et_id + 1) ++ rest ++
          T.et_trail_lst.drop ((T.et_trail_lst.map (fun p => (node_at nodes p).et_id)).indexOf
            (node_at nodes r).et_id + 1) ∧
        T1.et_trail_num = T.et_trail_num + S.et_trail_num - 1 ∧
        (T.et_trail_num = (T.et_trail_lst.length : Int) →
          S.et_trail_num = (S.et_trail_lst.length : Int) →
          T1.et_trail_num = (T1.et_trail_lst.length : Int))) ∧
    ((node_at nodes r).et_id ∉ T.et_trail_lst.map (fun p => (node_at nodes p).et_id) →
      et_insert_sub_circuit nodes T (some S) = .ok T) ∧
    et_insert_sub_circuit nodes T none = .ok T := by
  refine ⟨?_, ?_, rfl⟩
  · intro hrest hmem
    have hT : T.et_trail_lst ≠ [] := by
      intro hc; rw [hc] at hmem; simp at hmem
    have hi : (T.et_trail_lst.map (fun p => (node_at nodes p).et_id)).indexOf
        (node_at nodes r).et_id < T.et_trail_lst.length := by
      have := List.indexOf_lt_length.2 hmem
      simpa using this
    obtain ⟨a, T0, hT0⟩ := List.exists_cons_of_ne_nil hT
    obtain ⟨b, rest0, hrest0⟩ := List.exists_cons_of_ne_nil hrest
    refine ⟨⟨T.et_trail_num + (S.et_trail_num - 1),
      T.et_trail_lst.take ((T.et_trail_lst.map (fun p => (node_at nodes p).et_id)).indexOf
        (node_at nodes r).et_id + 1) ++ (rest ++
      T.et_trail_lst.drop ((T.et_trail_lst.map (fun p => (node_at nodes p).et_id)).indexOf
        (node_at nodes r).et_id + 1))⟩, ?_, ?_, ?_, ?_⟩
    · unfold et_insert_sub_circuit
      simp only [hS, hT0]
      rw [← hT0, et_find_pos_eq, if_pos hmem]
      simp only [hrest0]
    · simp only [List.append_assoc]
    · simp only; ring
    · intro h1 h2
      simp only [h1, h2, hS, List.length_append, List.length_take, List.length_drop,
        List.length_cons]
      rw [min_eq_left (by omega)]
      push_cast
      omega
  · intro hmem
    unfold et_insert_sub_circuit
    cases hT : T.et_trail_lst with
    | nil => simp only [hS]
    | cons a T0 =>
      simp only [hS]
      rw [← hT, et_find_pos_eq, if_neg hmem]

/-! ## Runs that break the invariants of the trail construction -/

/-- C13 fails on the code: for the edges (1,1), (1,1), (1,2) the validator accepts the instance,
the trail construction walks the second self-loop twice (`et_set_edge_used` flags the first
entry with the neighbour's identifier, which is already flagged, not the entry just walked)
and ends with `et_edeg = -2` at node 1. -/
theorem edeg_negative_two_loops :
    ∃ (st : et_state) (r : et_run),
      et_validate_graph (et_build [(1, 1), (1, 1), (1, 2)]) = .ok (st, 1) ∧
      et_eulerian_trail st = .ok r ∧
      r.nodes.map (fun n => (n.et_id, n.et_edeg)) = [(1, -2), (2, 0)] ∧
      et_print_trail r.nodes r.trail = [1, 1, 1, 1, 2] := by
  refine ⟨_, _, rfl, rfl, ?_, ?_⟩ <;> decide

/-- C14 fails on the code: for the edges (1,2), (1,2), (1,3), (2,3) the validator accepts the
instance and the printed trail is 1 2 1 2, which walks the edge between 1 and 2 three times
although the input holds it twice. -/
theorem parallel_edge_walked_thrice :
    et_validated [(1, 2), (1, 2), (1, 3), (2, 3)] = .ok (1, 0) ∧
    et_main 3 [(1, 2), (1, 2), (1, 3), (2, 3)] = .ok (.trail_ids [1, 2, 1, 2]) ∧
    ((trail_pairs [1, 2, 1, 2]).map norm_edge).count (1, 2) = 3 ∧
    (([(1, 2), (1, 2), (1, 3), (2, 3)] : List (Int × Int)).map norm_edge).count (1, 2) = 2 := by
  decide

/-- C15 fails on the code: for two triangles that share node 1 the run ends with node 1 still in
the candidate list although its `et_edeg` is 0. -/
theorem candidate_with_no_degree_left :
    ∃ (st : et_state) (r : et_run),
      et_validate_graph (et_build [(1, 2), (2, 3), (3, 1), (1, 4), (4, 5), (5, 1)]) =
        .ok (st, 1) ∧
      et_eulerian_trail st = .ok r ∧
      r.list.et_trail_lst.map
        (fun p => ((node_at r.nodes p).et_id, (node_at r.nodes p).et_edeg)) = [(1, 0)] := by
  refine ⟨_, _, rfl, rfl, ?_⟩; decide

/-- C17 fails on the code: for the edges (1,1), (2,2), (1,2) the validator accepts the instance;
the initial walk 1 1 2 leaves the candidate list `[1, 2]` and is one entry short, so the
splicing loop calls `et_sub_circuit` at candidate 1, whose remaining degree is 0: the call
takes the stalled branch and returns `NULL`. -/
theorem candidate_walk_stalls :
    ∃ (st : et_state) (w : et_walk) (trail : et_trail),
      et_validate_graph (et_build [(1, 1), (2, 2), (1, 2)]) = .ok (st, 1) ∧
      st.circuit = 0 ∧ st.graph.et_odd_nodes = [0, 1] ∧
      et_sub_circuit st.graph.et_node_lst (some 0) (some 1) ⟨0, []⟩ = .ok w ∧
      w.sub = some trail ∧ et_is_trail st trail = false ∧
      w.list.et_trail_lst.get? 0 = some 0 ∧
      et_sub_circuit w.nodes (some 0) none w.list = .ok ⟨w.nodes, w.list, none⟩ ∧
      et_main 2 [(1, 1), (2, 2), (1, 2)] = .ok (.trail_ids [1, 1, 2, 2]) := by
  refine ⟨_, _, _, rfl, ?_, ?_, rfl, rfl, ?_, ?_, ?_, ?_⟩ <;> decide

/-! ## The walk loop: effect of one step -/

theorem map_set_of_eq {β : Type} (f : et_node → β) (l : List et_node) (p : Nat) (x : et_node)
    (h : f x = f (node_at l p)) : (l.set p x).map f = l.map f := by
  induction l generalizing p with
  | nil => simp
  | cons a l ih =>
    cases p with
    | zero => simp [node_at_cons_zero] at h; simp [h]
    | succ p => simp [node_at_cons_succ] at h; simp [ih p h]

theorem sum_map_set_le (f : et_node → Nat) (l : List et_node) (p : Nat) (x : et_node)
    (h : f x ≤ f (node_at l p)) : ((l.set p x).map f).sum ≤ (l.map f).sum := by
  induction l generalizing p with
  | nil => simp
  | cons a l ih =>
    cases p with
    | zero =>
      simp only [node_at_cons_zero] at h
      simp only [List.set_cons_zero, List.map_cons, List.sum_cons]
      omega
    | succ p =>
      simp only [node_at_cons_succ] at h
      have := ih p h
      simp only [List.set_cons_succ, List.map_cons, List.sum_cons]
      omega

theorem sum_map_set_lt (f : et_node → Nat) (l : List et_node) (p : Nat) (x : et_node)
    (hp : p < l.length) (h : f x < f (node_at l p)) :
    ((l.set p x).map f).sum < (l.map f).sum := by
  induction l generalizing p with
  | nil => simp at hp
  | cons a l ih =>
    cases p with
    | zero =>
      simp only [node_at_cons_zero] at h
      simp only [List.set_cons_zero, List.map_cons, List.sum_cons]
      omega
    | succ p =>
      simp only [node_at_cons_succ] at h
      have := ih p (by simpa using hp) h
      simp only [List.set_cons_succ, List.map_cons, List.sum_cons]
      omega

theorem et_dec_edeg_at (nodes : List et_node) (p q : Nat) :
    node_at (et_dec_edeg nodes p) q =
      if q = p ∧ p < nodes.length then
        { node_at nodes q with et_edeg := (node_at nodes q).et_edeg - 1 }
      else node_at nodes q := by
  unfold et_dec_edeg
  rw [node_at_set]
  by_cases h : q = p ∧ p < nodes.length
  · rw [if_pos h, if_pos h, h.1]
  · rw [if_neg h, if_neg h]

theorem et_mark_adj_at (nodes : List et_node) (p : Nat) (id : Int) (q : Nat) :
    node_at (et_mark_adj nodes p id) q =
      if q = p ∧ p < nodes.length then
        { node_at nodes q with
          et_adj_lst := et_mark_first nodes id (node_at nodes q).et_adj_lst }
      else node_at nodes q := by
  unfold et_mark_adj
  rw [node_at_set]
  by_cases h : q = p ∧ p < nodes.length
  · rw [if_pos h, if_pos h, h.1]
  · rw [if_neg h, if_neg h]

theorem et_mark_first_targets (nodes : List et_node) (id : Int) (l : List et_elem) :
    (et_mark_first nodes id l).map (fun e => e.et_elem_node) =
      l.map (fun e => e.et_elem_node) := by
  induction l with
  | nil => rfl
  | cons e l ih =>
    unfold et_mark_first
    split
    · rfl
    · simp [ih]

theorem et_dec_edeg_keeps (nodes : List et_node) (p : Nat) :
    (et_dec_edeg nodes p).length = nodes.length ∧
    ∀ q, (node_at (et_dec_edeg nodes p) q).et_id = (node_at nodes q).et_id ∧
      (node_at (et_dec_edeg nodes p) q).et_deg = (node_at nodes q).et_deg ∧
      (node_at (et_dec_edeg nodes p) q).et_vst = (node_at nodes q).et_vst ∧
      (node_at (et_dec_edeg nodes p) q).et_adj_lst = (node_at nodes q).et_adj_lst ∧
      (node_at (et_dec_edeg nodes p) q).et_edeg = (node_at nodes q).et_edeg -
        (if q = p ∧ p < nodes.length then 1 else 0) := by
  refine ⟨by simp [et_dec_edeg], fun q => ?_⟩
  rw [et_dec_edeg_at]
  by_cases h : q = p ∧ p < nodes.length
  · rw [if_pos h, if_pos h]; exact ⟨rfl, rfl, rfl, rfl, rfl⟩
  · rw [if_neg h, if_neg h]; exact ⟨rfl, rfl, rfl, rfl, by omega⟩

theorem et_mark_adj_keeps (nodes : List et_node) (p : Nat) (id : Int) :
    (et_mark_adj nodes p id).length = nodes.length ∧
    ∀ q, (node_at (et_mark_adj nodes p id) q).et_id = (node_at nodes q).et_id ∧
      (node_at (et_mark_adj nodes p id) q).et_deg = (node_at nodes q).et_deg ∧
      (node_at (et_mark_adj nodes p id) q).et_vst = (node_at nodes q).et_vst ∧
      (node_at (et_mark_adj nodes p id) q).et_edeg = (node_at nodes q).et_edeg ∧
      (node_at (et_mark_adj nodes p id) q).et_adj_lst =
        (if q = p ∧ p < nodes.length then et_mark_first nodes id (node_at nodes q).et_adj_lst
         else (node_at nodes q).et_adj_lst) := by
  refine ⟨by simp [et_mark_adj], fun q => ?_⟩
  rw [et_mark_adj_at]
  by_cases h : q = p ∧ p < nodes.length
  · rw [if_pos h, if_pos h]; exact ⟨rfl, rfl, rfl, rfl, rfl⟩
  · rw [if_neg h, if_neg h]; exact ⟨rfl, rfl, rfl, rfl, rfl⟩

theorem et_mark_adj_targets (nodes : List et_node) (p : Nat) (id : Int) (q : Nat) :
    (node_at (et_mark_adj nodes p id) q).et_adj_lst.map (fun e => e.et_elem_node) =
      (node_at nodes q).et_adj_lst.map (fun e => e.et_elem_node) := by
  rw [((et_mark_adj_keeps nodes p id).2 q).2.2.2.2]
  split
  · exact et_mark_first_targets _ _ _
  · rfl

/-- What `et_set_edge_used` keeps: the length of the node list and, for every node, the
identifier, the degree, the visited flag and the targets of the adjacency entries. -/
theorem et_set_edge_used_keeps (nodes : List et_node) (a b : Nat) :
    (et_set_edge_used nodes a b).length = nodes.length ∧
    ∀ q, (node_at (et_set_edge_used nodes a b) q).et_id = (node_at nodes q).et_id ∧
      (node_at (et_set_edge_used nodes a b) q).et_deg = (node_at nodes q).et_deg ∧
      (node_at (et_set_edge_used nodes a b) q).et_vst = (node_at nodes q).et_vst ∧
      (node_at (et_set_edge_used nodes a b) q).et_adj_lst.map (fun e => e.et_elem_node) =
        (node_at nodes q).et_adj_lst.map (fun e => e.et_elem_node) := by
  unfold et_set_edge_used
  simp only
  generalize hn1 : et_dec_edeg nodes a = n1
  generalize hn2 : et_dec_edeg n1 b = n2
  generalize hi1 : (node_at n2 b).et_id = i1
  generalize hn3 : et_mark_adj n2 a i1 = n3
  generalize hi2 : (node_at n3 a).et_id = i2
  have k1 := et_dec_edeg_keeps nodes a
  have k2 := et_dec_edeg_keeps n1 b
  have k3 := et_mark_adj_keeps n2 a i1
  have k4 := et_mark_adj_keeps n3 b i2
  have t3 := et_mark_adj_targets n2 a i1
  have t4 := et_mark_adj_targets n3 b i2
  rw [hn1] at k1
  rw [hn2] at k2
  rw [hn3] at k3 t3
  refine ⟨by rw [k4.1, k3.1, k2.1, k1.1], fun q => ⟨?_, ?_, ?_, ?_⟩⟩
  · rw [(k4.2 q).1, (k3.2 q).1, (k2.2 q).1, (k1.2 q).1]
  · rw [(k4.2 q).2.1, (k3.2 q).2.1, (k2.2 q).2.1, (k1.2 q).2.1]
  · rw [(k4.2 q).2.2.1, (k3.2 q).2.2.1, (k2.2 q).2.2.1, (k1.2 q).2.2.1]
  · rw [t4 q, t3 q, (k2.2 q).2.2.2.1, (k1.2 q).2.2.2.1]

/-- What `et_set_edge_used` does to `et_edeg`: one decrement per endpoint. -/
theorem et_set_edge_used_edeg (nodes : List et_node) (a b q : Nat) :
    (node_at (et_set_edge_used nodes a b) q).et_edeg = (node_at nodes q).et_edeg -
      (if q = a ∧ a < nodes.length then 1 else 0) -
      (if q = b ∧ b < nodes.length then 1 else 0) := by
  unfold et_set_edge_used
  simp only
  generalize hn1 : et_dec_edeg nodes a = n1
  generalize hn2 : et_dec_edeg n1 b = n2
  generalize hi1 : (node_at n2 b).et_id = i1
  generalize hn3 : et_mark_adj n2 a i1 = n3
  generalize hi2 : (node_at n3 a).et_id = i2
  have k1 := et_dec_edeg_keeps nodes a
  have k2 := et_dec_edeg_keeps n1 b
  have k3 := et_mark_adj_keeps n2 a i1
  have k4 := et_mark_adj_keeps n3 b i2
  rw [hn1] at k1
  rw [hn2] at k2
  rw [hn3] at k3
  rw [(k4.2 q).2.2.2.1, (k3.2 q).2.2.2.1, (k2.2 q).2.2.2.2, (k1.2 q).2.2.2.2, k1.1]

theorem et_dec_edeg_measure_le (nodes : List et_node) (p : Nat) :
    et_walk_measure (et_dec_edeg nodes p) ≤ et_walk_measure nodes := by
  unfold et_walk_measure et_dec_edeg
  apply sum_map_set_le
  simp only
  omega

theorem et_dec_edeg_measure_lt (nodes : List et_node) (p : Nat)
    (h : (node_at nodes p).et_edeg > 0) :
    et_walk_measure (et_dec_edeg nodes p) < et_walk_measure nodes := by
  have hp : p < nodes.length := by
    by_contra hc
    rw [node_at_of_le nodes p (by omega)] at h
    exact absurd h (by decide)
  unfold et_walk_measure et_dec_edeg
  apply sum_map_set_lt _ _ _ _ hp
  simp only
  omega

theorem et_mark_adj_measure (nodes : List et_node) (p : Nat) (id : Int) :
    et_walk_measure (et_mark_adj nodes p id) = et_walk_measure nodes := by
  unfold et_walk_measure et_mark_adj
  exact congrArg List.sum (map_set_of_eq _ _ _ _ rfl)

/-- Every accepted step of the walk loop lowers the sum of `max(et_edeg, 0)`. -/
theorem et_set_edge_used_measure (nodes : List et_node) (a b : Nat)
    (h : (node_at nodes b).et_edeg > 0) :
    et_walk_measure (et_set_edge_used nodes a b) < et_walk_measure nodes := by
  unfold et_set_edge_used
  simp only [et_mark_adj_measure]
  by_cases hab : b = a
  · subst hab
    exact lt_of_le_of_lt (et_dec_edeg_measure_le _ _) (et_dec_edeg_measure_lt _ _ h)
  · refine lt_of_lt_of_le (et_dec_edeg_measure_lt _ _ ?_) (et_dec_edeg_measure_le _ _)
    rw [((et_dec_edeg_keeps nodes a).2 b).2.2.2.2]
    have : ¬ (b = a ∧ a < nodes.length) := fun hc => hab hc.1
    rw [if_neg this]
    omega

/-- The scan along one adjacency list returns when the continuation returns on every state of
smaller measure. -/
theorem et_sub_circuit_scan_total
    (k : List et_node → et_trail → et_trail → Nat → et_result et_walk) (end_ : Nat)
    (nodes : List et_node) (list sub : et_trail) (prv : Nat)
    (hk : ∀ nodes1 list1 sub1 p, et_walk_measure nodes1 < et_walk_measure nodes →
      ∃ w, k nodes1 list1 sub1 p = .ok w) :
    ∀ l : List et_elem, ∃ w, et_sub_circuit_scan k end_ nodes list sub prv l = .ok w := by
  intro l
  induction l with
  | nil => exact ⟨_, rfl⟩
  | cons cur nxt ih =>
    unfold et_sub_circuit_scan
    by_cases hacc : (node_at nodes cur.et_elem_node).et_edeg > 0 ∧ cur.et_elem_usd = 0
    · rw [if_pos hacc]
      simp only
      split
      · exact ⟨_, rfl⟩
      · exact hk _ _ _ _ (et_set_edge_used_measure nodes prv cur.et_elem_node hacc.1)
    · rw [if_neg hacc]
      exact ih

/-- The walk loop returns whenever its bound exceeds the sum of `max(et_edeg, 0)`. -/
theorem et_sub_circuit_loop_total (end_ : Nat) : ∀ (fuel : Nat) (nodes : List et_node)
    (list sub : et_trail) (prv : Nat), et_walk_measure nodes < fuel →
    ∃ w, et_sub_circuit_loop end_ fuel nodes list sub prv = .ok w := by
  intro fuel
  induction fuel with
  | zero => intro nodes list sub prv h; omega
  | succ fuel ih =>
    intro nodes list sub prv h
    unfold et_sub_circuit_loop
    apply et_sub_circuit_scan_total
    intro nodes1 list1 sub1 p h1
    exact ih nodes1 list1 sub1 p (by omega)

/-- Totality of `et_sub_circuit`: the walk loop terminates on every state. -/
theorem et_sub_circuit_total (nodes : List et_node) (start end_ : Option Nat) (list : et_trail) :
    ∃ w, et_sub_circuit nodes start end_ list = .ok w := by
  unfold et_sub_circuit
  cases start with
  | none => exact ⟨_, rfl⟩
  | some s =>
    simp only
    apply et_sub_circuit_loop_total
    unfold et_walk_fuel et_walk_measure
    omega

/-- Proof rule for the walk loop: a property `P` of the loop state that every accepted step
re-establishes gives `Q` of the result, when the stalled exit and the exit at the end node give
`Q`. -/
theorem walk_rule (end_ : Nat) (P : List et_node → et_trail → et_trail → Nat → Prop)
    (Q : et_walk → Prop)
    (hstall : ∀ nodes list sub prv, P nodes list sub prv →
      (∀ cur, cur ∈ (node_at nodes prv).et_adj_lst →
        ¬ ((node_at nodes cur.et_elem_node).et_edeg > 0 ∧ cur.et_elem_usd = 0)) →
      Q ⟨nodes, list, none⟩)
    (hstep : ∀ nodes list sub prv cur, P nodes list sub prv →
      cur ∈ (node_at nodes prv).et_adj_lst →
      (node_at nodes cur.et_elem_node).et_edeg > 0 → cur.et_elem_usd = 0 →
      ((node_at (et_set_edge_used nodes prv cur.et_elem_node) cur.et_elem_node).et_id =
          (node_at (et_set_edge_used nodes prv cur.et_elem_node) end_).et_id →
        Q ⟨et_set_edge_used nodes prv cur.et_elem_node,
          et_list_add_elem (et_set_edge_used nodes prv cur.et_elem_node) list cur.et_elem_node,
          some (et_trail_add_elem sub cur.et_elem_node)⟩) ∧
      (¬ (node_at (et_set_edge_used nodes prv cur.et_elem_node) cur.et_elem_node).et_id =
          (node_at (et_set_edge_used nodes prv cur.et_elem_node) end_).et_id →
        P (et_set_edge_used nodes prv cur.et_elem_node)
          (et_list_add_elem (et_set_edge_used nodes prv cur.et_elem_node) list cur.et_elem_node)
          (et_trail_add_elem sub cur.et_elem_node) cur.et_elem_node)) :
    ∀ (fuel : Nat) (nodes : List et_node) (list sub : et_trail) (prv : Nat) (w : et_walk),
      P nodes list sub prv → et_sub_circuit_loop end_ fuel nodes list sub prv = .ok w → Q w := by
  intro fuel
  induction fuel with
  | zero =>
    intro nodes list sub prv w _ h
    simp [et_sub_circuit_loop] at h
  | succ fuel ih =>
    intro nodes list sub prv w hP h
    unfold et_sub_circuit_loop at h
    have key : ∀ (l pre : List et_elem), (node_at nodes prv).et_adj_lst = pre ++ l →
        (∀ cur, cur ∈ pre →
          ¬ ((node_at nodes cur.et_elem_node).et_edeg > 0 ∧ cur.et_elem_usd = 0)) →
        et_sub_circuit_scan (et_sub_circuit_loop end_ fuel) end_ nodes list sub prv l = .ok w →
        Q w := by
      intro l
      induction l with
      | nil =>
        intro pre hpre hrej hs
        simp only [et_sub_circuit_scan, et_result.ok.injEq] at hs
        rw [← hs]
        apply hstall nodes list sub prv hP
        rw [hpre, List.append_nil]
        exact hrej
      | cons cur nxt ihl =>
        intro pre hpre hrej hs
        unfold et_sub_circuit_scan at hs
        have hmem : cur ∈ (node_at nodes prv).et_adj_lst := by
          rw [hpre]; simp
        by_cases hacc : (node_at nodes cur.et_elem_node).et_edeg > 0 ∧ cur.et_elem_usd = 0
        · rw [if_pos hacc] at hs
          simp only at hs
          have hst := hstep nodes list sub prv cur hP hmem hacc.1 hacc.2
          by_cases hid : (node_at (et_set_edge_used nodes prv cur.et_elem_node)
              cur.et_elem_node).et_id =
              (node_at (et_set_edge_used nodes prv cur.et_elem_node) end_).et_id
          · rw [if_pos hid] at hs
            simp only [et_result.ok.injEq] at hs
            rw [← hs]
            exact hst.1 hid
          · rw [if_neg hid] at hs
            exact ih _ _ _ _ w (hst.2 hid) hs
        · rw [if_neg hacc] at hs
          apply ihl (pre ++ [cur]) (by rw [hpre]; simp) ?_ hs
          intro e he
          rcases List.mem_append.1 he with he | he
          · exact hrej e he
          · simp only [List.mem_singleton] at he
            rw [he]; exact hacc
    exact key _ [] rfl (by simp) h

/-! ## The candidate list -/

theorem walk_frame_refl (nodes : List et_node) : walk_frame nodes nodes :=
  ⟨rfl, fun _ => ⟨rfl, rfl, rfl, rfl⟩⟩

theorem walk_frame_trans {n0 n1 n2 : List et_node} (h : walk_frame n0 n1)
    (k : walk_frame n1 n2) : walk_frame n0 n2 :=
  ⟨k.1.trans h.1, fun q => ⟨(k.2 q).1.trans (h.2 q).1, (k.2 q).2.1.trans (h.2 q).2.1,
    (k.2 q).2.2.1.trans (h.2 q).2.2.1, (k.2 q).2.2.2.trans (h.2 q).2.2.2⟩⟩

theorem walk_frame_step (nodes : List et_node) (a b : Nat) :
    walk_frame nodes (et_set_edge_used nodes a b) :=
  et_set_edge_used_keeps nodes a b

theorem trail_ids_of_frame {n0 n1 : List et_node} (h : walk_frame n0 n1) (l : List Nat) :
    trail_ids_of n1 l = trail_ids_of n0 l := by
  unfold trail_ids_of
  apply List.map_congr_left
  intro p _
  exact (h.2 p).1

theorem et_list_find_iff (nodes : List et_node) (id : Int) (l : List Nat) :
    et_list_find nodes id l = true ↔ id ∈ trail_ids_of nodes l := by
  induction l with
  | nil => simp [et_list_find, trail_ids_of]
  | cons a l ih =>
    unfold et_list_find
    by_cases h : (node_at nodes a).et_id = id
    · simp [h, trail_ids_of]
    · have h2 : ¬ id = (node_at nodes a).et_id := fun e => h e.symm
      rw [if_neg h, ih]
      simp [trail_ids_of, h2]

/-- The two outcomes of `et_list_add_elem`: the list is unchanged, or the node is appended, and
then its `et_edeg` exceeds 1 and its identifier was not in the list. -/
theorem et_list_add_elem_spec (nodes : List et_node) (list : et_trail) (p : Nat) :
    et_list_add_elem nodes list p = list ∨
      ((node_at nodes p).et_edeg > 1 ∧
        (node_at nodes p).et_id ∉ trail_ids_of nodes list.et_trail_lst ∧
        et_list_add_elem nodes list p = et_trail_add_elem list p) := by
  unfold et_list_add_elem
  by_cases h : (node_at nodes p).et_edeg > 1
  · rw [if_pos h]
    by_cases hf : et_list_find nodes (node_at nodes p).et_id list.et_trail_lst = true
    · rw [if_pos hf]; exact Or.inl rfl
    · rw [if_neg hf]
      exact Or.inr ⟨h, fun hc => hf ((et_list_find_iff _ _ _).2 hc), rfl⟩
  · rw [if_neg h]; exact Or.inl rfl

theorem cand_inv_add (nodes : List et_node) (list : et_trail) (p : Nat)
    (h : cand_inv nodes list) : cand_inv nodes (et_list_add_elem nodes list p) ∧
      ∃ t, (et_list_add_elem nodes list p).et_trail_lst = list.et_trail_lst ++ t := by
  rcases et_list_add_elem_spec nodes list p with e | ⟨hd, hn, e⟩
  · rw [e]; exact ⟨h, [], by simp⟩
  · rw [e]
    refine ⟨⟨?_, ?_⟩, [p], rfl⟩
    · simp only [et_trail_add_elem, trail_ids_of, List.map_append, List.map_cons, List.map_nil]
      rw [List.nodup_append]
      refine ⟨h.1, List.nodup_singleton _, ?_⟩
      intro a ha hb
      simp only [List.mem_singleton] at hb
      exact hn (hb ▸ ha)
    · intro q hq
      simp only [et_trail_add_elem, List.mem_append, List.mem_singleton] at hq
      rcases hq with hq | hq
      · exact h.2 q hq
      · subst hq
        by_contra hc
        rw [node_at_of_le nodes q (by omega)] at hd
        exact absurd hd (by decide)

theorem cand_inv_frame {n0 n1 : List et_node} (hf : walk_frame n0 n1) (list : et_trail)
    (h : cand_inv n0 list) : cand_inv n1 list :=
  ⟨by rw [trail_ids_of_frame hf]; exact h.1, fun p hp => by rw [hf.1]; exact h.2 p hp⟩

/-- The candidate list is never longer than the node list. -/
theorem cand_inv_length (nodes : List et_node) (list : et_trail) (h : cand_inv nodes list) :
    list.et_trail_lst.length ≤ nodes.length := by
  have hnd : list.et_trail_lst.Nodup := List.Nodup.of_map _ h.1
  have hsub : list.et_trail_lst.toFinset ⊆ Finset.range nodes.length := by
    intro p hp
    exact Finset.mem_range.2 (h.2 p (List.mem_toFinset.1 hp))
  have := Finset.card_le_card hsub
  rw [List.toFinset_card_of_nodup hnd, Finset.card_range] at this
  exact this

/-- What a call of `et_sub_circuit` keeps and returns: the frame of the node records, the state
of the candidate list, whose old entries stay in place, and a returned sub-circuit that starts
at the start node, has at least two entries and a stored count equal to its length. -/
theorem et_sub_circuit_keeps (nodes : List et_node) (start end_ : Option Nat) (list : et_trail)
    (w : et_walk) (h : et_sub_circuit nodes start end_ list = .ok w) (hc : cand_inv nodes list) :
    walk_frame nodes w.nodes ∧ cand_inv w.nodes w.list ∧
      (∃ t, w.list.et_trail_lst = list.et_trail_lst ++ t) ∧
      ∀ s, w.sub = some s → ∃ a b t, start = some a ∧ s.et_trail_lst = a :: b :: t ∧
        s.et_trail_num = (s.et_trail_lst.length : Int) := by
  unfold et_sub_circuit at h
  cases start with
  | none =>
    simp only [et_result.ok.injEq] at h
    rw [← h]
    exact ⟨walk_frame_refl _, hc, ⟨[], by simp⟩, fun s hs => by cases hs⟩
  | some a =>
    simp only at h
    have hl1 : cand_inv nodes
        (if (node_at nodes a).et_edeg > 2 then et_list_add_elem nodes list a else list) ∧
        ∃ t, (if (node_at nodes a).et_edeg > 2 then et_list_add_elem nodes list a
          else list).et_trail_lst = list.et_trail_lst ++ t := by
      split
      · exact cand_inv_add nodes list a hc
      · exact ⟨hc, [], by simp⟩
    revert h
    generalize (if (node_at nodes a).et_edeg > 2 then et_list_add_elem nodes list a
      else list) = list1 at hl1
    intro h
    refine walk_rule _
      (fun n l s _ => walk_frame nodes n ∧ cand_inv n l ∧
        (∃ t, l.et_trail_lst = list.et_trail_lst ++ t) ∧
        ∃ t, s.et_trail_lst = a :: t ∧ s.et_trail_num = (s.et_trail_lst.length : Int))
      (fun w => walk_frame nodes w.nodes ∧ cand_inv w.nodes w.list ∧
        (∃ t, w.list.et_trail_lst = list.et_trail_lst ++ t) ∧
        ∀ s, w.sub = some s → ∃ a1 b t, some a = some a1 ∧ s.et_trail_lst = a1 :: b :: t ∧
          s.et_trail_num = (s.et_trail_lst.length : Int))
      ?_ ?_ _ nodes list1 _ a w ⟨walk_frame_refl _, hl1.1, hl1.2, [], rfl, rfl⟩ h
    · rintro n l s _ ⟨h1, h2, h3, -⟩ -
      exact ⟨h1, h2, h3, fun s hs => by cases hs⟩
    · rintro n l s prv cur ⟨h1, h2, ⟨t3, h3⟩, t4, h4, h5⟩ - - -
      have hf := walk_frame_trans h1 (walk_frame_step n prv cur.et_elem_node)
      have hc2 := cand_inv_add (et_set_edge_used n prv cur.et_elem_node) l cur.et_elem_node
        (cand_inv_frame (walk_frame_step n prv cur.et_elem_node) l h2)
      obtain ⟨t5, h6⟩ := hc2.2
      have hext : ∃ t, (et_list_add_elem (et_set_edge_used n prv cur.et_elem_node) l
          cur.et_elem_node).et_trail_lst = list.et_trail_lst ++ t :=
        ⟨t3 ++ t5, by rw [h6, h3, List.append_assoc]⟩
      have hnum : (et_trail_add_elem s cur.et_elem_node).et_trail_num =
          ((et_trail_add_elem s cur.et_elem_node).et_trail_lst.length : Int) := by
        simp only [et_trail_add_elem, h5, List.length_append, List.length_cons, List.length_nil]
        push_cast; ring
      constructor
      · intro _
        refine ⟨hf, hc2.1, hext, ?_⟩
        intro s1 hs1
        simp only [Option.some.injEq] at hs1
        subst hs1
        cases t4 with
        | nil => exact ⟨a, cur.et_elem_node, [], rfl, by simp [et_trail_add_elem, h4], hnum⟩
        | cons b t4 => exact ⟨a, b, t4 ++ [cur.et_elem_node], rfl,
            by simp [et_trail_add_elem, h4], hnum⟩
      · intro _
        exact ⟨hf, hc2.1, hext, t4 ++ [cur.et_elem_node], by simp [et_trail_add_elem, h4], hnum⟩

/-- Every sub-circuit that `et_sub_circuit` returns starts at the start node, has at least two
entries, and stores its length as entry count. -/
theorem et_sub_circuit_two (nodes : List et_node) (start end_ : Option Nat) (list : et_trail)
    (w : et_walk) (S : et_trail) (h : et_sub_circuit nodes start end_ list = .ok w)
    (hS : w.sub = some S) :
    ∃ a b t, start = some a ∧ S.et_trail_lst = a :: b :: t ∧
      S.et_trail_num = (S.et_trail_lst.length : Int) := by
  unfold et_sub_circuit at h
  cases start with
  | none =>
    simp only [et_result.ok.injEq] at h
    rw [← h] at hS
    cases hS
  | some a =>
    simp only at h
    revert h
    generalize (if (node_at nodes a).et_edeg > 2 then et_list_add_elem nodes list a
      else list) = list1
    intro h
    have hQ := walk_rule _
      (fun _ _ s _ => ∃ t, s.et_trail_lst = a :: t ∧
        s.et_trail_num = (s.et_trail_lst.length : Int))
      (fun w => ∀ s, w.sub = some s → ∃ b t, s.et_trail_lst = a :: b :: t ∧
        s.et_trail_num = (s.et_trail_lst.length : Int))
      ?_ ?_ _ nodes list1 _ a w ⟨[], rfl, rfl⟩ h
    · obtain ⟨b, t, h1, h2⟩ := hQ S hS
      exact ⟨a, b, t, rfl, h1, h2⟩
    · intro n l s _ _ _ s1 hs1
      cases hs1
    · rintro n l s prv cur ⟨t4, h4, h5⟩ - - -
      have hnum : (et_trail_add_elem s cur.et_elem_node).et_trail_num =
          ((et_trail_add_elem s cur.et_elem_node).et_trail_lst.length : Int) := by
        simp only [et_trail_add_elem, h5, List.length_append, List.length_cons, List.length_nil]
        push_cast; ring
      constructor
      · intro _ s1 hs1
        simp only [Option.some.injEq] at hs1
        subst hs1
        cases t4 with
        | nil => exact ⟨cur.et_elem_node, [], by simp [et_trail_add_elem, h4], hnum⟩
        | cons b t4 => exact ⟨b, t4 ++ [cur.et_elem_node], by simp [et_trail_add_elem, h4], hnum⟩
      · intro _
        exact ⟨t4 ++ [cur.et_elem_node], by simp [et_trail_add_elem, h4], hnum⟩

/-- C16: splice semantics of `et_insert_sub_circuit`, on the sub-circuits that the program
passes to it.  For a trail `T` and a sub-circuit `S` of at least two entries whose first node
`r` has an identifier that occurs in `T`, with `i` the position of the first entry of `T` with
that identifier, `et_insert_sub_circuit` leaves `T[0..i]`, then `S` without its first entry,
then `T[i+1..]`, and the stored count `count(T) + count(S) - 1`, which is the length of the new
sequence when both stored counts were the lengths; when the identifier does not occur in `T`,
or the sub-circuit is absent, the trail is unchanged.  Every sub-circuit that `et_sub_circuit`
returns has at least two entries and stores its length, so this covers every splice of a
run. -/
theorem splice_semantics (nodes : List et_node) (T S : et_trail) (r : Nat) (rest : List Nat)
    (hS : S.et_trail_lst = r :: rest) :
    (rest ≠ [] →
      (node_at nodes r).et_id ∈ T.et_trail_lst.map (fun p => (node_at nodes p).et_id) →
      ∃ T1 : et_trail, et_insert_sub_circuit nodes T (some S) = .ok T1 ∧
        T1.et_trail_lst =
          T.et_trail_lst.take ((T.et_trail_lst.map (fun p => (node_at nodes p).et_id)).indexOf
            (node_at nodes r).et_id + 1) ++ rest ++
          T.et_trail_lst.drop ((T.et_trail_lst.map (fun p => (node_at nodes p).et_id)).indexOf
            (node_at nodes r).et_id + 1) ∧
        T1.et_trail_num = T.et_trail_num + S.et_trail_num - 1 ∧
        (T.et_trail_num = (T.et_trail_lst.length : Int) →
          S.et_trail_num = (S.et_trail_lst.length : Int) →
          T1.et_trail_num = (T1.et_trail_lst.length : Int))) ∧
    ((node_at nodes r).et_id ∉ T.et_trail_lst.map (fun p => (node_at nodes p).et_id) →
      et_insert_sub_circuit nodes T (some S) = .ok T) ∧
    et_insert_sub_circuit nodes T none = .ok T ∧
    (∀ (nodes1 : List et_node) (start end_ : Option Nat) (list : et_trail) (w : et_walk)
        (S1 : et_trail),
      et_sub_circuit nodes1 start end_ list = .ok w → w.sub = some S1 →
      ∃ a b t, start = some a ∧ S1.et_trail_lst = a :: b :: t ∧
        S1.et_trail_num = (S1.et_trail_lst.length : Int)) := by
  obtain ⟨h1, h2, h3⟩ := et_insert_sub_circuit_splice nodes T S r rest hS
  exact ⟨h1, h2, h3, fun nodes1 start end_ list w S1 hw hs =>
    et_sub_circuit_two nodes1 start end_ list w S1 hw hs⟩

/-- Witness for C16: the closed sub-circuit `[0, 1, 0]` spliced into the trail `[0, 1]` of the
graph of the edge (1,2) gives `[0, 1, 0, 1]` with count 4. -/
theorem splice_semantics_witness :
    ∃ T1 : et_trail,
      et_insert_sub_circuit (et_build [(1, 2)]).graph.et_node_lst ⟨2, [0, 1]⟩
        (some ⟨3, [0, 1, 0]⟩) = .ok T1 ∧
      T1.et_trail_lst = [0, 1, 0, 1] ∧
      T1.et_trail_num = 2 + 3 - 1 ∧ T1.et_trail_num = (T1.et_trail_lst.length : Int) := by
  obtain ⟨T1, h1, h2, h3, h4⟩ := (splice_semantics (et_build [(1, 2)]).graph.et_node_lst
    ⟨2, [0, 1]⟩ ⟨3, [0, 1, 0]⟩ 0 [1, 0] rfl).1 (by decide) (by decide)
  exact ⟨T1, h1, by rw [h2]; decide, h3, h4 (by decide) (by decide)⟩

/-- A sub-circuit that `et_sub_circuit` returns never makes `et_insert_sub_circuit` fail. -/
theorem et_insert_sub_circuit_total (nodes : List et_node) (trail : et_trail)
    (sub : Option et_trail) (h : ∀ s, sub = some s → s.et_trail_lst ≠ []) :
    ∃ t, et_insert_sub_circuit nodes trail sub = .ok t := by
  unfold et_insert_sub_circuit
  cases sub with
  | none => exact ⟨_, rfl⟩
  | some s =>
    simp only
    have hs := h s rfl
    cases hT : trail.et_trail_lst with
    | nil => exact ⟨_, rfl⟩
    | cons a T =>
      cases hS : s.et_trail_lst with
      | nil => exact absurd hS hs
      | cons r rest =>
        simp only
        split
        · exact ⟨_, rfl⟩
        · exact ⟨_, rfl⟩

/-- Proof rule for the splicing loop: a property of node records, candidate list and trail that
every iteration re-establishes holds of the result. -/
theorem splice_rule (st : et_state) (I : List et_node → et_trail → et_trail → Prop)
    (hiter : ∀ nodes list trail cur w trail1, I nodes list trail →
      cur ∈ list.et_trail_lst → et_is_trail st trail = false →
      et_sub_circuit nodes (some cur) none list = .ok w →
      et_insert_sub_circuit w.nodes trail w.sub = .ok trail1 → I w.nodes w.list trail1) :
    ∀ (fuel : Nat) (nodes : List et_node) (list trail : et_trail) (pos : Nat) (r : et_run),
      I nodes list trail → et_splice_loop st fuel nodes list trail pos = .ok r →
      I r.nodes r.list r.trail := by
  intro fuel
  induction fuel with
  | zero =>
    intro nodes list trail pos r _ h
    simp [et_splice_loop] at h
  | succ fuel ih =>
    intro nodes list trail pos r hI h
    unfold et_splice_loop at h
    cases hg : list.et_trail_lst.get? pos with
    | none =>
      rw [hg] at h
      simp only [et_result.ok.injEq] at h
      rw [← h]; exact hI
    | some cur =>
      rw [hg] at h
      simp only at h
      by_cases ht : et_is_trail st trail = true
      · rw [if_pos ht] at h
        simp only [et_result.ok.injEq] at h
        rw [← h]; exact hI
      · rw [if_neg ht] at h
        cases hw : et_sub_circuit nodes (some cur) none list with
        | ok w =>
          rw [hw] at h
          simp only at h
          cases hi : et_insert_sub_circuit w.nodes trail w.sub with
          | ok trail1 =>
            rw [hi] at h
            simp only at h
            exact ih _ _ _ _ r (hiter nodes list trail cur w trail1 hI
              (List.get?_mem hg) (by simpa using ht) hw hi) h
          | fault => rw [hi] at h; simp at h
          | timeout => rw [hi] at h; simp at h
        | fault => rw [hw] at h; simp at h
        | timeout => rw [hw] at h; simp at h

/-- The splicing loop returns within its bound: each iteration moves one entry further in a
candidate list that cannot outgrow the node list. -/
theorem et_splice_loop_total (st : et_state) : ∀ (fuel : Nat) (nodes : List et_node)
    (list trail : et_trail) (pos : Nat), cand_inv nodes list → pos ≤ list.et_trail_lst.length →
    nodes.length + 1 ≤ fuel + pos → ∃ r, et_splice_loop st fuel nodes list trail pos = .ok r := by
  intro fuel
  induction fuel with
  | zero =>
    intro nodes list trail pos hc hp hf
    have := cand_inv_length nodes list hc
    omega
  | succ fuel ih =>
    intro nodes list trail pos hc hp hf
    unfold et_splice_loop
    cases hg : list.et_trail_lst.get? pos with
    | none => exact ⟨_, rfl⟩
    | some cur =>
      simp only
      split
      · exact ⟨_, rfl⟩
      · obtain ⟨w, hw⟩ := et_sub_circuit_total nodes (some cur) none list
        obtain ⟨hfr, hc2, ⟨t, hext⟩, hsub⟩ := et_sub_circuit_keeps _ _ _ _ w hw hc
        obtain ⟨t1, hi⟩ := et_insert_sub_circuit_total w.nodes trail w.sub (fun s hs => by
          obtain ⟨a, b, t2, -, h2, -⟩ := hsub s hs
          rw [h2]; simp)
        rw [hw]
        simp only
        rw [hi]
        simp only
        have hlt : pos < list.et_trail_lst.length := by
          rw [List.get?_eq_some] at hg
          exact hg.1
        apply ih
        · exact hc2
        · rw [hext, List.length_append]; omega
        · rw [hfr.1]; omega

/-- The trail assembler never exhausts the bound of its loops: it returns a result, or it
stops at a null pointer. -/
theorem et_eulerian_trail_total (st : et_state) :
    (∃ r, et_eulerian_trail st = .ok r) ∨ et_eulerian_trail st = .fault := by
  have hemp : cand_inv st.graph.et_node_lst ⟨0, []⟩ := ⟨by simp [trail_ids_of], by simp⟩
  have key : ∀ (a : Nat) (b : Option Nat),
      (∃ r, (match et_sub_circuit st.graph.et_node_lst (some a) b ⟨0, []⟩ with
        | .ok w =>
          match w.sub with
          | none => et_result.fault
          | some trail =>
            if et_is_trail st trail then et_result.ok (⟨w.nodes, w.list, trail⟩ : et_run)
            else et_splice_loop st (st.graph.et_node_lst.length + 1) w.nodes w.list trail 0
        | .fault => .fault
        | .timeout => .timeout) = .ok r) ∨
      (match et_sub_circuit st.graph.et_node_lst (some a) b ⟨0, []⟩ with
        | .ok w =>
          match w.sub with
          | none => et_result.fault
          | some trail =>
            if et_is_trail st trail then et_result.ok (⟨w.nodes, w.list, trail⟩ : et_run)
            else et_splice_loop st (st.graph.et_node_lst.length + 1) w.nodes w.list trail 0
        | .fault => .fault
        | .timeout => .timeout) = .fault := by
    intro a b
    obtain ⟨w, hw⟩ := et_sub_circuit_total st.graph.et_node_lst (some a) b ⟨0, []⟩
    obtain ⟨hfr, hc2, -, -⟩ := et_sub_circuit_keeps _ _ _ _ w hw hemp
    rw [hw]
    simp only
    cases hs : w.sub with
    | none => exact Or.inr rfl
    | some trail =>
      simp only
      split
      · exact Or.inl ⟨_, rfl⟩
      · left
        apply et_splice_loop_total st _ _ _ _ _ hc2 (by omega)
        rw [hfr.1]
  unfold et_eulerian_trail
  simp only
  by_cases hcirc : st.circuit ≠ 0
  · rw [if_pos hcirc]
    cases hl : st.graph.et_node_lst with
    | nil => exact Or.inr rfl
    | cons n l =>
      simp only
      have := key 0 none
      rw [hl] at this
      exact this
  · rw [if_neg hcirc]
    cases ho : st.graph.et_odd_nodes with
    | nil => exact Or.inr rfl
    | cons a t =>
      cases t with
      | nil => exact Or.inr rfl
      | cons b t => exact key a (some b)

/-- The calls behind a result of `et_eulerian_trail`: the initial walk, from the first node for a
circuit and between the two recorded odd nodes otherwise, returned a sub-circuit, which is the
result if it is long enough and otherwise the trail the splicing loop starts from. -/
theorem et_eulerian_trail_ok (st : et_state) (r : et_run) (h : et_eulerian_trail st = .ok r) :
    ∃ (a : Nat) (b : Option Nat) (w : et_walk) (trail : et_trail),
      ((st.circuit ≠ 0 ∧ st.graph.et_node_lst ≠ [] ∧ a = 0 ∧ b = none) ∨
        (st.circuit = 0 ∧ ∃ b1 t, st.graph.et_odd_nodes = a :: b1 :: t ∧ b = some b1)) ∧
      et_sub_circuit st.graph.et_node_lst (some a) b ⟨0, []⟩ = .ok w ∧
      w.sub = some trail ∧
      ((et_is_trail st trail = true ∧ r = ⟨w.nodes, w.list, trail⟩) ∨
        (et_is_trail st trail = false ∧
          et_splice_loop st (st.graph.et_node_lst.length + 1) w.nodes w.list trail 0 = .ok r)) := by
  have key : ∀ (a : Nat) (b : Option Nat),
      (match et_sub_circuit st.graph.et_node_lst (some a) b ⟨0, []⟩ with
        | .ok w =>
          match w.sub with
          | none => et_result.fault
          | some trail =>
            if et_is_trail st trail then et_result.ok (⟨w.nodes, w.list, trail⟩ : et_run)
            else et_splice_loop st (st.graph.et_node_lst.length + 1) w.nodes w.list trail 0
        | .fault => .fault
        | .timeout => .timeout) = .ok r →
      ∃ (w : et_walk) (trail : et_trail),
        et_sub_circuit st.graph.et_node_lst (some a) b ⟨0, []⟩ = .ok w ∧
        w.sub = some trail ∧
        ((et_is_trail st trail = true ∧ r = ⟨w.nodes, w.list, trail⟩) ∨
          (et_is_trail st trail = false ∧
            et_splice_loop st (st.graph.et_node_lst.length + 1) w.nodes w.list trail 0 =
              .ok r)) := by
    intro a b hk
    cases hw : et_sub_circuit st.graph.et_node_lst (some a) b ⟨0, []⟩ with
    | ok w =>
      rw [hw] at hk
      simp only at hk
      cases hs : w.sub with
      | none => rw [hs] at hk; simp at hk
      | some trail =>
        rw [hs] at hk
        simp only at hk
        refine ⟨w, trail, rfl, hs, ?_⟩
        by_cases ht : et_is_trail st trail = true
        · rw [if_pos ht] at hk
          simp only [et_result.ok.injEq] at hk
          exact Or.inl ⟨ht, hk.symm⟩
        · rw [if_neg ht] at hk
          exact Or.inr ⟨by simpa using ht, hk⟩
    | fault => rw [hw] at hk; simp at hk
    | timeout => rw [hw] at hk; simp at hk
  unfold et_eulerian_trail at h
  simp only at h
  by_cases hcirc : st.circuit ≠ 0
  · rw [if_pos hcirc] at h
    cases hl : st.graph.et_node_lst with
    | nil => rw [hl] at h; simp at h
    | cons n l =>
      have hne : st.graph.et_node_lst ≠ [] := by rw [hl]; simp
      have h2 : (match et_sub_circuit st.graph.et_node_lst (some 0) none ⟨0, []⟩ with
        | .ok w =>
          match w.sub with
          | none => et_result.fault
          | some trail =>
            if et_is_trail st trail then et_result.ok (⟨w.nodes, w.list, trail⟩ : et_run)
            else et_splice_loop st (st.graph.et_node_lst.length + 1) w.nodes w.list trail 0
        | .fault => .fault
        | .timeout => .timeout) = .ok r := by
        rw [hl]
        rw [hl] at h
        exact h
      obtain ⟨w, trail, e1, e2, e3⟩ := key 0 none h2
      rw [← hl]
      exact ⟨0, none, w, trail, Or.inl ⟨hcirc, hne, rfl, rfl⟩, e1, e2, e3⟩
  · rw [if_neg hcirc] at h
    have hc0 : st.circuit = 0 := by
      by_contra hc; exact hcirc hc
    cases ho : st.graph.et_odd_nodes with
    | nil => rw [ho] at h; simp at h
    | cons a t =>
      cases t with
      | nil => rw [ho] at h; simp at h
      | cons b t =>
        rw [ho] at h
        obtain ⟨w, trail, e1, e2, e3⟩ := key a (some b) h
        exact ⟨a, some b, w, trail, Or.inr ⟨hc0, b, t, rfl, rfl⟩, e1, e2, e3⟩

/-- State of the candidate list at the end of `et_eulerian_trail`. -/
theorem et_eulerian_trail_cand (st : et_state) (r : et_run) (h : et_eulerian_trail st = .ok r) :
    cand_inv r.nodes r.list ∧ walk_frame st.graph.et_node_lst r.nodes := by
  obtain ⟨a, b, w, trail, -, hw, -, hr⟩ := et_eulerian_trail_ok st r h
  have hemp : cand_inv st.graph.et_node_lst ⟨0, []⟩ := ⟨by simp [trail_ids_of], by simp⟩
  obtain ⟨hfr, hc2, -, -⟩ := et_sub_circuit_keeps _ _ _ _ w hw hemp
  rcases hr with ⟨-, hr⟩ | ⟨-, hr⟩
  · rw [hr]; exact ⟨hc2, hfr⟩
  · refine splice_rule st
      (fun n l _ => cand_inv n l ∧ walk_frame st.graph.et_node_lst n) ?_ _ _ _ _ _ r
      ⟨hc2, hfr⟩ hr
    rintro n l t cur w1 t1 ⟨h1, h2⟩ - - hw1 -
    obtain ⟨hf1, hc1, -, -⟩ := et_sub_circuit_keeps _ _ _ _ w1 hw1 h1
    exact ⟨hc1, walk_frame_trans h2 hf1⟩

/-- C15 as amended: the candidate list never holds a node identifier twice: `et_list_add_elem`
keeps this and appends a node only when its `et_edeg` exceeds 1 at that moment,
`et_set_edge_used` changes no identifier, every call of `et_sub_circuit` keeps it and leaves
the old entries in place (nothing is ever removed), and it holds of the list at the end of
`et_eulerian_trail`. -/
theorem candidate_list_invariant :
    (∀ (nodes : List et_node) (list : et_trail) (p : Nat),
      (trail_ids_of nodes list.et_trail_lst).Nodup →
      (trail_ids_of nodes (et_list_add_elem nodes list p).et_trail_lst).Nodup ∧
      (et_list_add_elem nodes list p = list ∨
        ((node_at nodes p).et_edeg > 1 ∧
          (et_list_add_elem nodes list p).et_trail_lst = list.et_trail_lst ++ [p]))) ∧
    (∀ (nodes : List et_node) (a b q : Nat),
      (node_at (et_set_edge_used nodes a b) q).et_id = (node_at nodes q).et_id) ∧
    (∀ (nodes : List et_node) (start end_ : Option Nat) (list : et_trail) (w : et_walk),
      et_sub_circuit nodes start end_ list = .ok w → cand_inv nodes list →
      cand_inv w.nodes w.list ∧ ∃ t, w.list.et_trail_lst = list.et_trail_lst ++ t) ∧
    (∀ (st : et_state) (r : et_run), et_eulerian_trail st = .ok r →
      (trail_ids_of r.nodes r.list.et_trail_lst).Nodup) := by
  refine ⟨?_, ?_, ?_, ?_⟩
  · intro nodes list p hnd
    rcases et_list_add_elem_spec nodes list p with e | ⟨hd, hn, e⟩
    · rw [e]; exact ⟨hnd, Or.inl rfl⟩
    · rw [e]
      refine ⟨?_, Or.inr ⟨hd, rfl⟩⟩
      simp only [et_trail_add_elem, trail_ids_of, List.map_append, List.map_cons, List.map_nil]
      rw [List.nodup_append]
      refine ⟨hnd, List.nodup_singleton _, ?_⟩
      intro a ha hb
      simp only [List.mem_singleton] at hb
      exact hn (hb ▸ ha)
  · intro nodes a b q
    exact ((et_set_edge_used_keeps nodes a b).2 q).1
  · intro nodes start end_ list w hw hc
    obtain ⟨-, h2, h3, -⟩ := et_sub_circuit_keeps _ _ _ _ w hw hc
    exact ⟨h2, h3⟩
  · intro st r h
    exact (et_eulerian_trail_cand st r h).1.1

/-- Witness for C15 as amended: the run on two triangles that share node 1. -/
theorem candidate_list_invariant_witness :
    ∃ (st : et_state) (r : et_run),
      et_validate_graph (et_build [(1, 2), (2, 3), (3, 1), (1, 4), (4, 5), (5, 1)]) =
        .ok (st, 1) ∧
      et_eulerian_trail st = .ok r ∧
      (trail_ids_of r.nodes r.list.et_trail_lst).Nodup := by
  have h : ∃ (st : et_state) (r : et_run),
      et_validate_graph (et_build [(1, 2), (2, 3), (3, 1), (1, 4), (4, 5), (5, 1)]) =
        .ok (st, 1) ∧ et_eulerian_trail st = .ok r := ⟨_, _, rfl, rfl⟩
  obtain ⟨st, r, h1, h2⟩ := h
  exact ⟨st, r, h1, h2, candidate_list_invariant.2.2.2 st r h2⟩

/-- C20: termination.  Every accepted step of the walk loop lowers the sum over the nodes of
`max(et_edeg, 0)`; with a bound above that sum the walk loop returns, on every state of node
records, candidate list and sub-circuit, so `et_sub_circuit` always returns; a call of
`et_sub_circuit` leaves a candidate list no longer than the node list; and `et_eulerian_trail`
never exhausts the bound of its splicing loop, the number of nodes plus one. -/
theorem walk_and_splice_terminate :
    (∀ (nodes : List et_node) (prv b : Nat), (node_at nodes b).et_edeg > 0 →
      et_walk_measure (et_set_edge_used nodes prv b) < et_walk_measure nodes) ∧
    (∀ (end_ fuel : Nat) (nodes : List et_node) (list sub : et_trail) (prv : Nat),
      et_walk_measure nodes < fuel →
      ∃ w, et_sub_circuit_loop end_ fuel nodes list sub prv = .ok w) ∧
    (∀ (nodes : List et_node) (start end_ : Option Nat) (list : et_trail),
      ∃ w, et_sub_circuit nodes start end_ list = .ok w) ∧
    (∀ (nodes : List et_node) (start end_ : Option Nat) (list : et_trail) (w : et_walk),
      cand_inv nodes list → et_sub_circuit nodes start end_ list = .ok w →
      w.list.et_trail_lst.length ≤ w.nodes.length ∧ w.nodes.length = nodes.length) ∧
    (∀ st : et_state, (∃ r, et_eulerian_trail st = .ok r) ∨ et_eulerian_trail st = .fault) := by
  refine ⟨et_set_edge_used_measure, fun e f n l s p h => et_sub_circuit_loop_total e f n l s p h,
    et_sub_circuit_total, ?_, et_eulerian_trail_total⟩
  intro nodes start end_ list w hc hw
  obtain ⟨h1, h2, -, -⟩ := et_sub_circuit_keeps _ _ _ _ w hw hc
  exact ⟨cand_inv_length _ _ h2, h1.1⟩

/-- Witness for C20: in the built graph of the edge (1,2), with `et_edeg` still 0 everywhere, no
step lowers the measure below 0 and the walk from the first node returns at once. -/
theorem walk_and_splice_terminate_witness :
    (∃ w, et_sub_circuit (et_build [(1, 2)]).graph.et_node_lst (some 0) none ⟨0, []⟩ = .ok w) ∧
    ((∃ r, et_eulerian_trail (et_build [(1, 2)]) = .ok r) ∨
      et_eulerian_trail (et_build [(1, 2)]) = .fault) :=
  ⟨walk_and_splice_terminate.2.2.1 _ _ _ _, walk_and_splice_terminate.2.2.2.2 _⟩

/-! ## Graphs without repeated edges -/

theorem norm_edge_comm (a b : Int) : norm_edge (a, b) = norm_edge (b, a) := by
  unfold norm_edge
  by_cases h1 : a ≤ b
  · by_cases h2 : b ≤ a
    · have : a = b := le_antisymm h1 h2
      subst this; rfl
    · simp [h1, h2]
  · have h2 : b ≤ a := by omega
    simp [h1, h2]

theorem norm_edge_eq_iff (a b c d : Int) :
    norm_edge (a, b) = norm_edge (c, d) ↔ (a = c ∧ b = d) ∨ (a = d ∧ b = c) := by
  unfold norm_edge
  simp only
  constructor
  · intro h
    split_ifs at h <;> simp only [Prod.mk.injEq] at h <;> omega
  · rintro (⟨h1, h2⟩ | ⟨h1, h2⟩)
    · subst h1 h2; rfl
    · subst h1 h2
      split_ifs <;> simp only [Prod.mk.injEq] <;> omega

theorem ids_inj (nodes : List et_node) (h : (nodes.map (fun n => n.et_id)).Nodup) :
    ∀ p q, p < nodes.length → q < nodes.length →
      (node_at nodes p).et_id = (node_at nodes q).et_id → p = q := by
  induction nodes with
  | nil => intro p q hp; simp at hp
  | cons a l ih =>
    intro p q hp hq he
    simp only [List.map_cons, List.nodup_cons] at h
    cases p with
    | zero =>
      cases q with
      | zero => rfl
      | succ q =>
        exfalso
        apply h.1
        rw [node_at_cons_zero, node_at_cons_succ] at he
        rw [he]
        exact (mem_ids_iff l _).2 ⟨q, by simpa using hq, rfl⟩
    | succ p =>
      cases q with
      | zero =>
        exfalso
        apply h.1
        rw [node_at_cons_zero, node_at_cons_succ] at he
        rw [← he]
        exact (mem_ids_iff l _).2 ⟨p, by simpa using hp, rfl⟩
      | succ q =>
        rw [node_at_cons_succ, node_at_cons_succ] at he
        rw [ih h.2 p q (by simpa using hp) (by simpa using hq) he]

theorem mem_targets_lt (nodes : List et_node) (hw : et_wf nodes) (p x : Nat)
    (h : x ∈ targets nodes p) : p < nodes.length ∧ x < nodes.length := by
  unfold targets at h
  obtain ⟨e, he, hx⟩ := List.mem_map.1 h
  constructor
  · by_contra hc
    rw [node_at_of_le nodes p (by omega)] at he
    simp [null_node] at he
  · rw [← hx]; exact hw p e he

theorem simple_inv_init : simple_inv et_init_graph [] :=
  { simple :=
      { ids_nodup := by simp [et_init_graph]
        wf := by intro q e he; simp [et_init_graph, node_at, null_node] at he
        targets_nodup := by intro p; simp [targets, et_init_graph, node_at, null_node]
        symm := by intro p x h; simp [targets, et_init_graph, node_at, null_node] at h }
    fresh := by intro p e he; simp [et_init_graph, node_at, null_node] at he
    sound := by intro p x h; simp [targets, et_init_graph, node_at, null_node] at h
    deg_eq := by intro p; simp [et_init_graph, node_at, null_node]
    deg_pos := by intro p hp; simp [et_init_graph] at hp }

theorem targets_add_edge {g g1 : et_graph} {n1 n2 : Int} {p1 p2 : Nat}
    (s : add_edge_spec g n1 n2 g1 p1 p2) (q : Nat) :
    targets g1.et_node_lst q = targets g.et_node_lst q ++
      (if q = p1 then [p2] else []) ++ (if q = p2 ∧ p1 ≠ p2 then [p1] else []) := by
  unfold targets
  rw [s.adj_eq q]
  simp only [List.map_append]
  congr 1
  · congr 1
    split <;> rfl
  · split <;> rfl

theorem add_edge_spec_len {g g1 : et_graph} {n1 n2 : Int} {p1 p2 : Nat}
    (s : add_edge_spec g n1 n2 g1 p1 p2) :
    g.et_node_lst.length ≤ g1.et_node_lst.length ∧
    ∀ p, p < g1.et_node_lst.length → p < g.et_node_lst.length ∨ p = p1 ∨ p = p2 := by
  have hl := congrArg List.length s.nodes_eq
  simp only [List.length_map, List.length_append] at hl
  have h1 : n1 ∉ g.et_node_lst.map (fun n => n.et_id) → p1 = g.et_node_lst.length := by
    intro hn
    rcases s.old1 with h | h
    · have := (et_get_node_from_none n1 g.et_node_lst 0).2 hn
      unfold et_get_node at h
      rw [this] at h; cases h
    · exact h.2
  have h2 : n2 ∉ g.et_node_lst.map (fun n => n.et_id) → g.et_node_lst.length ≤ p2 := by
    intro hn
    rcases s.old2 with h | h
    · have := (et_get_node_from_none n2 g.et_node_lst 0).2 hn
      unfold et_get_node at h
      rw [this] at h; cases h
    · exact h.2
  have hpp : n2 ≠ n1 → p2 ≠ p1 := by
    intro hne e
    apply hne
    have e1 := s.id2
    rw [e, s.id1] at e1
    exact e1.symm
  have hp1 := s.p1_lt
  have hp2 := s.p2_lt
  by_cases c1 : n1 ∈ g.et_node_lst.map (fun n => n.et_id)
  · by_cases c2 : n2 ∈ g.et_node_lst.map (fun n => n.et_id) ∨ n2 = n1
    · simp only [c1, c2, if_true, List.length_nil, add_zero] at hl
      exact ⟨by omega, fun p hp => Or.inl (by omega)⟩
    · simp only [c1, c2, if_true, if_false, List.length_nil, add_zero, List.length_singleton]
        at hl
      have := h2 (fun hc => c2 (Or.inl hc))
      exact ⟨by omega, fun p hp => by omega⟩
  · have e1 := h1 c1
    by_cases c2 : n2 ∈ g.et_node_lst.map (fun n => n.et_id) ∨ n2 = n1
    · simp only [c1, c2, if_true, if_false, List.length_nil, add_zero, List.length_singleton]
        at hl
      exact ⟨by omega, fun p hp => by omega⟩
    · simp only [c1, c2, if_false, List.length_singleton] at hl
      have := h2 (fun hc => c2 (Or.inl hc))
      have := hpp (fun hc => c2 (Or.inr hc))
      exact ⟨by omega, fun p hp => by omega⟩

theorem simple_inv_add_edge (g : et_graph) (done : List (Int × Int)) (n1 n2 : Int)
    (h : simple_inv g done) (hnew : norm_edge (n1, n2) ∉ done.map norm_edge) :
    simple_inv (et_add_edge g n1 n2) ((n1, n2) :: done) := by
  obtain ⟨p1, p2, s⟩ := et_add_edge_spec g n1 n2
  obtain ⟨hlen, hcases⟩ := add_edge_spec_len s
  have hold : ∀ p x, x ∈ targets g.et_node_lst p →
      p < g.et_node_lst.length ∧ x < g.et_node_lst.length :=
    mem_targets_lt _ h.simple.wf
  have hsame : n1 = n2 → p1 = p2 := by
    intro e
    by_contra hc
    rcases Nat.lt_or_gt_of_ne hc with hlt | hgt
    · exact s.first2 p1 hlt (e ▸ s.id1)
    · exact s.first1 p2 hgt (e ▸ s.id2)
  have hid1 : p1 < g.et_node_lst.length → (node_at g.et_node_lst p1).et_id = n1 := by
    intro hp; rw [← s.id_eq p1 hp]; exact s.id1
  have hid2 : p2 < g.et_node_lst.length → (node_at g.et_node_lst p2).et_id = n2 := by
    intro hp; rw [← s.id_eq p2 hp]; exact s.id2
  have hnot12 : p2 ∉ targets g.et_node_lst p1 := by
    intro hc
    obtain ⟨ha, hb⟩ := hold _ _ hc
    apply hnew
    have := h.sound p1 p2 hc
    unfold edge_of at this
    rw [hid1 ha, hid2 hb] at this
    exact this
  have hnot21 : p1 ∉ targets g.et_node_lst p2 := by
    intro hc
    obtain ⟨ha, hb⟩ := hold _ _ hc
    apply hnew
    have := h.sound p2 p1 hc
    unfold edge_of at this
    rw [hid1 hb, hid2 ha, norm_edge_comm] at this
    exact this
  have hedge : ∀ p x, p < g.et_node_lst.length → x < g.et_node_lst.length →
      edge_of (et_add_edge g n1 n2).et_node_lst p x = edge_of g.et_node_lst p x := by
    intro p x hp hx
    unfold edge_of
    rw [s.id_eq p hp, s.id_eq x hx]
  have hmem : ∀ p x, x ∈ targets (et_add_edge g n1 n2).et_node_lst p ↔
      (x ∈ targets g.et_node_lst p ∨ (p = p1 ∧ x = p2) ∨ (p = p2 ∧ x = p1)) := by
    intro p x
    rw [targets_add_edge s p]
    simp only [List.mem_append]
    constructor
    · rintro ((h1 | h1) | h1)
      · exact Or.inl h1
      · split at h1
        · rename_i hp
          simp only [List.mem_singleton] at h1
          exact Or.inr (Or.inl ⟨hp, h1⟩)
        · simp at h1
      · split at h1
        · rename_i hp
          simp only [List.mem_singleton] at h1
          exact Or.inr (Or.inr ⟨hp.1, h1⟩)
        · simp at h1
    · rintro (h1 | ⟨hp, hx⟩ | ⟨hp, hx⟩)
      · exact Or.inl (Or.inl h1)
      · subst hp hx
        exact Or.inl (Or.inr (by simp))
      · subst hp hx
        by_cases hpp : x = p
        · subst hpp
          exact Or.inl (Or.inr (by simp))
        · exact Or.inr (by simp [hpp])
  exact {
    simple :=
      { ids_nodup := add_edge_spec_nodup s h.simple.ids_nodup
        wf := by
          intro q e he
          have : e.et_elem_node ∈ targets (et_add_edge g n1 n2).et_node_lst q :=
            List.mem_map.2 ⟨e, he, rfl⟩
          rcases (hmem _ _).1 this with h1 | ⟨-, hx⟩ | ⟨-, hx⟩
          · exact lt_of_lt_of_le (hold _ _ h1).2 hlen
          · rw [hx]; exact s.p2_lt
          · rw [hx]; exact s.p1_lt
        targets_nodup := by
          intro q
          rw [targets_add_edge s q]
          by_cases hq1 : q = p1
          · rw [if_pos hq1, if_neg (fun hc : q = p2 ∧ p1 ≠ p2 => hc.2 (hq1.symm.trans hc.1)),
              List.append_nil, List.nodup_append]
            refine ⟨h.simple.targets_nodup q, List.nodup_singleton _, ?_⟩
            intro a ha hb
            simp only [List.mem_singleton] at hb
            rw [hb, hq1] at ha
            exact hnot12 ha
          · by_cases hq2 : q = p2 ∧ p1 ≠ p2
            · rw [if_neg hq1, if_pos hq2, List.append_nil, List.nodup_append]
              refine ⟨h.simple.targets_nodup q, List.nodup_singleton _, ?_⟩
              intro a ha hb
              simp only [List.mem_singleton] at hb
              rw [hb, hq2.1] at ha
              exact hnot21 ha
            · rw [if_neg hq1, if_neg hq2, List.append_nil, List.append_nil]
              exact h.simple.targets_nodup q
        symm := by
          intro p x hx
          rcases (hmem _ _).1 hx with h1 | ⟨hp, hx⟩ | ⟨hp, hx⟩
          · exact (hmem _ _).2 (Or.inl (h.simple.symm p x h1))
          · exact (hmem _ _).2 (Or.inr (Or.inr ⟨hx, hp⟩))
          · exact (hmem _ _).2 (Or.inr (Or.inl ⟨hx, hp⟩)) }
    fresh := by
      intro p e he
      rw [s.adj_eq p] at he
      simp only [List.mem_append] at he
      rcases he with (he | he) | he
      · exact h.fresh p e he
      · split at he
        · simp only [List.mem_singleton] at he; rw [he]
        · simp at he
      · split at he
        · simp only [List.mem_singleton] at he; rw [he]
        · simp at he
    sound := by
      intro p x hx
      simp only [List.map_cons, List.mem_cons]
      rcases (hmem _ _).1 hx with h1 | ⟨hp, hx⟩ | ⟨hp, hx⟩
      · right
        rw [hedge p x (hold _ _ h1).1 (hold _ _ h1).2]
        exact h.sound p x h1
      · left
        subst hp hx
        unfold edge_of
        rw [s.id1, s.id2]
      · left
        subst hp hx
        unfold edge_of
        rw [s.id1, s.id2, norm_edge_comm]
    deg_eq := by
      intro p
      rw [s.deg_eq p, s.adj_eq p, h.deg_eq p]
      simp only [List.map_append, List.sum_append]
      have e1 : ∀ x, entry_weight p ⟨0, x⟩ = if x = p then 2 else 1 :=
        fun x => by simp [entry_weight]
      by_cases hq1 : p = p1
      · by_cases hq2 : p = p2
        · have hpp : p1 = p2 := hq1.symm.trans hq2
          rw [if_pos hq1, if_pos hq2, if_pos hq1,
            if_neg (fun hc : p = p2 ∧ p1 ≠ p2 => hc.2 hpp)]
          simp only [List.map_cons, List.map_nil, List.sum_cons, List.sum_nil, e1,
            if_pos hq2.symm]
          omega
        · rw [if_pos hq1, if_neg hq2, if_pos hq1,
            if_neg (fun hc : p = p2 ∧ p1 ≠ p2 => hq2 hc.1)]
          simp only [List.map_cons, List.map_nil, List.sum_cons, List.sum_nil, e1,
            if_neg (Ne.symm hq2)]
          omega
      · by_cases hq2 : p = p2
        · have hpp : p1 ≠ p2 := fun e => hq1 (hq2.trans e.symm)
          rw [if_neg hq1, if_pos hq2, if_neg hq1, if_pos ⟨hq2, hpp⟩]
          simp only [List.map_cons, List.map_nil, List.sum_cons, List.sum_nil, e1,
            if_neg (Ne.symm hq1)]
          omega
        · rw [if_neg hq1, if_neg hq2, if_neg hq1,
            if_neg (fun hc : p = p2 ∧ p1 ≠ p2 => hq2 hc.1)]
          simp
    deg_pos := by
      intro p hp
      rw [s.deg_eq p]
      rcases hcases p hp with h1 | h1 | h1
      · have := h.deg_pos p h1
        split <;> split <;> omega
      · subst h1
        have : 0 ≤ (node_at g.et_node_lst p).et_deg := by
          by_cases hp0 : p < g.et_node_lst.length
          · exact le_of_lt (h.deg_pos p hp0)
          · rw [node_at_of_le _ p (by omega)]; decide
        simp only [if_true]
        split <;> omega
      · subst h1
        have : 0 ≤ (node_at g.et_node_lst p).et_deg := by
          by_cases hp0 : p < g.et_node_lst.length
          · exact le_of_lt (h.deg_pos p hp0)
          · rw [node_at_of_le _ p (by omega)]; decide
        simp only [if_true]
        split <;> omega }

theorem simple_inv_read_edges : ∀ (edges : List (Int × Int)) (g : et_graph)
    (done : List (Int × Int)), simple_inv g done →
    (∀ e, e ∈ edges → norm_edge e ∉ done.map norm_edge) → (edges.map norm_edge).Nodup →
    ∃ done1, simple_inv (et_read_edges g edges) done1 ∧
      ∀ e, e ∈ done1 ↔ (e ∈ edges ∨ e ∈ done) := by
  intro edges
  induction edges with
  | nil =>
    intro g done h _ _
    exact ⟨done, h, fun e => by simp⟩
  | cons a rest ih =>
    intro g done h hd hn
    simp only [List.map_cons, List.nodup_cons] at hn
    have h1 := simple_inv_add_edge g done a.1 a.2 h (hd a (List.mem_cons_self _ _))
    obtain ⟨done1, hs, hm⟩ := ih (et_add_edge g a.1 a.2) ((a.1, a.2) :: done) h1
      (by
        intro e he
        simp only [List.map_cons, List.mem_cons, not_or]
        refine ⟨?_, hd e (List.mem_cons_of_mem _ he)⟩
        intro hc
        apply hn.1
        rw [← hc]
        exact List.mem_map_of_mem _ he)
      hn.2
    refine ⟨done1, hs, fun e => ?_⟩
    rw [hm e]
    simp only [List.mem_cons]
    constructor
    · rintro (h2 | h2 | h2)
      · exact Or.inl (Or.inr h2)
      · exact Or.inl (Or.inl h2)
      · exact Or.inr h2
    · rintro ((h2 | h2) | h2)
      · exact Or.inr (Or.inl h2)
      · exact Or.inl h2
      · exact Or.inr (Or.inr h2)

/-- A graph built from an edge list without repeated edges: the adjacency lists describe the
edge list, no entry is flagged, and the degree of a node is the weighted number of its
entries. -/
theorem simple_inv_build (edges : List (Int × Int)) (hs : (edges.map norm_edge).Nodup) :
    simple_graph (et_build edges).graph.et_node_lst ∧
    (∀ p e, e ∈ (node_at (et_build edges).graph.et_node_lst p).et_adj_lst → e.et_elem_usd = 0) ∧
    (∀ p x, x ∈ targets (et_build edges).graph.et_node_lst p →
      edge_of (et_build edges).graph.et_node_lst p x ∈ edges.map norm_edge) ∧
    (∀ p, (node_at (et_build edges).graph.et_node_lst p).et_deg =
      ((node_at (et_build edges).graph.et_node_lst p).et_adj_lst.map (entry_weight p)).sum) ∧
    (∀ p, p < (et_build edges).graph.et_node_lst.length →
      0 < (node_at (et_build edges).graph.et_node_lst p).et_deg) := by
  obtain ⟨done1, h, hm⟩ := simple_inv_read_edges edges et_init_graph [] simple_inv_init
    (fun e _ => by simp) hs
  refine ⟨h.simple, h.fresh, ?_, h.deg_eq, h.deg_pos⟩
  intro p x hx
  obtain ⟨e, he, hn⟩ := List.mem_map.1 (h.sound p x hx)
  have : e ∈ edges := by
    rcases (hm e).1 he with h1 | h1
    · exact h1
    · simp at h1
  show edge_of (et_read_edges et_init_graph edges).et_node_lst p x ∈ _
  rw [← hn]
  exact List.mem_map_of_mem _ this

/-! ## The odd-node list -/

/-- Proof rule for `et_dfs`: a property of the state that every first entry into a node keeps
holds after the traversal. -/
theorem et_dfs_rule (J : et_state → Prop)
    (hvisit : ∀ st p, J st → (node_at st.graph.et_node_lst p).et_vst = 0 →
      J (et_dfs_visit st p)) :
    ∀ (fuel : Nat) (st : et_state) (p : Nat) (cnt : Int) (r : et_state × Int),
      J st → et_dfs fuel st p cnt = .ok r → J r.1 := by
  intro fuel
  induction fuel with
  | zero => intro st p cnt r _ h; simp [et_dfs] at h
  | succ fuel ih =>
    have hloop : ∀ (l : List et_elem) (st : et_state) (cnt : Int) (r : et_state × Int),
        J st → et_dfs_loop (et_dfs fuel) st cnt l = .ok r → J r.1 := by
      intro l
      induction l with
      | nil =>
        intro st cnt r hj h
        simp only [et_dfs_loop, et_result.ok.injEq] at h
        rw [← h]; exact hj
      | cons cur nxt ihl =>
        intro st cnt r hj h
        unfold et_dfs_loop at h
        split at h
        · cases hr : et_dfs fuel st cur.et_elem_node cnt with
          | ok r1 =>
            rw [hr] at h
            exact ihl r1.1 r1.2 r (ih st _ cnt r1 hj hr) h
          | fault => rw [hr] at h; simp at h
          | timeout => rw [hr] at h; simp at h
        · exact ihl st cnt r hj h
    intro st p cnt r hj h
    unfold et_dfs at h
    split at h
    · simp only [et_result.ok.injEq] at h
      rw [← h]; exact hj
    · rename_i hv
      simp only [ne_eq, not_not] at hv
      exact hloop _ _ _ r (hvisit st p hj hv) h

theorem et_dfs_visit_at (st : et_state) (p q : Nat) :
    (node_at (et_dfs_visit st p).graph.et_node_lst q).et_deg =
      (node_at st.graph.et_node_lst q).et_deg ∧
    ((node_at (et_dfs_visit st p).graph.et_node_lst q).et_vst ≠ 0 ↔
      ((node_at st.graph.et_node_lst q).et_vst ≠ 0 ∨ (q = p ∧ p < st.graph.et_node_lst.length))) := by
  have e : node_at (et_dfs_visit st p).graph.et_node_lst q =
      if q = p ∧ p < st.graph.et_node_lst.length then
        { node_at st.graph.et_node_lst p with
          et_vst := 1, et_edeg := (node_at st.graph.et_node_lst p).et_deg }
      else node_at st.graph.et_node_lst q := by
    simp only [et_dfs_visit]
    exact node_at_set _ _ _ _
  rw [e]
  by_cases h : q = p ∧ p < st.graph.et_node_lst.length
  · rw [if_pos h, h.1]
    simp [h.2]
  · rw [if_neg h]
    simp [h]

theorem odd_list_inv_visit (st : et_state) (p : Nat) (hj : odd_list_inv st)
    (hv : (node_at st.graph.et_node_lst p).et_vst = 0) : odd_list_inv (et_dfs_visit st p) := by
  have hat := et_dfs_visit_at st p
  have hodd : (et_dfs_visit st p).graph.et_odd_nodes =
      if (node_at st.graph.et_node_lst p).et_deg.tmod 2 ≠ 0 then
        match st.graph.et_odd_nodes with
        | [] => [p]
        | h :: _ => [h, p]
      else st.graph.et_odd_nodes := rfl
  have hlt : (node_at st.graph.et_node_lst p).et_deg % 2 = 1 → p < st.graph.et_node_lst.length := by
    intro ho
    by_contra hc
    rw [node_at_of_le _ p (by omega)] at ho
    simp [null_node] at ho
  unfold odd_list_inv
  by_cases ho : (node_at st.graph.et_node_lst p).et_deg % 2 = 1
  · have ho2 := (tmod_two_ne_zero_iff _).2 ho
    rw [if_pos ho2] at hodd
    have hp := hlt ho
    rcases hj with ⟨h0, h1⟩ | ⟨a, h0, h1, h2, h3⟩ | ⟨a, b, h0, h1, h2, h3, h4, h5⟩
    · right; left
      rw [h0] at hodd
      refine ⟨p, hodd, ?_, ?_, ?_⟩
      · rw [(hat p).2]; exact Or.inr ⟨rfl, hp⟩
      · rw [(hat p).1]; exact ho
      · intro q hq hqo
        rw [(hat q).2] at hq
        rw [(hat q).1] at hqo
        rcases hq with hq | hq
        · exact absurd hqo (h1 q hq)
        · exact hq.1
    · right; right
      rw [h0] at hodd
      refine ⟨a, p, hodd, ?_, ?_, ?_, ?_, ?_⟩
      · intro e; rw [e] at h1; exact h1 hv
      · rw [(hat a).2]; exact Or.inl h1
      · rw [(hat a).1]; exact h2
      · rw [(hat p).2]; exact Or.inr ⟨rfl, hp⟩
      · rw [(hat p).1]; exact ho
    · right; right
      rw [h0] at hodd
      refine ⟨a, p, hodd, ?_, ?_, ?_, ?_, ?_⟩
      · intro e; rw [e] at h2; exact h2 hv
      · rw [(hat a).2]; exact Or.inl h2
      · rw [(hat a).1]; exact h3
      · rw [(hat p).2]; exact Or.inr ⟨rfl, hp⟩
      · rw [(hat p).1]; exact ho
  · have ho2 : ¬ (node_at st.graph.et_node_lst p).et_deg.tmod 2 ≠ 0 :=
      fun hc => ho ((tmod_two_ne_zero_iff _).1 hc)
    rw [if_neg ho2] at hodd
    rw [hodd]
    have hvis : ∀ q, (node_at (et_dfs_visit st p).graph.et_node_lst q).et_vst ≠ 0 →
        (node_at st.graph.et_node_lst q).et_deg % 2 = 1 →
        (node_at st.graph.et_node_lst q).et_vst ≠ 0 := by
      intro q hq hqo
      rcases (hat q).2.1 hq with h | h
      · exact h
      · rw [h.1] at hqo; exact absurd hqo ho
    rcases hj with ⟨h0, h1⟩ | ⟨a, h0, h1, h2, h3⟩ | ⟨a, b, h0, h1, h2, h3, h4, h5⟩
    · left
      refine ⟨h0, fun q hq hqo => ?_⟩
      rw [(hat q).1] at hqo
      exact h1 q (hvis q hq hqo) hqo
    · right; left
      refine ⟨a, h0, (hat a).2.2 (Or.inl h1), by rw [(hat a).1]; exact h2, fun q hq hqo => ?_⟩
      rw [(hat q).1] at hqo
      exact h3 q (hvis q hq hqo) hqo
    · right; right
      exact ⟨a, b, h0, h1, (hat a).2.2 (Or.inl h2), by rw [(hat a).1]; exact h3,
        (hat b).2.2 (Or.inl h4), by rw [(hat b).1]; exact h5⟩

theorem odd_count_eq_card (l : List et_node) :
    odd_count l = ((Finset.range l.length).filter
      (fun q => (node_at l q).et_deg % 2 = 1)).card := by
  induction l using List.reverseRecOn with
  | nil => rfl
  | append_singleton l a ih =>
    have hl : (l ++ [a]).length = l.length + 1 := by simp
    rw [hl, Finset.range_succ, Finset.filter_insert]
    have hlast : node_at (l ++ [a]) l.length = a := node_at_append_right l a
    have hrest : (Finset.range l.length).filter (fun q => (node_at (l ++ [a]) q).et_deg % 2 = 1) =
        (Finset.range l.length).filter (fun q => (node_at l q).et_deg % 2 = 1) := by
      apply Finset.filter_congr
      intro q hq
      rw [node_at_append_left _ _ _ (Finset.mem_range.1 hq)]
    rw [hlast, hrest]
    unfold odd_count at ih ⊢
    rw [List.filter_append, List.length_append, ih]
    by_cases ha : a.et_deg % 2 = 1
    · rw [if_pos ha, Finset.card_insert_of_not_mem (by simp)]
      simp [List.filter_cons, ha]
    · rw [if_neg ha]
      simp [List.filter_cons, ha]

/-- State that `et_validate_graph` hands to the trail construction when it accepts a freshly
built graph: the node records keep identifier, degree and adjacency list, every `et_edeg`
holds the degree, and either the instance is a circuit and no degree is odd, or the odd-node
list holds the two nodes of odd degree. -/
theorem validate_accept (edges : List (Int × Int)) (st : et_state) (v : Int)
    (hv : et_validate_graph (et_build edges) = .ok (st, v)) (hacc : v ≠ 0) :
    (et_build edges).graph.et_node_lst ≠ [] ∧
    st.graph.et_node_lst.length = (et_build edges).graph.et_node_lst.length ∧
    (∀ q, (node_at st.graph.et_node_lst q).et_id =
        (node_at (et_build edges).graph.et_node_lst q).et_id ∧
      (node_at st.graph.et_node_lst q).et_deg =
        (node_at (et_build edges).graph.et_node_lst q).et_deg ∧
      (node_at st.graph.et_node_lst q).et_adj_lst =
        (node_at (et_build edges).graph.et_node_lst q).et_adj_lst) ∧
    (∀ q, (node_at st.graph.et_node_lst q).et_edeg = (node_at st.graph.et_node_lst q).et_deg) ∧
    ((st.circuit ≠ 0 ∧ ∀ q, ¬ (node_at st.graph.et_node_lst q).et_deg % 2 = 1) ∨
     (st.circuit = 0 ∧ ∃ a b, st.graph.et_odd_nodes = [a, b] ∧ a ≠ b ∧
        ∀ q, ((node_at st.graph.et_node_lst q).et_deg % 2 = 1 ↔ (q = a ∨ q = b)))) := by
  have hb := built_inv_build edges
  have hne : (et_build edges).graph.et_node_lst ≠ [] := by
    intro hc
    unfold et_validate_graph at hv
    rw [hc] at hv
    simp only [et_result.ok.injEq, Prod.mk.injEq] at hv
    exact hacc hv.2.symm
  have hpos : 0 < (et_build edges).graph.et_node_lst.length := List.length_pos.2 hne
  rw [et_validate_graph_eq _ hne] at hv
  by_cases hodd : odd_count (et_build edges).graph.et_node_lst = 1 ∨
      odd_count (et_build edges).graph.et_node_lst > 2
  · rw [if_pos hodd] at hv
    simp only [et_result.ok.injEq, Prod.mk.injEq] at hv
    exact absurd hv.2.symm hacc
  rw [if_neg hodd] at hv
  have hg : (if odd_count (et_build edges).graph.et_node_lst = 0 then
      { et_build edges with circuit := 1 } else et_build edges).graph = (et_build edges).graph := by
    split <;> rfl
  have hc : (if odd_count (et_build edges).graph.et_node_lst = 0 then
      { et_build edges with circuit := 1 } else et_build edges).circuit =
      if odd_count (et_build edges).graph.et_node_lst = 0 then 1 else 0 := by
    split <;> rfl
  generalize (if odd_count (et_build edges).graph.et_node_lst = 0 then
      { et_build edges with circuit := 1 } else et_build edges) = st0 at hg hc hv
  have hv0 : ∀ q, (node_at st0.graph.et_node_lst q).et_vst = 0 := by rw [hg]; exact hb.vst0
  obtain ⟨z1, -, -⟩ := vis_zero _ hv0
  obtain ⟨st1, cnt, e, hp, -⟩ := et_dfs_spec (st0.graph.et_node_lst.length + 1) st0 0 0
    (by rw [hg]; exact hb.wf) (by rw [hg]; exact hpos) (by
      have := (vis_zero _ hv0).2.2
      omega)
  have hj : odd_list_inv st1 :=
    et_dfs_rule odd_list_inv odd_list_inv_visit _ st0 0 0 (st1, cnt)
      (Or.inl ⟨by rw [hg]; exact hb.odd_nil, fun q hq => absurd (hv0 q) hq⟩) e
  have hst : st = { st1 with trail_nodes := st1.trail_nodes.tdiv 2 + 1 } ∧
      v = if cnt = st1.graph.et_node_num then 1 else 0 := by
    unfold et_is_connected at hv
    cases hl : st0.graph.et_node_lst with
    | nil => rw [hg] at hl; exact absurd hl hne
    | cons a l =>
      rw [hl] at hv e
      simp only at hv
      rw [e] at hv
      simp only [et_result.ok.injEq, Prod.mk.injEq] at hv
      exact ⟨hv.1.symm, hv.2.symm⟩
  obtain ⟨hst1, hst2⟩ := hst
  have hnodes : st.graph.et_node_lst = st1.graph.et_node_lst := by rw [hst1]
  have hoddn : st.graph.et_odd_nodes = st1.graph.et_odd_nodes := by rw [hst1]
  have hcirc : st.circuit = if odd_count (et_build edges).graph.et_node_lst = 0 then 1 else 0 := by
    rw [hst1, ← hc, ← hp.circuit_eq]
  have hlen : st1.graph.et_node_lst.length = (et_build edges).graph.et_node_lst.length := by
    rw [hp.len_eq, hg]
  have hcnt : cnt = ((visited st1.graph.et_node_lst).card : Int) := by
    have := hp.cnt_eq
    rw [z1, vis_cnt_eq_card] at this
    omega
  have hfull : (visited st1.graph.et_node_lst).card =
      (Finset.range st1.graph.et_node_lst.length).card := by
    rw [Finset.card_range, hlen]
    by_contra hcc
    apply hacc
    rw [hst2, if_neg]
    rw [hp.num_eq, hg, hb.num, hcnt]
    intro h2
    exact hcc (by exact_mod_cast h2)
  have hall : ∀ q, q < st1.graph.et_node_lst.length →
      (node_at st1.graph.et_node_lst q).et_vst ≠ 0 := by
    intro q hq
    exact Finset.filter_card_eq hfull q (Finset.mem_range.2 hq)
  have hnull : ∀ q, ¬ q < st1.graph.et_node_lst.length →
      node_at st1.graph.et_node_lst q = null_node :=
    fun q hq => node_at_of_le _ q (by omega)
  have hoddlt : ∀ q, (node_at st1.graph.et_node_lst q).et_deg % 2 = 1 →
      q < st1.graph.et_node_lst.length := by
    intro q ho
    by_contra hq
    rw [hnull q hq] at ho
    simp [null_node] at ho
  have hcard : odd_count (et_build edges).graph.et_node_lst =
      ((Finset.range st1.graph.et_node_lst.length).filter
        (fun q => (node_at st1.graph.et_node_lst q).et_deg % 2 = 1)).card := by
    rw [odd_count_eq_card, hlen]
    congr 1
    apply Finset.filter_congr
    intro q _
    rw [(hp.shape q).2.1, hg]
  rw [hnodes, hoddn]
  refine ⟨hne, hlen, ?_, ?_, ?_⟩
  · intro q
    have := hp.shape q
    rw [hg] at this
    exact this
  · intro q
    by_cases hq : q < st1.graph.et_node_lst.length
    · rw [hp.fresh q (hall q hq) (hv0 q), (hp.shape q).2.1]
    · rw [hnull q hq]; rfl
  · by_cases h0 : odd_count (et_build edges).graph.et_node_lst = 0
    · left
      rw [hcirc, if_pos h0]
      refine ⟨by decide, fun q ho => ?_⟩
      rw [h0] at hcard
      have hemp := Finset.card_eq_zero.1 hcard.symm
      have : q ∈ (Finset.range st1.graph.et_node_lst.length).filter
          (fun q => (node_at st1.graph.et_node_lst q).et_deg % 2 = 1) :=
        Finset.mem_filter.2 ⟨Finset.mem_range.2 (hoddlt q ho), ho⟩
      rw [hemp] at this
      simp at this
    · right
      rw [hcirc, if_neg h0]
      refine ⟨rfl, ?_⟩
      have h2 : odd_count (et_build edges).graph.et_node_lst = 2 := by omega
      rw [h2] at hcard
      rcases hj with ⟨-, h1⟩ | ⟨a, -, -, -, h3⟩ | ⟨a, b, hl, hab, -, ha, -, hbo⟩
      · exfalso
        have hemp : (Finset.range st1.graph.et_node_lst.length).filter
            (fun q => (node_at st1.graph.et_node_lst q).et_deg % 2 = 1) = ∅ := by
          apply Finset.filter_eq_empty_iff.2
          intro q hq
          exact h1 q (hall q (Finset.mem_range.1 hq))
        rw [hemp] at hcard
        simp at hcard
      · exfalso
        have hsub : (Finset.range st1.graph.et_node_lst.length).filter
            (fun q => (node_at st1.graph.et_node_lst q).et_deg % 2 = 1) ⊆ {a} := by
          intro q hq
          rw [Finset.mem_filter, Finset.mem_range] at hq
          rw [Finset.mem_singleton]
          exact h3 q (hall q hq.1) hq.2
        have := Finset.card_le_card hsub
        rw [← hcard] at this
        simp at this
      · refine ⟨a, b, hl, hab, fun q => ?_⟩
        have hsub : ({a, b} : Finset Nat) ⊆ (Finset.range st1.graph.et_node_lst.length).filter
            (fun q => (node_at st1.graph.et_node_lst q).et_deg % 2 = 1) := by
          intro q hq
          rw [Finset.mem_insert, Finset.mem_singleton] at hq
          rw [Finset.mem_filter, Finset.mem_range]
          rcases hq with hq | hq
          · rw [hq]; exact ⟨hoddlt a ha, ha⟩
          · rw [hq]; exact ⟨hoddlt b hbo, hbo⟩
        have heq := Finset.eq_of_subset_of_card_le hsub
          (by rw [← hcard, Finset.card_pair hab])
        constructor
        · intro ho
          have : q ∈ ({a, b} : Finset Nat) := by
            rw [heq, Finset.mem_filter, Finset.mem_range]
            exact ⟨hoddlt q ho, ho⟩
          rw [Finset.mem_insert, Finset.mem_singleton] at this
          exact this
        · rintro (hq | hq)
          · rw [hq]; exact ha
          · rw [hq]; exact hbo

/-! ## Consuming an edge -/

theorem map_flag_to_none (t : Nat) (l : List et_elem)
    (h : ∀ e, e ∈ l → e.et_elem_node ≠ t) : l.map (flag_to t) = l := by
  induction l with
  | nil => rfl
  | cons e l ih =>
    rw [List.map_cons, ih (fun e1 h1 => h e1 (List.mem_cons_of_mem _ h1))]
    unfold flag_to
    rw [if_neg (h e (List.mem_cons_self _ _))]

theorem flag_to_node (t : Nat) (e : et_elem) : (flag_to t e).et_elem_node = e.et_elem_node := by
  unfold flag_to
  split <;> rfl

theorem map_flag_to_targets (t : Nat) (l : List et_elem) :
    (l.map (flag_to t)).map (fun e => e.et_elem_node) = l.map (fun e => e.et_elem_node) := by
  rw [List.map_map]
  apply List.map_congr_left
  intro e _
  exact flag_to_node t e

theorem flag_to_idem (t : Nat) (e : et_elem) : flag_to t (flag_to t e) = flag_to t e := by
  unfold flag_to
  by_cases h : e.et_elem_node = t
  · simp [h]
  · simp [h]

/-- The marking loop of `et_set_edge_used` on an adjacency list that holds no target twice:
it flags the entry for the node with the given identifier. -/
theorem et_mark_first_eq_map (nodes : List et_node) (x : Nat) :
    ∀ (l : List et_elem),
      (∀ e, e ∈ l → ((node_at nodes e.et_elem_node).et_id = (node_at nodes x).et_id ↔
        e.et_elem_node = x)) →
      (l.map (fun e => e.et_elem_node)).Nodup →
      et_mark_first nodes (node_at nodes x).et_id l = l.map (flag_to x) := by
  intro l
  induction l with
  | nil => intro _ _; rfl
  | cons e l ih =>
    intro h hnd
    simp only [List.map_cons, List.nodup_cons] at hnd
    unfold et_mark_first
    by_cases hx : e.et_elem_node = x
    · rw [if_pos ((h e (List.mem_cons_self _ _)).2 hx), List.map_cons]
      have hl : l.map (flag_to x) = l := by
        apply map_flag_to_none
        intro e1 h1 hc
        apply hnd.1
        rw [hx, ← hc]
        exact List.mem_map_of_mem _ h1
      rw [hl]
      unfold flag_to
      rw [if_pos hx]
    · rw [if_neg (fun hc => hx ((h e (List.mem_cons_self _ _)).1 hc)), List.map_cons,
        ih (fun e1 h1 => h e1 (List.mem_cons_of_mem _ h1)) hnd.2]
      congr 1
      unfold flag_to
      rw [if_neg hx]

theorem et_mark_first_frame (nodes M : List et_node) (hs : simple_graph nodes)
    (hid : ∀ q, (node_at M q).et_id = (node_at nodes q).et_id) (p x : Nat)
    (hx : x < nodes.length) (l : List et_elem)
    (hl : l.map (fun e => e.et_elem_node) = targets nodes p) :
    et_mark_first M (node_at M x).et_id l = l.map (flag_to x) := by
  apply et_mark_first_eq_map
  · intro e he
    have hm : e.et_elem_node ∈ targets nodes p := by
      rw [← hl]; exact List.mem_map_of_mem _ he
    have hlt := (mem_targets_lt nodes hs.wf p _ hm).2
    constructor
    · intro h
      rw [hid, hid] at h
      exact ids_inj nodes hs.ids_nodup _ _ hlt hx h
    · intro h; rw [h]
  · rw [hl]; exact hs.targets_nodup p

/-- Adjacency lists after `et_set_edge_used` in a graph without repeated edges. -/
theorem et_set_edge_used_adj (nodes : List et_node) (a b : Nat) (hs : simple_graph nodes)
    (ha : a < nodes.length) (hb : b < nodes.length) (q : Nat) :
    (node_at (et_set_edge_used nodes a b) q).et_adj_lst =
      if q = a then (node_at nodes q).et_adj_lst.map (flag_to b)
      else if q = b then (node_at nodes q).et_adj_lst.map (flag_to a)
      else (node_at nodes q).et_adj_lst := by
  unfold et_set_edge_used
  simp only
  generalize hn1 : et_dec_edeg nodes a = n1
  generalize hn2 : et_dec_edeg n1 b = n2
  generalize hn3 : et_mark_adj n2 a (node_at n2 b).et_id = n3
  have k1 := et_dec_edeg_keeps nodes a
  have k2 := et_dec_edeg_keeps n1 b
  have k3 := et_mark_adj_keeps n2 a (node_at n2 b).et_id
  have k4 := et_mark_adj_keeps n3 b (node_at n3 a).et_id
  rw [hn1] at k1
  rw [hn2] at k2
  rw [hn3] at k3
  have id2 : ∀ r, (node_at n2 r).et_id = (node_at nodes r).et_id := by
    intro r; rw [(k2.2 r).1, (k1.2 r).1]
  have id3 : ∀ r, (node_at n3 r).et_id = (node_at nodes r).et_id := by
    intro r; rw [(k3.2 r).1, id2 r]
  have adj2 : ∀ r, (node_at n2 r).et_adj_lst = (node_at nodes r).et_adj_lst := by
    intro r; rw [(k2.2 r).2.2.2.1, (k1.2 r).2.2.2.1]
  have len2 : n2.length = nodes.length := by rw [k2.1, k1.1]
  have len3 : n3.length = nodes.length := by rw [k3.1, len2]
  have adj3 : ∀ r, (node_at n3 r).et_adj_lst =
      if r = a then (node_at nodes r).et_adj_lst.map (flag_to b)
      else (node_at nodes r).et_adj_lst := by
    intro r
    rw [(k3.2 r).2.2.2.2]
    by_cases hr : r = a
    · rw [if_pos ⟨hr, by rw [len2]; exact ha⟩, if_pos hr, adj2 r]
      exact et_mark_first_frame nodes n2 hs id2 r b hb _ rfl
    · rw [if_neg (fun hc => hr hc.1), if_neg hr, adj2 r]
  rw [(k4.2 q).2.2.2.2]
  by_cases hqb : q = b
  · rw [if_pos ⟨hqb, by rw [len3]; exact hb⟩]
    have hm := et_mark_first_frame nodes n3 hs id3 q a ha (node_at n3 q).et_adj_lst (by
      rw [adj3 q]
      split
      · exact map_flag_to_targets _ _
      · rfl)
    rw [hm, adj3 q]
    by_cases hqa : q = a
    · rw [if_pos hqa, if_pos hqa, List.map_map]
      have hab : a = b := hqa.symm.trans hqb
      rw [hab]
      apply List.map_congr_left
      intro e _
      exact flag_to_idem b e
    · rw [if_neg hqa, if_neg hqa, if_pos hqb]
  · rw [if_neg (fun hc => hqb hc.1), adj3 q]
    by_cases hqa : q = a
    · rw [if_pos hqa, if_pos hqa]
    · rw [if_neg hqa, if_neg hqa, if_neg hqb]

theorem entry_weight_nonneg (p : Nat) (e : et_elem) : 0 ≤ entry_weight p e := by
  unfold entry_weight
  split
  · split <;> decide
  · decide

theorem sum_weight_nonneg (p : Nat) (l : List et_elem) : 0 ≤ (l.map (entry_weight p)).sum := by
  induction l with
  | nil => simp
  | cons e l ih =>
    simp only [List.map_cons, List.sum_cons]
    have := entry_weight_nonneg p e
    omega

/-- Flagging the one unused entry for `t` lowers the weighted number of unused entries by the
weight of that entry. -/
theorem sum_weight_flag (p t : Nat) : ∀ (l : List et_elem),
    (l.map (fun e => e.et_elem_node)).Nodup →
    (∃ e, e ∈ l ∧ e.et_elem_node = t ∧ e.et_elem_usd = 0) →
    ((l.map (flag_to t)).map (entry_weight p)).sum =
      (l.map (entry_weight p)).sum - (if t = p then 2 else 1) := by
  intro l
  induction l with
  | nil => intro _ h; obtain ⟨e, he, _⟩ := h; simp at he
  | cons e0 l ih =>
    intro hnd h
    simp only [List.map_cons, List.nodup_cons] at hnd
    simp only [List.map_cons, List.sum_cons]
    by_cases h0 : e0.et_elem_node = t
    · have hl : l.map (flag_to t) = l := by
        apply map_flag_to_none
        intro e1 h1 hc
        apply hnd.1
        rw [h0, ← hc]
        exact List.mem_map_of_mem _ h1
      obtain ⟨e, he, hen, heu⟩ := h
      have hee : e = e0 := by
        rcases List.mem_cons.1 he with h1 | h1
        · exact h1
        · exfalso
          apply hnd.1
          rw [h0, ← hen]
          exact List.mem_map_of_mem _ h1
      rw [hee] at heu
      rw [hl]
      have w1 : entry_weight p (flag_to t e0) = 0 := by
        unfold flag_to entry_weight
        rw [if_pos h0]
        simp
      have w2 : entry_weight p e0 = if t = p then 2 else 1 := by
        unfold entry_weight
        rw [if_pos heu, h0]
      rw [w1, w2]
      omega
    · obtain ⟨e, he, hen, heu⟩ := h
      have hin : e ∈ l := by
        rcases List.mem_cons.1 he with h1 | h1
        · rw [h1] at hen; exact absurd hen h0
        · exact h1
      rw [ih hnd.2 ⟨e, hin, hen, heu⟩]
      have w1 : flag_to t e0 = e0 := by
        unfold flag_to
        rw [if_neg h0]
      rw [w1]
      omega

theorem map_id_congr : ∀ (l l1 : List et_node), l1.length = l.length →
    (∀ q, (node_at l1 q).et_id = (node_at l q).et_id) →
    l1.map (fun n => n.et_id) = l.map (fun n => n.et_id) := by
  intro l
  induction l with
  | nil =>
    intro l1 h _
    cases l1 with
    | nil => rfl
    | cons b l1 => simp at h
  | cons a l ih =>
    intro l1 h hd
    cases l1 with
    | nil => simp at h
    | cons b l1 =>
      have h0 : b.et_id = a.et_id := by simpa [node_at_cons_zero] using hd 0
      have hr := ih l1 (by simpa using h) (fun q => by simpa [node_at_cons_succ] using hd (q + 1))
      simp only [List.map_cons, h0, hr]

theorem targets_frame (nodes0 nodes : List et_node) (h : walk_frame nodes0 nodes) (p : Nat) :
    targets nodes p = targets nodes0 p := (h.2 p).2.2.2

theorem simple_graph_frame (nodes0 nodes : List et_node) (h : walk_frame nodes0 nodes)
    (hs : simple_graph nodes0) : simple_graph nodes :=
  { ids_nodup := by
      rw [map_id_congr nodes0 nodes h.1 (fun q => (h.2 q).1)]
      exact hs.ids_nodup
    wf := by
      intro q e he
      have : e.et_elem_node ∈ targets nodes q := List.mem_map_of_mem _ he
      rw [targets_frame _ _ h] at this
      rw [h.1]
      exact (mem_targets_lt nodes0 hs.wf q _ this).2
    targets_nodup := by
      intro p
      rw [targets_frame _ _ h]
      exact hs.targets_nodup p
    symm := by
      intro p x hx
      rw [targets_frame _ _ h] at hx ⊢
      exact hs.symm p x hx }

theorem flag_to_usd (t : Nat) (e : et_elem) :
    (flag_to t e).et_elem_usd = 0 ↔ (e.et_elem_usd = 0 ∧ e.et_elem_node ≠ t) := by
  unfold flag_to
  by_cases h : e.et_elem_node = t
  · rw [if_pos h]
    simp [h]
  · rw [if_neg h]
    simp [h]

/-- Unused entries after `et_set_edge_used nodes a b`: those that were unused before, apart
from the entry of `a` for `b` and the entry of `b` for `a`. -/
theorem unused_step (nodes : List et_node) (a b : Nat) (hs : simple_graph nodes)
    (ha : a < nodes.length) (hb : b < nodes.length) (p x : Nat) :
    unused (et_set_edge_used nodes a b) p x ↔
      (unused nodes p x ∧ ¬ ((p = a ∧ x = b) ∨ (p = b ∧ x = a))) := by
  unfold unused
  rw [et_set_edge_used_adj nodes a b hs ha hb p]
  by_cases hpa : p = a
  · rw [if_pos hpa]
    constructor
    · rintro ⟨e, he, hn, hu⟩
      obtain ⟨e0, he0, hee⟩ := List.mem_map.1 he
      rw [← hee, flag_to_node] at hn
      rw [← hee, flag_to_usd] at hu
      refine ⟨⟨e0, he0, hn, hu.1⟩, ?_⟩
      rintro (⟨-, h2⟩ | ⟨h1, h2⟩)
      · exact hu.2 (hn.trans h2)
      · exact hu.2 (hn.trans (h2.trans (hpa.symm.trans h1)))
    · rintro ⟨⟨e, he, hn, hu⟩, hnot⟩
      refine ⟨flag_to b e, List.mem_map_of_mem _ he, by rw [flag_to_node]; exact hn, ?_⟩
      rw [flag_to_usd]
      exact ⟨hu, fun hc => hnot (Or.inl ⟨hpa, hn.symm.trans hc⟩)⟩
  · rw [if_neg hpa]
    by_cases hpb : p = b
    · rw [if_pos hpb]
      constructor
      · rintro ⟨e, he, hn, hu⟩
        obtain ⟨e0, he0, hee⟩ := List.mem_map.1 he
        rw [← hee, flag_to_node] at hn
        rw [← hee, flag_to_usd] at hu
        refine ⟨⟨e0, he0, hn, hu.1⟩, ?_⟩
        rintro (⟨h1, -⟩ | ⟨-, h2⟩)
        · exact hpa h1
        · exact hu.2 (hn.trans h2)
      · rintro ⟨⟨e, he, hn, hu⟩, hnot⟩
        refine ⟨flag_to a e, List.mem_map_of_mem _ he, by rw [flag_to_node]; exact hn, ?_⟩
        rw [flag_to_usd]
        exact ⟨hu, fun hc => hnot (Or.inr ⟨hpb, hn.symm.trans hc⟩)⟩
    · rw [if_neg hpb]
      constructor
      · rintro h
        refine ⟨h, ?_⟩
        rintro (⟨h1, -⟩ | ⟨h1, -⟩)
        · exact hpa h1
        · exact hpb h1
      · exact fun h => h.1

theorem unused_lt (nodes : List et_node) (hs : simple_graph nodes) (p x : Nat)
    (h : unused nodes p x) : p < nodes.length ∧ x < nodes.length := by
  obtain ⟨e, he, hn, _⟩ := h
  apply mem_targets_lt nodes hs.wf p x
  rw [← hn]
  exact List.mem_map_of_mem _ he

/-- One accepted step of the walk keeps the node records consistent. -/
theorem walk_inv_step (nodes : List et_node) (a b : Nat) (h : walk_inv nodes)
    (hu : unused nodes a b) : walk_inv (et_set_edge_used nodes a b) := by
  obtain ⟨ha, hb⟩ := unused_lt nodes h.simple a b hu
  have hk := et_set_edge_used_keeps nodes a b
  have hfr : walk_frame nodes (et_set_edge_used nodes a b) := ⟨hk.1, hk.2⟩
  exact {
    simple := simple_graph_frame _ _ hfr h.simple
    mirror := by
      intro p x hpx
      rw [unused_step nodes a b h.simple ha hb] at hpx ⊢
      refine ⟨h.mirror p x hpx.1, ?_⟩
      rintro (⟨h1, h2⟩ | ⟨h1, h2⟩)
      · exact hpx.2 (Or.inr ⟨h2, h1⟩)
      · exact hpx.2 (Or.inl ⟨h2, h1⟩)
    edeg_eq := by
      intro p
      rw [et_set_edge_used_edeg, et_set_edge_used_adj nodes a b h.simple ha hb p, h.edeg_eq p]
      by_cases hpa : p = a
      · rw [if_pos hpa, if_pos ⟨hpa, ha⟩]
        rw [sum_weight_flag p b _ (h.simple.targets_nodup p) (by rw [hpa]; exact hu)]
        by_cases hab : b = p
        · rw [if_pos hab, if_pos ⟨hab.symm, hb⟩]; omega
        · rw [if_neg hab, if_neg (fun hc => hab hc.1.symm)]; omega
      · rw [if_neg hpa, if_neg (fun hc => hpa hc.1)]
        by_cases hpb : p = b
        · rw [if_pos hpb, if_pos ⟨hpb, hb⟩]
          rw [sum_weight_flag p a _ (h.simple.targets_nodup p)
            (by rw [hpb]; exact h.mirror a b hu)]
          rw [if_neg (fun hc => hpa hc.symm)]
          omega
        · rw [if_neg hpb, if_neg (fun hc => hpb hc.1)]
          omega }

/-! ## The walk in a graph without repeated edges -/

theorem ptr_pairs_append (c : Nat) (Y : List Nat) : ∀ (X : List Nat),
    ptr_pairs (X ++ c :: Y) = ptr_pairs (X ++ [c]) ++ ptr_pairs (c :: Y)
  | [] => by simp [ptr_pairs]
  | [x] => by simp [ptr_pairs]
  | x :: y :: X => by
    have ih := ptr_pairs_append c Y (y :: X)
    show (x, y) :: ptr_pairs (y :: X ++ c :: Y) =
      (x, y) :: ptr_pairs (y :: X ++ [c]) ++ ptr_pairs (c :: Y)
    rw [ih]
    rfl

theorem edge_of_frame (nodes0 nodes : List et_node) (h : walk_frame nodes0 nodes) (p x : Nat) :
    edge_of nodes p x = edge_of nodes0 p x := by
  unfold edge_of
  rw [(h.2 p).1, (h.2 x).1]

theorem edge_of_eq_iff (nodes : List et_node) (hs : simple_graph nodes) (a b c d : Nat)
    (ha : a < nodes.length) (hb : b < nodes.length) (hc : c < nodes.length)
    (hd : d < nodes.length) :
    edge_of nodes a b = edge_of nodes c d ↔ ((a = c ∧ b = d) ∨ (a = d ∧ b = c)) := by
  unfold edge_of
  rw [norm_edge_eq_iff]
  constructor
  · rintro (⟨h1, h2⟩ | ⟨h1, h2⟩)
    · exact Or.inl ⟨ids_inj nodes hs.ids_nodup a c ha hc h1, ids_inj nodes hs.ids_nodup b d hb hd h2⟩
    · exact Or.inr ⟨ids_inj nodes hs.ids_nodup a d ha hd h1, ids_inj nodes hs.ids_nodup b c hb hc h2⟩
  · rintro (⟨h1, h2⟩ | ⟨h1, h2⟩)
    · rw [h1, h2]; exact Or.inl ⟨rfl, rfl⟩
    · rw [h1, h2]; exact Or.inr ⟨rfl, rfl⟩

theorem pairs_used_nil (nodes : List et_node) : pairs_used nodes [] :=
  { entry := fun c hc => by simp at hc
    flagged := fun c hc => by simp at hc
    nodup := by simp }

theorem pairs_used_sublist (nodes : List et_node) (W W1 : List (Nat × Nat))
    (h : pairs_used nodes W) (hs : List.Sublist W1 W) : pairs_used nodes W1 :=
  { entry := fun c hc => h.entry c (hs.subset hc)
    flagged := fun c hc => h.flagged c (hs.subset hc)
    nodup := List.Nodup.sublist (List.Sublist.map _ hs) h.nodup }

theorem pairs_used_perm (nodes : List et_node) (W W1 : List (Nat × Nat))
    (h : pairs_used nodes W) (hp : List.Perm W1 W) : pairs_used nodes W1 :=
  { entry := fun c hc => h.entry c (hp.subset hc)
    flagged := fun c hc => h.flagged c (hp.subset hc)
    nodup := (List.Perm.nodup_iff (List.Perm.map _ hp)).2 h.nodup }

/-- One accepted step of the walk adds its pair to the traversed pairs. -/
theorem pairs_used_step (nodes : List et_node) (W : List (Nat × Nat)) (a b : Nat)
    (hi : walk_inv nodes) (h : pairs_used nodes W) (hu : unused nodes a b) :
    pairs_used (et_set_edge_used nodes a b) (W ++ [(a, b)]) := by
  obtain ⟨ha, hb⟩ := unused_lt nodes hi.simple a b hu
  have hfr : walk_frame nodes (et_set_edge_used nodes a b) := walk_frame_step nodes a b
  have hab : b ∈ targets nodes a := by
    obtain ⟨e, he, hn, _⟩ := hu
    rw [← hn]; exact List.mem_map_of_mem _ he
  exact {
    entry := by
      intro c hc
      rw [targets_frame _ _ hfr]
      rcases List.mem_append.1 hc with h1 | h1
      · exact h.entry c h1
      · simp only [List.mem_singleton] at h1
        rw [h1]; exact hab
    flagged := by
      intro c hc hcu
      rw [unused_step nodes a b hi.simple ha hb] at hcu
      rcases List.mem_append.1 hc with h1 | h1
      · exact h.flagged c h1 hcu.1
      · simp only [List.mem_singleton] at h1
        rw [h1] at hcu
        exact hcu.2 (Or.inl ⟨rfl, rfl⟩)
    nodup := by
      have e1 : (W ++ [(a, b)]).map (fun c => edge_of (et_set_edge_used nodes a b) c.1 c.2) =
          W.map (fun c => edge_of nodes c.1 c.2) ++ [edge_of nodes a b] := by
        rw [List.map_append]
        congr 1
        · apply List.map_congr_left
          intro c _
          exact edge_of_frame _ _ hfr _ _
        · simp only [List.map_cons, List.map_nil]
          rw [edge_of_frame _ _ hfr]
      rw [e1, List.nodup_append]
      refine ⟨h.nodup, List.nodup_singleton _, ?_⟩
      intro x hx hx2
      simp only [List.mem_singleton] at hx2
      obtain ⟨c, hc, hce⟩ := List.mem_map.1 hx
      obtain ⟨hc1, hc2⟩ := mem_targets_lt nodes hi.simple.wf _ _ (h.entry c hc)
      rw [hx2] at hce
      rcases (edge_of_eq_iff nodes hi.simple _ _ _ _ hc1 hc2 ha hb).1 hce with ⟨e1, e2⟩ | ⟨e1, e2⟩
      · apply h.flagged c hc
        rw [e1, e2]; exact hu
      · apply h.flagged c hc
        rw [e1, e2]; exact hi.mirror a b hu }

theorem edeg_pos_of_unused (nodes : List et_node) (hi : walk_inv nodes) (p x : Nat)
    (h : unused nodes p x) : 0 < (node_at nodes p).et_edeg := by
  rw [hi.edeg_eq p]
  obtain ⟨e, he, _, hu⟩ := h
  have hw : 0 < entry_weight p e := by
    unfold entry_weight
    rw [if_pos hu]
    split <;> decide
  generalize (node_at nodes p).et_adj_lst = l at he
  induction l with
  | nil => simp at he
  | cons e0 l ih =>
    simp only [List.map_cons, List.sum_cons]
    rcases List.mem_cons.1 he with h1 | h1
    · have := sum_weight_nonneg p l
      rw [← h1]; omega
    · have := entry_weight_nonneg p e0
      have := ih h1
      omega

theorem unused_of_edeg_pos (nodes : List et_node) (hi : walk_inv nodes) (p : Nat)
    (h : 0 < (node_at nodes p).et_edeg) :
    ∃ cur, cur ∈ (node_at nodes p).et_adj_lst ∧ cur.et_elem_usd = 0 := by
  rw [hi.edeg_eq p] at h
  generalize (node_at nodes p).et_adj_lst = l at h
  induction l with
  | nil => simp at h
  | cons e0 l ih =>
    simp only [List.map_cons, List.sum_cons] at h
    by_cases hu : e0.et_elem_usd = 0
    · exact ⟨e0, List.mem_cons_self _ _, hu⟩
    · have : entry_weight p e0 = 0 := by
        unfold entry_weight
        rw [if_neg hu]
      rw [this, zero_add] at h
      obtain ⟨cur, hc, hcu⟩ := ih h
      exact ⟨cur, List.mem_cons_of_mem _ hc, hcu⟩

theorem parity_step (A B C : Prop) [Decidable A] [Decidable B] (n : Int)
    (h : n % 2 = 1 ↔ ¬ (C ↔ A)) :
    (n - (if A then 1 else 0) - (if B then 1 else 0)) % 2 = 1 ↔ ¬ (C ↔ B) := by
  by_cases hA : A <;> by_cases hB : B <;> by_cases hC : C <;>
    simp only [hA, hB, hC, if_true, if_false, iff_true, iff_false, not_true_eq_false,
      not_false_eq_true, iff_self, not_not] at h ⊢ <;> omega

theorem et_sub_circuit_unfold (nodes : List et_node) (s : Nat) (end_ : Option Nat)
    (list : et_trail) :
    et_sub_circuit nodes (some s) end_ list =
      et_sub_circuit_loop (end_.getD s) (et_walk_fuel nodes) nodes
        (if (node_at nodes s).et_edeg > 2 then et_list_add_elem nodes list s else list)
        (et_trail_add_elem ⟨0, []⟩ s) s := by
  cases end_ <;> rfl

/-- The walk loop of `et_sub_circuit` in a graph without repeated edges: started in a
consistent state it does not stall, and when it returns, the walk has reached its end node
over edges that no walk had used before. -/
theorem walk_state_run (nodes0 : List et_node) (W : List (Nat × Nat)) (s e : Nat) :
    ∀ (fuel : Nat) (nodes : List et_node) (list sub : et_trail) (prv : Nat) (w : et_walk),
      walk_state nodes0 W s e nodes sub prv →
      et_sub_circuit_loop e fuel nodes list sub prv = .ok w → walk_done nodes0 W s e w := by
  refine walk_rule e (fun n _ sb p => walk_state nodes0 W s e n sb p)
    (fun w => walk_done nodes0 W s e w) ?_ ?_
  · intro nodes list sub prv hP hno
    exfalso
    have hpos : 0 < (node_at nodes prv).et_edeg := by
      by_cases hpe : prv = e
      · exact hP.live hpe
      · have h1 := (hP.parity prv).2 (fun hc => hpe (hc.2 rfl))
        have h2 := hP.inv.edeg_eq prv
        have h3 := sum_weight_nonneg prv (node_at nodes prv).et_adj_lst
        omega
    obtain ⟨cur, hc, hu⟩ := unused_of_edeg_pos nodes hP.inv prv hpos
    apply hno cur hc
    exact ⟨edeg_pos_of_unused nodes hP.inv cur.et_elem_node prv
      (hP.inv.mirror prv cur.et_elem_node ⟨cur, hc, rfl, hu⟩), hu⟩
  · intro nodes list sub prv cur hP hc _ hu
    have hun : unused nodes prv cur.et_elem_node := ⟨cur, hc, rfl, hu⟩
    obtain ⟨_, hx⟩ := unused_lt nodes hP.inv.simple _ _ hun
    have hfr := walk_frame_step nodes prv cur.et_elem_node
    have hinv := walk_inv_step nodes prv cur.et_elem_node hP.inv hun
    obtain ⟨t, ht, hhd⟩ := hP.shape
    have hlst : (et_trail_add_elem sub cur.et_elem_node).et_trail_lst =
        (t ++ [prv]) ++ [cur.et_elem_node] := by
      simp only [et_trail_add_elem, ht]
    have hpp : ptr_pairs ((t ++ [prv]) ++ [cur.et_elem_node]) =
        ptr_pairs (t ++ [prv]) ++ [(prv, cur.et_elem_node)] := by
      rw [List.append_assoc]
      exact ptr_pairs_append prv [cur.et_elem_node] t
    have hused : pairs_used (et_set_edge_used nodes prv cur.et_elem_node)
        (W ++ ptr_pairs (et_trail_add_elem sub cur.et_elem_node).et_trail_lst) := by
      rw [hlst, hpp, ← List.append_assoc, ← ht]
      exact pairs_used_step nodes _ prv cur.et_elem_node hP.inv hP.used hun
    have hnum : (et_trail_add_elem sub cur.et_elem_node).et_trail_num =
        ((et_trail_add_elem sub cur.et_elem_node).et_trail_lst.length : Int) := by
      simp only [et_trail_add_elem, hP.num, List.length_append, List.length_cons,
        List.length_nil]
      push_cast; ring
    have hpar : ∀ q, (node_at (et_set_edge_used nodes prv cur.et_elem_node) q).et_edeg % 2 = 1 ↔
        ¬ (q = e ↔ q = cur.et_elem_node) := by
      intro q
      rw [et_set_edge_used_edeg]
      have h1 := hP.parity q
      have c1 : (if q = prv ∧ prv < nodes.length then (1 : Int) else 0) =
          if q = prv then 1 else 0 := by simp [hP.prv_lt]
      have c2 : (if q = cur.et_elem_node ∧ cur.et_elem_node < nodes.length then (1 : Int)
          else 0) = if q = cur.et_elem_node then 1 else 0 := by simp [hx]
      rw [c1, c2]
      exact parity_step _ _ _ _ h1
    have hlen : (et_set_edge_used nodes prv cur.et_elem_node).length = nodes.length := hfr.1
    constructor
    · intro hid
      have hxe : cur.et_elem_node = e :=
        ids_inj _ hinv.simple.ids_nodup _ _ (by rw [hlen]; exact hx)
          (by rw [hlen]; exact hP.end_lt) hid
      obtain ⟨u, hu2⟩ : ∃ u, t ++ [prv] = s :: u := by
        cases htp : t ++ [prv] with
        | nil => simp at htp
        | cons a u =>
          rw [htp] at hhd
          simp only [List.head?_cons, Option.some.injEq] at hhd
          exact ⟨u, by rw [hhd]⟩
      exact {
        inv := hinv
        frame := walk_frame_trans hP.frame hfr
        sub := ⟨_, u, rfl, by rw [hlst, hu2, hxe]; rfl, hnum, hused⟩
        even := by
          intro q
          have h3 : ¬ (node_at (et_set_edge_used nodes prv cur.et_elem_node) q).et_edeg % 2 = 1 :=
            fun hc => (hpar q).1 hc (by rw [hxe])
          show (node_at (et_set_edge_used nodes prv cur.et_elem_node) q).et_edeg % 2 = 0
          omega }
    · intro hid
      have hxe : cur.et_elem_node ≠ e := fun hc => hid (by rw [hc])
      exact {
        inv := hinv
        frame := walk_frame_trans hP.frame hfr
        shape := ⟨t ++ [prv], hlst, by
          cases htp : t ++ [prv] with
          | nil => simp at htp
          | cons a u =>
            rw [htp] at hhd
            simpa using hhd⟩
        num := hnum
        used := hused
        parity := hpar
        live := fun hc => absurd hc hxe
        prv_lt := by rw [hlen]; exact hx
        end_lt := by rw [hlen]; exact hP.end_lt }

/-- A call of `et_sub_circuit` in a graph without repeated edges, from a node `s` that has an
unused edge or is not the end node, when `et_edeg` is odd exactly at the two ends of the walk
(at no node if they coincide): the call returns a walk from `s` to the end node over edges not
used before. -/
theorem et_sub_circuit_live (nodes : List et_node) (W : List (Nat × Nat)) (s : Nat)
    (end_ : Option Nat) (list : et_trail) (w : et_walk)
    (hi : walk_inv nodes) (hu : pairs_used nodes W) (hs : s < nodes.length)
    (he : end_.getD s < nodes.length)
    (hpar : ∀ q, (node_at nodes q).et_edeg % 2 = 1 ↔ ¬ (q = end_.getD s ↔ q = s))
    (hlive : s = end_.getD s → 0 < (node_at nodes s).et_edeg)
    (h : et_sub_circuit nodes (some s) end_ list = .ok w) :
    walk_done nodes W s (end_.getD s) w := by
  rw [et_sub_circuit_unfold] at h
  refine walk_state_run nodes W s (end_.getD s) _ nodes _ _ s w ?_ h
  exact {
    inv := hi
    frame := walk_frame_refl _
    shape := ⟨[], rfl, rfl⟩
    num := rfl
    used := by
      simp only [et_trail_add_elem, List.nil_append, ptr_pairs, List.append_nil]
      exact hu
    parity := hpar
    live := hlive
    prv_lt := hs
    end_lt := he }

/-! ## The splicing loop in a graph without repeated edges -/

theorem et_sub_circuit_scan_none (k : List et_node → et_trail → et_trail → Nat → et_result et_walk)
    (e : Nat) (nodes : List et_node) (list sub : et_trail) (prv : Nat) :
    ∀ (l : List et_elem),
      (∀ cur, cur ∈ l → ¬ ((node_at nodes cur.et_elem_node).et_edeg > 0 ∧ cur.et_elem_usd = 0)) →
      et_sub_circuit_scan k e nodes list sub prv l = .ok ⟨nodes, list, none⟩ := by
  intro l
  induction l with
  | nil => intro _; rfl
  | cons cur nxt ih =>
    intro h
    unfold et_sub_circuit_scan
    rw [if_neg (h cur (List.mem_cons_self _ _))]
    exact ih (fun c hc => h c (List.mem_cons_of_mem _ hc))

/-- A call of `et_sub_circuit` that starts at a node whose `et_edeg` is 0 takes the stalled
branch in the first iteration: it returns `NULL` and changes neither the node records nor the
candidate list. -/
theorem et_sub_circuit_stall (nodes : List et_node) (s : Nat) (end_ : Option Nat)
    (list : et_trail) (hi : walk_inv nodes) (h0 : (node_at nodes s).et_edeg = 0) :
    et_sub_circuit nodes (some s) end_ list = .ok ⟨nodes, list, none⟩ := by
  rw [et_sub_circuit_unfold, if_neg (by rw [h0]; decide)]
  unfold et_walk_fuel et_sub_circuit_loop
  apply et_sub_circuit_scan_none
  intro cur hc hcon
  have := edeg_pos_of_unused nodes hi s cur.et_elem_node ⟨cur, hc, rfl, hcon.2⟩
  omega

theorem mem_ptr_pairs : ∀ (l : List Nat), 2 ≤ l.length → ∀ p, p ∈ l →
    ∃ c, c ∈ ptr_pairs l ∧ (p = c.1 ∨ p = c.2)
  | [], h, _, _ => by simp at h
  | [_], h, _, _ => by simp at h
  | [a, b], _, p, hp => by
    refine ⟨(a, b), by simp [ptr_pairs], ?_⟩
    simpa using hp
  | a :: b :: c :: l, _, p, hp => by
    rcases List.mem_cons.1 hp with h1 | h1
    · exact ⟨(a, b), by simp [ptr_pairs], Or.inl h1⟩
    · obtain ⟨d, hd, hd2⟩ := mem_ptr_pairs (b :: c :: l) (by simp) p h1
      exact ⟨d, by simp only [ptr_pairs, List.mem_cons]; exact Or.inr (by simpa [ptr_pairs] using hd), hd2⟩

theorem pairs_used_valid (nodes : List et_node) (hs : simple_graph nodes) (l : List Nat)
    (h : pairs_used nodes (ptr_pairs l)) (h2 : 2 ≤ l.length) :
    ∀ p, p ∈ l → p < nodes.length := by
  intro p hp
  obtain ⟨c, hc, hpc⟩ := mem_ptr_pairs l h2 p hp
  have := mem_targets_lt nodes hs.wf _ _ (h.entry c hc)
  rcases hpc with h1 | h1
  · rw [h1]; exact this.1
  · rw [h1]; exact this.2

theorem ptr_pairs_splice (X Y R : List Nat) (c : Nat) :
    List.Perm (ptr_pairs ((X ++ [c]) ++ (R ++ [c]) ++ Y))
      (ptr_pairs (X ++ c :: Y) ++ ptr_pairs (c :: (R ++ [c]))) := by
  have e1 : (X ++ [c]) ++ (R ++ [c]) ++ Y = X ++ c :: ((c :: R) ++ c :: Y).tail := by simp
  have e2 : ((c :: R) ++ c :: Y).tail = R ++ c :: Y := rfl
  rw [e1, e2, ptr_pairs_append c (R ++ c :: Y) X, ptr_pairs_append c Y X]
  have e3 : c :: (R ++ c :: Y) = (c :: R) ++ c :: Y := rfl
  rw [e3, ptr_pairs_append c Y (c :: R), List.append_assoc]
  apply List.Perm.append_left
  exact List.perm_append_comm

theorem split_at_index (l : List Nat) (i : Nat) (h : i < l.length) :
    l.take (i + 1) = l.take i ++ [l.get ⟨i, h⟩] ∧
    l = l.take i ++ l.get ⟨i, h⟩ :: l.drop (i + 1) := by
  constructor
  · rw [List.take_succ]
    simp [List.getElem?_eq_getElem h]
  · conv_lhs => rw [← List.take_append_drop i l]
    congr 1
    simp

theorem getLast?_append_cons (A : List Nat) (a : Nat) (Y : List Nat) :
    (A ++ a :: Y).getLast? = (a :: Y).getLast? := by
  rw [List.getLast?_append, List.getLast?_eq_getLast (a :: Y) (by simp)]
  rfl

/-- One iteration of the splicing loop keeps the trail a walk over used edges. -/
theorem trail_state_iter (nodes0 : List et_node) (s e : Nat) (nodes : List et_node)
    (list trail : et_trail) (cur : Nat) (w : et_walk) (trail1 : et_trail)
    (hI : trail_state nodes0 s e nodes list trail) (hc : cur ∈ list.et_trail_lst)
    (hw : et_sub_circuit nodes (some cur) none list = .ok w)
    (hins : et_insert_sub_circuit w.nodes trail w.sub = .ok trail1) :
    trail_state nodes0 s e w.nodes w.list trail1 := by
  have hk := et_sub_circuit_keeps nodes (some cur) none list w hw hI.cand
  have hcl : cur < nodes.length := hI.cand.2 cur hc
  have hnn : 0 ≤ (node_at nodes cur).et_edeg := by
    rw [hI.inv.edeg_eq]; exact sum_weight_nonneg _ _
  by_cases h0 : (node_at nodes cur).et_edeg = 0
  · rw [et_sub_circuit_stall nodes cur none list hI.inv h0] at hw
    simp only [et_result.ok.injEq] at hw
    rw [← hw] at hins ⊢
    simp only [et_insert_sub_circuit, et_result.ok.injEq] at hins
    rw [← hins]
    exact hI
  · have hd := et_sub_circuit_live nodes (ptr_pairs trail.et_trail_lst) cur none list w hI.inv
      hI.used hcl hcl
      (fun q => by
        have := hI.even q
        simp only [Option.getD_none, iff_self, not_true_eq_false, iff_false]
        omega)
      (fun _ => by omega) hw
    simp only [Option.getD_none] at hd
    obtain ⟨t, u, hsub, hshape, hnum, hused⟩ := hd.sub
    have hbase : trail_state nodes0 s e w.nodes w.list trail :=
      { inv := hd.inv
        frame := walk_frame_trans hI.frame hd.frame
        cand := hk.2.1
        first := hI.first
        last := hI.last
        two := hI.two
        num := hI.num
        used := pairs_used_sublist _ _ _ hused (List.sublist_append_left _ _)
        even := hd.even }
    rw [hsub] at hins
    obtain ⟨h1, h2, -⟩ := et_insert_sub_circuit_splice w.nodes trail t cur (u ++ [cur]) hshape
    by_cases hm : (node_at w.nodes cur).et_id ∈
        trail.et_trail_lst.map (fun p => (node_at w.nodes p).et_id)
    · obtain ⟨T1, e1, hl, -, hnl⟩ := h1 (by simp) hm
      rw [e1] at hins
      simp only [et_result.ok.injEq] at hins
      rw [← hins]
      have hi := List.indexOf_lt_length.2 hm
      have hget := List.indexOf_get hi
      generalize (trail.et_trail_lst.map (fun p => (node_at w.nodes p).et_id)).indexOf
        (node_at w.nodes cur).et_id = i at hi hl hget
      have hi2 : i < trail.et_trail_lst.length := by simpa using hi
      have hcur : trail.et_trail_lst.get ⟨i, hi2⟩ = cur := by
        apply ids_inj w.nodes hd.inv.simple.ids_nodup
        · exact pairs_used_valid w.nodes hd.inv.simple _ hbase.used hbase.two _
            (List.get_mem _ _ _)
        · rw [hd.frame.1]; exact hcl
        · simpa using hget
      obtain ⟨hs1, hs2⟩ := split_at_index trail.et_trail_lst i hi2
      rw [hcur] at hs1 hs2
      rw [hs1] at hl
      have hfirst := hI.first
      have hlast := hI.last
      have hu2 := hused
      rw [hshape] at hu2
      revert hl hfirst hlast hu2
      generalize trail.et_trail_lst.drop (i + 1) = Y at hs2
      generalize trail.et_trail_lst.take i = X at hs2
      rw [hs2]
      intro hl hfirst hlast hu2
      exact {
        inv := hd.inv
        frame := walk_frame_trans hI.frame hd.frame
        cand := hk.2.1
        first := by
          rw [hl]
          cases X with
          | nil => simpa using hfirst
          | cons a X => simpa using hfirst
        last := by
          rw [hl]
          cases Y with
          | nil =>
            rw [getLast?_append_cons] at hlast
            have e1 : X ++ [cur] ++ (u ++ [cur]) ++ [] = (X ++ [cur] ++ u) ++ cur :: [] := by simp
            rw [e1, getLast?_append_cons]
            exact hlast
          | cons a Y =>
            have e1 : X ++ cur :: a :: Y = (X ++ [cur]) ++ a :: Y := by simp
            rw [e1, getLast?_append_cons] at hlast
            rw [getLast?_append_cons]
            exact hlast
        two := by
          rw [hl]
          simp only [List.length_append, List.length_cons, List.length_nil]
          omega
        num := hnl hI.num hnum
        used := by
          rw [hl]
          exact pairs_used_perm _ _ _ hu2 (ptr_pairs_splice X Y u cur)
        even := hd.even }
    · rw [h2 hm] at hins
      simp only [et_result.ok.injEq] at hins
      rw [← hins]
      exact hbase

/-! ## Soundness on graphs without repeated edges -/

theorem trail_pairs_map (f : Nat → Int) : ∀ (l : List Nat),
    trail_pairs (l.map f) = (ptr_pairs l).map (fun c => (f c.1, f c.2))
  | [] => rfl
  | [_] => rfl
  | a :: b :: l => by
    have ih := trail_pairs_map f (b :: l)
    simp only [List.map_cons, trail_pairs, ptr_pairs] at ih ⊢
    rw [ih]

/-- Node records that the validator hands over when it accepts a graph built from an edge list
without repeated edges: they are consistent, every adjacency entry stands for an input edge
and every node has an edge left. -/
theorem accepted_walk_inv (edges : List (Int × Int)) (st : et_state) (v : Int)
    (hs : (edges.map norm_edge).Nodup)
    (hv : et_validate_graph (et_build edges) = .ok (st, v)) (hacc : v ≠ 0) :
    walk_inv st.graph.et_node_lst ∧
    (∀ p x, x ∈ targets st.graph.et_node_lst p →
      edge_of st.graph.et_node_lst p x ∈ edges.map norm_edge) ∧
    (∀ p, p < st.graph.et_node_lst.length → 0 < (node_at st.graph.et_node_lst p).et_edeg) := by
  obtain ⟨hne, hlen, hshape, hedeg, -⟩ := validate_accept edges st v hv hacc
  obtain ⟨hsg, hfresh, hsound, hdeg, hpos⟩ := simple_inv_build edges hs
  have htar : ∀ p, targets st.graph.et_node_lst p = targets (et_build edges).graph.et_node_lst p := by
    intro p
    unfold targets
    rw [(hshape p).2.2]
  have hsg1 : simple_graph st.graph.et_node_lst :=
    { ids_nodup := by
        rw [map_id_congr _ _ hlen (fun q => (hshape q).1)]
        exact hsg.ids_nodup
      wf := by
        intro q e he
        rw [(hshape q).2.2] at he
        rw [hlen]
        exact hsg.wf q e he
      targets_nodup := by
        intro p; rw [htar]; exact hsg.targets_nodup p
      symm := by
        intro p x hx
        rw [htar] at hx ⊢
        exact hsg.symm p x hx }
  refine ⟨{ simple := hsg1, mirror := ?_, edeg_eq := ?_ }, ?_, ?_⟩
  · rintro p x ⟨e, he, hn, _⟩
    have hx : x ∈ targets st.graph.et_node_lst p := by
      rw [← hn]; exact List.mem_map_of_mem _ he
    have hp := hsg1.symm p x hx
    obtain ⟨e1, he1, hn1⟩ := List.mem_map.1 hp
    refine ⟨e1, he1, hn1, ?_⟩
    rw [(hshape x).2.2] at he1
    exact hfresh x e1 he1
  · intro p
    rw [hedeg p, (hshape p).2.1, (hshape p).2.2]
    exact hdeg p
  · intro p x hx
    rw [htar] at hx
    have := hsound p x hx
    unfold edge_of at this ⊢
    rw [(hshape p).1, (hshape x).1]
    exact this
  · intro p hp
    rw [hedeg p, (hshape p).2.1]
    exact hpos p (by rw [← hlen]; exact hp)

/-- The two ends of the initial walk on an accepted graph: the first node for a circuit
instance, the two nodes of odd degree for a trail instance. -/
theorem accepted_ends (edges : List (Int × Int)) (st : et_state) (v : Int)
    (hv : et_validate_graph (et_build edges) = .ok (st, v)) (hacc : v ≠ 0) :
    ∃ (a : Nat) (b : Option Nat),
      ((st.circuit ≠ 0 ∧ a = 0 ∧ b = none ∧
          ∀ q, ¬ (node_at st.graph.et_node_lst q).et_deg % 2 = 1) ∨
        (st.circuit = 0 ∧ ∃ b1, b = some b1 ∧ a ≠ b1 ∧ st.graph.et_odd_nodes = [a, b1] ∧
          ∀ q, ((node_at st.graph.et_node_lst q).et_deg % 2 = 1 ↔ (q = a ∨ q = b1)))) ∧
      et_eulerian_trail st =
        (match et_sub_circuit st.graph.et_node_lst (some a) b ⟨0, []⟩ with
         | .ok w =>
           match w.sub with
           | none => .fault
           | some trail =>
             if et_is_trail st trail then .ok ⟨w.nodes, w.list, trail⟩
             else et_splice_loop st (st.graph.et_node_lst.length + 1) w.nodes w.list trail 0
         | .fault => .fault
         | .timeout => .timeout) ∧
      a < st.graph.et_node_lst.length ∧ b.getD a < st.graph.et_node_lst.length ∧
      (∀ q, (node_at st.graph.et_node_lst q).et_edeg % 2 = 1 ↔ ¬ (q = b.getD a ↔ q = a)) := by
  obtain ⟨hne, hlen, hshape, hedeg, hcase⟩ := validate_accept edges st v hv hacc
  have hpos : 0 < st.graph.et_node_lst.length := by
    rw [hlen]; exact List.length_pos.2 hne
  have hoddlt : ∀ q, (node_at st.graph.et_node_lst q).et_deg % 2 = 1 →
      q < st.graph.et_node_lst.length := by
    intro q ho
    by_contra hq
    rw [node_at_of_le _ q (by omega)] at ho
    simp [null_node] at ho
  rcases hcase with ⟨hc, hev⟩ | ⟨hc, a, b1, hodd, hab, hiff⟩
  · refine ⟨0, none, Or.inl ⟨hc, rfl, rfl, hev⟩, ?_, hpos, hpos, ?_⟩
    · unfold et_eulerian_trail
      simp only
      rw [if_pos hc]
      cases hl : st.graph.et_node_lst with
      | nil => rw [hl] at hpos; simp at hpos
      | cons x l => rfl
    · intro q
      rw [hedeg q]
      simp only [Option.getD_none, iff_self, not_true_eq_false, iff_false]
      exact hev q
  · refine ⟨a, some b1, Or.inr ⟨hc, b1, rfl, hab, hodd, hiff⟩, ?_,
      hoddlt a ((hiff a).2 (Or.inl rfl)), hoddlt b1 ((hiff b1).2 (Or.inr rfl)), ?_⟩
    · unfold et_eulerian_trail
      simp only
      rw [if_neg (fun h => h hc), hodd]
      try rfl
    · intro q
      rw [hedeg q, hiff q]
      simp only [Option.getD_some]
      constructor
      · rintro (h | h) hc2
        · exact hab (h.symm.trans (hc2.2 h))
        · exact hab ((hc2.1 h).symm.trans h)
      · intro h
        by_contra hc2
        simp only [not_or] at hc2
        exact h ⟨fun h1 => absurd h1 hc2.2, fun h1 => absurd h1 hc2.1⟩

/-- The run of `et_eulerian_trail` on an accepted graph without repeated edges: the initial
walk returns a sub-circuit from the first to the second end, the run returns a trail, and that
trail still runs between the two ends over used edges, none of them twice. -/
theorem accepted_run (edges : List (Int × Int)) (st : et_state) (v : Int)
    (hs : (edges.map norm_edge).Nodup)
    (hv : et_validate_graph (et_build edges) = .ok (st, v)) (hacc : v ≠ 0) :
    ∃ (a : Nat) (b : Option Nat) (w : et_walk) (t : et_trail) (r : et_run),
      ((st.circuit ≠ 0 ∧ a = 0 ∧ b = none ∧
          ∀ q, ¬ (node_at st.graph.et_node_lst q).et_deg % 2 = 1) ∨
        (st.circuit = 0 ∧ ∃ b1, b = some b1 ∧ a ≠ b1 ∧ st.graph.et_odd_nodes = [a, b1] ∧
          ∀ q, ((node_at st.graph.et_node_lst q).et_deg % 2 = 1 ↔ (q = a ∨ q = b1)))) ∧
      et_sub_circuit st.graph.et_node_lst (some a) b ⟨0, []⟩ = .ok w ∧ w.sub = some t ∧
      trail_state st.graph.et_node_lst a (b.getD a) w.nodes w.list t ∧
      et_eulerian_trail st = .ok r ∧
      ((et_is_trail st t = true ∧ r = ⟨w.nodes, w.list, t⟩) ∨
        (et_is_trail st t = false ∧
          et_splice_loop st (st.graph.et_node_lst.length + 1) w.nodes w.list t 0 = .ok r)) ∧
      trail_state st.graph.et_node_lst a (b.getD a) r.nodes r.list r.trail := by
  obtain ⟨a, b, hends, heq, ha, hb, hpar⟩ := accepted_ends edges st v hv hacc
  obtain ⟨hinv, -, hpos⟩ := accepted_walk_inv edges st v hs hv hacc
  obtain ⟨w, hw⟩ := et_sub_circuit_total st.graph.et_node_lst (some a) b ⟨0, []⟩
  have hd := et_sub_circuit_live st.graph.et_node_lst [] a b ⟨0, []⟩ w hinv
    (pairs_used_nil _) ha hb hpar (fun _ => hpos a ha) hw
  have hc0 : cand_inv st.graph.et_node_lst ⟨0, []⟩ := by
    constructor
    · simp [trail_ids_of]
    · intro p hp; simp at hp
  have hk := et_sub_circuit_keeps _ _ _ _ w hw hc0
  obtain ⟨t, u, hsub, hshape, hnum, hused⟩ := hd.sub
  have hT0 : trail_state st.graph.et_node_lst a (b.getD a) w.nodes w.list t :=
    { inv := hd.inv
      frame := hd.frame
      cand := hk.2.1
      first := by rw [hshape]; rfl
      last := by
        rw [hshape]
        have e1 : a :: (u ++ [b.getD a]) = (a :: u) ++ b.getD a :: [] := rfl
        rw [e1, getLast?_append_cons]
        rfl
      two := by rw [hshape]; simp
      num := hnum
      used := by simpa using hused
      even := hd.even }
  rw [hw] at heq
  simp only [hsub] at heq
  by_cases hit : et_is_trail st t = true
  · rw [if_pos hit] at heq
    exact ⟨a, b, w, t, _, hends, hw, hsub, hT0, heq, Or.inl ⟨hit, rfl⟩, hT0⟩
  · rw [if_neg hit] at heq
    obtain ⟨r, hr⟩ := et_splice_loop_total st (st.graph.et_node_lst.length + 1) w.nodes w.list
      t 0 hk.2.1 (Nat.zero_le _) (by rw [hd.frame.1])
    have hT := splice_rule st (trail_state st.graph.et_node_lst a (b.getD a))
      (fun nodes list trail cur w1 trail1 hI hc _ hw1 hins =>
        trail_state_iter _ a (b.getD a) nodes list trail cur w1 trail1 hI hc hw1 hins)
      _ w.nodes w.list t 0 r hT0 hr
    rw [hr] at heq
    exact ⟨a, b, w, t, r, hends, hw, hsub, hT0, heq,
      Or.inr ⟨by simpa using hit, hr⟩, hT⟩

/-! ## Degrees and the edge list -/

theorem deg_count_add_edge (g : et_graph) (n1 n2 : Int) (c : Int → Nat)
    (hn : (g.et_node_lst.map (fun n => n.et_id)).Nodup)
    (hd : ∀ q, q < g.et_node_lst.length →
      (node_at g.et_node_lst q).et_deg = (c (node_at g.et_node_lst q).et_id : Int))
    (h0 : ∀ z, z ∉ g.et_node_lst.map (fun n => n.et_id) → c z = 0) :
    (∀ q, q < (et_add_edge g n1 n2).et_node_lst.length →
      (node_at (et_add_edge g n1 n2).et_node_lst q).et_deg =
        ((c (node_at (et_add_edge g n1 n2).et_node_lst q).et_id +
          [n1, n2].count (node_at (et_add_edge g n1 n2).et_node_lst q).et_id : Nat) : Int)) ∧
    (∀ z, z ∉ (et_add_edge g n1 n2).et_node_lst.map (fun n => n.et_id) →
      c z + [n1, n2].count z = 0) := by
  obtain ⟨p1, p2, s⟩ := et_add_edge_spec g n1 n2
  have hn1 := add_edge_spec_nodup s hn
  obtain ⟨hlen, -⟩ := add_edge_spec_len s
  constructor
  · intro q hq
    have hq1 : (node_at (et_add_edge g n1 n2).et_node_lst q).et_id = n1 ↔ q = p1 :=
      ⟨fun h => ids_inj _ hn1 q p1 hq s.p1_lt (h.trans s.id1.symm), fun h => by rw [h]; exact s.id1⟩
    have hq2 : (node_at (et_add_edge g n1 n2).et_node_lst q).et_id = n2 ↔ q = p2 :=
      ⟨fun h => ids_inj _ hn1 q p2 hq s.p2_lt (h.trans s.id2.symm), fun h => by rw [h]; exact s.id2⟩
    have hbase : (node_at g.et_node_lst q).et_deg =
        (c (node_at (et_add_edge g n1 n2).et_node_lst q).et_id : Int) := by
      by_cases hql : q < g.et_node_lst.length
      · rw [s.id_eq q hql]; exact hd q hql
      · rw [node_at_of_le _ q (by omega)]
        have : c (node_at (et_add_edge g n1 n2).et_node_lst q).et_id = 0 := by
          apply h0
          intro hm
          obtain ⟨q1, hq1l, hq1e⟩ := (mem_ids_iff _ _).1 hm
          rw [← s.id_eq q1 hq1l] at hq1e
          have := ids_inj _ hn1 q1 q (by omega) hq hq1e
          omega
        rw [this]; rfl
    have k1 : (if n1 = (node_at (et_add_edge g n1 n2).et_node_lst q).et_id then (1 : Nat)
        else 0) = if q = p1 then 1 else 0 := by
      by_cases h : q = p1
      · rw [if_pos h, if_pos (hq1.2 h).symm]
      · rw [if_neg h, if_neg (fun e => h (hq1.1 e.symm))]
    have k2 : (if n2 = (node_at (et_add_edge g n1 n2).et_node_lst q).et_id then (1 : Nat)
        else 0) = if q = p2 then 1 else 0 := by
      by_cases h : q = p2
      · rw [if_pos h, if_pos (hq2.2 h).symm]
      · rw [if_neg h, if_neg (fun e => h (hq2.1 e.symm))]
    rw [s.deg_eq q, hbase]
    simp only [List.count_cons, List.count_nil, beq_iff_eq, k1, k2]
    split_ifs <;> push_cast <;> ring
  · intro z hz
    rw [ids_add_edge] at hz
    simp only [not_or] at hz
    rw [h0 z hz.1]
    have e1 : ¬ n1 = z := fun h => hz.2.1 h.symm
    have e2 : ¬ n2 = z := fun h => hz.2.2 h.symm
    simp only [List.count_cons, List.count_nil, beq_iff_eq, if_neg e1, if_neg e2]

theorem deg_count_read_edges : ∀ (edges : List (Int × Int)) (g : et_graph) (c : Int → Nat),
    (g.et_node_lst.map (fun n => n.et_id)).Nodup →
    (∀ q, q < g.et_node_lst.length →
      (node_at g.et_node_lst q).et_deg = (c (node_at g.et_node_lst q).et_id : Int)) →
    (∀ z, z ∉ g.et_node_lst.map (fun n => n.et_id) → c z = 0) →
    ∀ q, q < (et_read_edges g edges).et_node_lst.length →
      (node_at (et_read_edges g edges).et_node_lst q).et_deg =
        ((c (node_at (et_read_edges g edges).et_node_lst q).et_id +
          (edge_ids edges).count (node_at (et_read_edges g edges).et_node_lst q).et_id : Nat) :
          Int) := by
  intro edges
  induction edges with
  | nil =>
    intro g c _ hd _ q hq
    simp only [et_read_edges, edge_ids, List.count_nil, add_zero] at hq ⊢
    exact hd q hq
  | cons e rest ih =>
    intro g c hn hd h0 q hq
    obtain ⟨p1, p2, s⟩ := et_add_edge_spec g e.1 e.2
    obtain ⟨hd1, h01⟩ := deg_count_add_edge g e.1 e.2 c hn hd h0
    have := ih (et_add_edge g e.1 e.2) (fun z => c z + [e.1, e.2].count z)
      (add_edge_spec_nodup s hn) hd1 h01 q hq
    simp only [et_read_edges, edge_ids] at hq ⊢
    rw [this]
    simp only [List.count_cons, List.count_nil]
    push_cast
    ring

/-- The degree that `et_build_graph` stores in a node is the number of edge ends of the input
that carry the identifier of the node. -/
theorem deg_count_build (edges : List (Int × Int)) (q : Nat)
    (hq : q < (et_build edges).graph.et_node_lst.length) :
    (node_at (et_build edges).graph.et_node_lst q).et_deg =
      ((edge_ids edges).count (node_at (et_build edges).graph.et_node_lst q).et_id : Int) := by
  have := deg_count_read_edges edges et_init_graph (fun _ => 0) (by simp [et_init_graph])
    (fun q hq => by simp [et_init_graph] at hq) (fun _ _ => rfl) q hq
  simp only [Nat.zero_add] at this
  exact this

/-- C19: soundness on graphs without repeated edges. Let `edges` hold no edge twice, in either
direction, so that no two distinct nodes are joined by more than one edge and no node has more
than one self-loop, let `et_validate_graph` accept the graph built from `edges`, and let
`et_eulerian_trail` return the trail `r.trail`. Then every consecutive pair of printed
identifiers is an edge of `edges`, no edge is traversed twice, the entry count of the trail is
the length of its list, and the first and last entries are those of the sub-circuit `t` that
the initial call of `et_sub_circuit` returned: the first node of the node list at both ends for
a circuit instance, the two nodes of odd degree, as held by the odd-node list, for a trail
instance. The degree `et_deg` of a node is the number of edge ends of `edges` that carry its
identifier. -/
theorem trail_sound_simple (edges : List (Int × Int)) (st : et_state) (v : Int) (r : et_run)
    (hs : (edges.map norm_edge).Nodup)
    (hv : et_validate_graph (et_build edges) = .ok (st, v)) (hacc : v ≠ 0)
    (hr : et_eulerian_trail st = .ok r) :
    (∀ c, c ∈ trail_pairs (et_print_trail r.nodes r.trail) → (c ∈ edges ∨ (c.2, c.1) ∈ edges)) ∧
    ((trail_pairs (et_print_trail r.nodes r.trail)).map norm_edge).Nodup ∧
    r.trail.et_trail_num = (r.trail.et_trail_lst.length : Int) ∧
    ∃ (a : Nat) (b : Option Nat) (w : et_walk) (t : et_trail),
      et_sub_circuit st.graph.et_node_lst (some a) b ⟨0, []⟩ = .ok w ∧ w.sub = some t ∧
      r.trail.et_trail_lst.head? = t.et_trail_lst.head? ∧
      r.trail.et_trail_lst.getLast? = t.et_trail_lst.getLast? ∧
      r.trail.et_trail_lst.head? = some a ∧
      r.trail.et_trail_lst.getLast? = some (b.getD a) ∧
      ((st.circuit ≠ 0 ∧ a = 0 ∧ b = none) ∨
        (st.circuit = 0 ∧ ∃ b1, b = some b1 ∧ a ≠ b1 ∧ st.graph.et_odd_nodes = [a, b1] ∧
          ∀ q, ((node_at st.graph.et_node_lst q).et_deg % 2 = 1 ↔ (q = a ∨ q = b1)))) ∧
      ∀ q, q < st.graph.et_node_lst.length →
        (node_at st.graph.et_node_lst q).et_deg =
          ((edge_ids edges).count (node_at st.graph.et_node_lst q).et_id : Int) := by
  obtain ⟨a, b, w, t, r1, hends, hw, hsub, hT0, hr1, -, hT⟩ :=
    accepted_run edges st v hs hv hacc
  rw [hr] at hr1
  simp only [et_result.ok.injEq] at hr1
  rw [← hr1] at hT
  obtain ⟨-, hsound, -⟩ := accepted_walk_inv edges st v hs hv hacc
  have hid : ∀ q, (node_at r.nodes q).et_id = (node_at st.graph.et_node_lst q).et_id :=
    fun q => (hT.frame.2 q).1
  have hpairs : trail_pairs (et_print_trail r.nodes r.trail) =
      (ptr_pairs r.trail.et_trail_lst).map
        (fun c => ((node_at r.nodes c.1).et_id, (node_at r.nodes c.2).et_id)) := by
    unfold et_print_trail
    exact trail_pairs_map _ _
  refine ⟨?_, ?_, hT.num, a, b, w, t, hw, hsub, ?_, ?_, hT.first, hT.last, ?_, ?_⟩
  · intro c hc
    rw [hpairs] at hc
    obtain ⟨d, hd, hdc⟩ := List.mem_map.1 hc
    have h1 := hT.used.entry d hd
    rw [targets_frame _ _ hT.frame] at h1
    have h2 := hsound d.1 d.2 h1
    obtain ⟨e, he, hee⟩ := List.mem_map.1 h2
    unfold edge_of at hee
    rw [← hid d.1, ← hid d.2] at hee
    have h3 := (norm_edge_eq_iff e.1 e.2 _ _).1 hee
    rw [← hdc]
    rcases h3 with ⟨h4, h5⟩ | ⟨h4, h5⟩
    · left
      rw [← h4, ← h5]
      exact he
    · right
      show ((node_at r.nodes d.2).et_id, (node_at r.nodes d.1).et_id) ∈ edges
      rw [← h4, ← h5]
      exact he
  · rw [hpairs, List.map_map]
    exact hT.used.nodup
  · rw [hT.first, hT0.first]
  · rw [hT.last, hT0.last]
  · rcases hends with ⟨h1, h2, h3, -⟩ | ⟨h1, b1, h2, h3, h4, h5⟩
    · exact Or.inl ⟨h1, h2, h3⟩
    · exact Or.inr ⟨h1, b1, h2, h3, h4, h5⟩
  · intro q hq
    obtain ⟨-, hlen, hshape, -⟩ := validate_accept edges st v hv hacc
    rw [(hshape q).1, (hshape q).2.1]
    exact deg_count_build edges q (by rw [← hlen]; exact hq)

/-- Witness for C19: two triangles that share node 1. The accepted run splices the second
triangle into the first; its trail uses no edge twice and has as many entries as it
counts. -/
theorem trail_sound_simple_witness :
    ∃ (st : et_state) (r : et_run),
      et_validate_graph (et_build [(1, 2), (2, 3), (3, 1), (1, 4), (4, 5), (5, 1)]) =
        .ok (st, 1) ∧
      et_eulerian_trail st = .ok r ∧
      ((trail_pairs (et_print_trail r.nodes r.trail)).map norm_edge).Nodup ∧
      r.trail.et_trail_num = (r.trail.et_trail_lst.length : Int) := by
  have h : ∃ (st : et_state) (r : et_run),
      et_validate_graph (et_build [(1, 2), (2, 3), (3, 1), (1, 4), (4, 5), (5, 1)]) =
        .ok (st, 1) ∧ et_eulerian_trail st = .ok r := ⟨_, _, rfl, rfl⟩
  obtain ⟨st, r, h1, h2⟩ := h
  have h3 := trail_sound_simple [(1, 2), (2, 3), (3, 1), (1, 4), (4, 5), (5, 1)] st 1 r
    (by decide) h1 (by decide) h2
  exact ⟨st, r, h1, h2, h3.2.1, h3.2.2.1⟩

/-! ## Walks rooted at candidates -/

/-- Proof rule for the calls of the splicing loop: a property of node records, candidate list
and trail that every iteration keeps holds at every call, and the root of every call is an
entry of the candidate list. -/
theorem splice_calls_rule (st : et_state) (I : List et_node → et_trail → et_trail → Prop)
    (hiter : ∀ nodes list trail cur w trail1, I nodes list trail →
      cur ∈ list.et_trail_lst → et_is_trail st trail = false →
      et_sub_circuit nodes (some cur) none list = .ok w →
      et_insert_sub_circuit w.nodes trail w.sub = .ok trail1 → I w.nodes w.list trail1) :
    ∀ (fuel : Nat) (nodes : List et_node) (list trail : et_trail) (pos : Nat),
      I nodes list trail →
      ∀ c, c ∈ et_splice_calls st fuel nodes list trail pos →
        c.root ∈ c.list.et_trail_lst ∧ ∃ trail1, I c.nodes c.list trail1 := by
  intro fuel
  induction fuel with
  | zero => intro nodes list trail pos _ c hc; simp [et_splice_calls] at hc
  | succ fuel ih =>
    intro nodes list trail pos hI c hc
    unfold et_splice_calls at hc
    cases hg : list.et_trail_lst.get? pos with
    | none => rw [hg] at hc; simp at hc
    | some cur =>
      rw [hg] at hc
      simp only at hc
      have hmem : cur ∈ list.et_trail_lst := List.get?_mem hg
      by_cases hit : et_is_trail st trail = true
      · rw [if_pos hit] at hc; simp at hc
      · rw [if_neg hit] at hc
        rcases List.mem_cons.1 hc with h1 | h1
        · rw [h1]
          exact ⟨hmem, trail, hI⟩
        · cases hw : et_sub_circuit nodes (some cur) none list with
          | ok w =>
            rw [hw] at h1
            simp only at h1
            cases hins : et_insert_sub_circuit w.nodes trail w.sub with
            | ok trail1 =>
              rw [hins] at h1
              exact ih w.nodes w.list trail1 (pos + 1)
                (hiter nodes list trail cur w trail1 hI hmem (by simpa using hit) hw hins) c h1
            | fault => rw [hins] at h1; simp at h1
            | timeout => rw [hins] at h1; simp at h1
          | fault => rw [hw] at h1; simp at h1
          | timeout => rw [hw] at h1; simp at h1

/-- A call of `et_sub_circuit` rooted at a candidate, in a state of the splicing loop on a graph
without repeated edges: if the `et_edeg` of the candidate is 0 the call takes the stalled branch
in its first iteration, returns `NULL` and changes nothing; otherwise it returns a sub-circuit
that starts and ends at the candidate. -/
theorem candidate_call (nodes0 : List et_node) (s e : Nat) (nodes : List et_node)
    (list trail : et_trail) (cur : Nat) (hI : trail_state nodes0 s e nodes list trail)
    (hc : cur ∈ list.et_trail_lst) :
    ((node_at nodes cur).et_edeg = 0 ∧
      et_sub_circuit nodes (some cur) none list = .ok ⟨nodes, list, none⟩) ∨
    (0 < (node_at nodes cur).et_edeg ∧ ∃ (w : et_walk) (t : et_trail) (u : List Nat),
      et_sub_circuit nodes (some cur) none list = .ok w ∧ w.sub = some t ∧
      t.et_trail_lst = cur :: (u ++ [cur])) := by
  have hcl : cur < nodes.length := hI.cand.2 cur hc
  have hnn : 0 ≤ (node_at nodes cur).et_edeg := by
    rw [hI.inv.edeg_eq]; exact sum_weight_nonneg _ _
  by_cases h0 : (node_at nodes cur).et_edeg = 0
  · exact Or.inl ⟨h0, et_sub_circuit_stall nodes cur none list hI.inv h0⟩
  · right
    obtain ⟨w, hw⟩ := et_sub_circuit_total nodes (some cur) none list
    have hd := et_sub_circuit_live nodes (ptr_pairs trail.et_trail_lst) cur none list w hI.inv
      hI.used hcl hcl
      (fun q => by
        have := hI.even q
        simp only [Option.getD_none, iff_self, not_true_eq_false, iff_false]
        omega)
      (fun _ => by omega) hw
    simp only [Option.getD_none] at hd
    obtain ⟨t, u, hsub, hshape, -, -⟩ := hd.sub
    exact ⟨by omega, w, t, u, hw, hsub, hshape⟩

theorem et_candidate_calls_eq (st : et_state) (a : Nat) (b : Option Nat)
    (h : (st.circuit ≠ 0 ∧ a = 0 ∧ b = none ∧ st.graph.et_node_lst ≠ []) ∨
      (st.circuit = 0 ∧ ∃ b1, b = some b1 ∧ st.graph.et_odd_nodes = [a, b1])) :
    et_candidate_calls st =
      match et_sub_circuit st.graph.et_node_lst (some a) b ⟨0, []⟩ with
      | .ok w =>
        match w.sub with
        | none => []
        | some trail =>
          if et_is_trail st trail then []
          else et_splice_calls st (st.graph.et_node_lst.length + 1) w.nodes w.list trail 0
      | .fault => []
      | .timeout => [] := by
  rcases h with ⟨hc, ha, hb, hne⟩ | ⟨hc, b1, hb, hodd⟩
  · unfold et_candidate_calls
    simp only
    rw [if_pos hc, ha, hb]
    cases hl : st.graph.et_node_lst with
    | nil => exact absurd hl hne
    | cons x l => rfl
  · unfold et_candidate_calls
    simp only
    rw [if_neg (fun h => h hc), hodd, hb]
    try rfl

/-- C17, amended: on every accepted graph without repeated edges the initial call of
`et_sub_circuit` does not take the stalled branch: it returns a sub-circuit that runs from its
start node to its end node, and `et_eulerian_trail` returns a trail. A call rooted at a
candidate takes the stalled branch exactly when the `et_edeg` of the candidate is 0 at the
time of the call; it then stalls in its first iteration, returns `NULL` and leaves node records
and candidate list as they were. A call rooted at a candidate whose `et_edeg` is not 0 returns
a sub-circuit that starts and ends at the candidate. -/
theorem stall_only_at_spent_candidate (edges : List (Int × Int)) (st : et_state) (v : Int)
    (hs : (edges.map norm_edge).Nodup)
    (hv : et_validate_graph (et_build edges) = .ok (st, v)) (hacc : v ≠ 0) :
    (∃ (a : Nat) (b : Option Nat) (w : et_walk) (t : et_trail),
      ((st.circuit ≠ 0 ∧ a = 0 ∧ b = none) ∨
        (st.circuit = 0 ∧ ∃ b1, b = some b1 ∧ st.graph.et_odd_nodes = [a, b1])) ∧
      et_sub_circuit st.graph.et_node_lst (some a) b ⟨0, []⟩ = .ok w ∧ w.sub = some t ∧
      t.et_trail_lst.head? = some a ∧ t.et_trail_lst.getLast? = some (b.getD a) ∧
      2 ≤ t.et_trail_lst.length) ∧
    (∃ r, et_eulerian_trail st = .ok r) ∧
    ∀ c, c ∈ et_candidate_calls st →
      (((node_at c.nodes c.root).et_edeg = 0 ∧
          et_sub_circuit c.nodes (some c.root) none c.list = .ok ⟨c.nodes, c.list, none⟩) ∨
        (0 < (node_at c.nodes c.root).et_edeg ∧ ∃ (w : et_walk) (t : et_trail) (u : List Nat),
          et_sub_circuit c.nodes (some c.root) none c.list = .ok w ∧ w.sub = some t ∧
          t.et_trail_lst = c.root :: (u ++ [c.root]))) := by
  obtain ⟨a, b, w, t, r, hends, hw, hsub, hT0, hr, -, -⟩ := accepted_run edges st v hs hv hacc
  obtain ⟨hne, hlen, -⟩ := validate_accept edges st v hv hacc
  have hne1 : st.graph.et_node_lst ≠ [] := by
    intro hc
    rw [hc] at hlen
    exact hne (List.length_eq_zero.1 hlen.symm)
  refine ⟨⟨a, b, w, t, ?_, hw, hsub, hT0.first, hT0.last, hT0.two⟩, ⟨r, hr⟩, ?_⟩
  · rcases hends with ⟨h1, h2, h3, -⟩ | ⟨h1, b1, h2, -, h4, -⟩
    · exact Or.inl ⟨h1, h2, h3⟩
    · exact Or.inr ⟨h1, b1, h2, h4⟩
  · intro c hc
    rw [et_candidate_calls_eq st a b (by
      rcases hends with ⟨h1, h2, h3, -⟩ | ⟨h1, b1, h2, -, h4, -⟩
      · exact Or.inl ⟨h1, h2, h3, hne1⟩
      · exact Or.inr ⟨h1, b1, h2, h4⟩), hw] at hc
    simp only [hsub] at hc
    by_cases hit : et_is_trail st t = true
    · rw [if_pos hit] at hc; simp at hc
    · rw [if_neg hit] at hc
      obtain ⟨hroot, trail1, hI⟩ := splice_calls_rule st
        (trail_state st.graph.et_node_lst a (b.getD a))
        (fun nodes list trail cur w1 trail1 hI hc _ hw1 hins =>
          trail_state_iter _ a (b.getD a) nodes list trail cur w1 trail1 hI hc hw1 hins)
        _ w.nodes w.list t 0 hT0 c hc
      exact candidate_call _ a (b.getD a) c.nodes c.list trail1 c.root hI hroot

/-- Witness for the amended C17: the graph with a self-loop at each end of one edge, on which
a call rooted at a candidate does stall. -/
theorem stall_only_at_spent_candidate_witness :
    ∃ st : et_state,
      et_validate_graph (et_build [(1, 1), (2, 2), (1, 2)]) = .ok (st, 1) ∧
      (∃ r, et_eulerian_trail st = .ok r) ∧
      ∀ c, c ∈ et_candidate_calls st →
        (((node_at c.nodes c.root).et_edeg = 0 ∧
            et_sub_circuit c.nodes (some c.root) none c.list = .ok ⟨c.nodes, c.list, none⟩) ∨
          (0 < (node_at c.nodes c.root).et_edeg ∧ ∃ (w : et_walk) (t : et_trail) (u : List Nat),
            et_sub_circuit c.nodes (some c.root) none c.list = .ok w ∧ w.sub = some t ∧
            t.et_trail_lst = c.root :: (u ++ [c.root]))) := by
  have h : ∃ st : et_state,
      et_validate_graph (et_build [(1, 1), (2, 2), (1, 2)]) = .ok (st, 1) := ⟨_, rfl⟩
  obtain ⟨st, h1⟩ := h
  have h2 := stall_only_at_spent_candidate [(1, 1), (2, 2), (1, 2)] st 1 (by decide) h1
    (by decide)
  exact ⟨st, h1, h2.2.1, h2.2.2⟩

end Eulerian
